import Mathlib

/-
Verification of the KenKen solver core (src/helpers.rs, src/constraints.rs,
src/main.rs) against its natural-language specification.

Machine integers are modelled as Nat, with explicit reduction modulo 2^32
at every operation where a u32 overflow or underflow can occur in the
source (wrapping semantics of release-mode Rust).  The SmallVec packed
digit-sequence type of helpers.rs is modelled as a plain list of naturals;
this is faithful whenever all stored digits are below 16 and at most 15
digits are stored, which is the representation invariant the source relies
on (4-bit fields of a u64) and which holds for every loader-accepted
puzzle.  Square tables (Tbl) and the row/column mask vectors are modelled
as functions from indices, updated pointwise; out-of-range accesses, which
panic in the source, never occur in the verified call paths.
-/

set_option autoImplicit false

namespace Kenken

/-! Wrapping u32 arithmetic. -/

def w32 : ℕ := 2 ^ 32

def mask32 : ℕ := 2 ^ 32 - 1

/-- Wrapping u32 subtraction, as computed by release-mode Rust. -/
def sub32 (a b : ℕ) : ℕ := (a + (w32 - b % w32)) % w32

/-- Wrapping u32 addition. -/
def add32 (a b : ℕ) : ℕ := (a + b) % w32

/-! BitSet of src/helpers.rs: a set of values 0..31 stored in a u32. -/

/-- BitSet::new_full: bits 1..size set, "(1 << (size + 1)) - 2". -/
def new_full (size : ℕ) : ℕ := (1 <<< (size + 1)) - 2

/-- BitSet::set. -/
def bset (x bit : ℕ) : ℕ := x ||| (1 <<< bit)

/-- BitSet::clear: "self.0 &= !(1 << bit)" with a u32 complement. -/
def bclear (x bit : ℕ) : ℕ := x &&& (mask32 ^^^ (1 <<< bit))

/-- BitSet::count (count_ones of a u32). -/
def bcount (x : ℕ) : ℕ := ((List.range 32).filter (fun i => x.testBit i)).length

/-- BitSet::get_one (u32::trailing_zeros), with the 32-bit width as
structural fuel so that it evaluates by kernel reduction; a u32 input
never exhausts the fuel. -/
def get_one_fuel : ℕ → ℕ → ℕ
  | 0, _ => 32
  | fuel + 1, x =>
      if x = 0 then 32
      else if x % 2 = 1 then 0
      else get_one_fuel fuel (x / 2) + 1

/-- BitSet::get_one (u32::trailing_zeros). -/
def get_one (x : ℕ) : ℕ := get_one_fuel 32 x

/-- u32::leading_zeros. -/
def leading_zeros (x : ℕ) : ℕ := if x = 0 then 32 else 31 - Nat.log2 x

/-- BitSet::get_two: "(32 - leading_zeros - 1, trailing_zeros)" in u32
arithmetic. -/
def get_two (x : ℕ) : ℕ × ℕ := (sub32 (sub32 32 (leading_zeros x)) 1, get_one x)

/-! Data model of src/main.rs. -/

inductive Op where
  | const (c : ℕ)
  | add (goal : ℕ)
  | sub (goal : ℕ)
  | mul (goal : ℕ)
  | div (goal : ℕ)
  deriving DecidableEq

structure Cage where
  cells : List (ℕ × ℕ)
  lastcell : ℕ × ℕ
  operation : Op
  deriving DecidableEq

instance : Inhabited Cage := ⟨⟨[], (0, 0), Op.const 0⟩⟩

structure KenKen where
  size : ℕ
  cages : List Cage
  cell2cage : ℕ → ℕ → ℕ × ℕ

/-- Tbl of u32 values (the working grid and finished solutions). -/
def Grid : Type := ℕ → ℕ → ℕ

instance : Inhabited Grid := ⟨fun _ _ => 0⟩

/-- Tbl::put, modelled as a pointwise update. -/
def Grid.put (g : Grid) (i j v : ℕ) : Grid :=
  fun i2 j2 => if i2 = i ∧ j2 = j then v else g i2 j2

/-- Pointwise update of a function, used for the mask vectors and the
candidate tables. -/
def upd {α : Type} (f : ℕ → α) (i : ℕ) (x : α) : ℕ → α :=
  fun i2 => if i2 = i then x else f i2

/-! Candidate generation, src/constraints.rs.  A SmallVec is a list of
digits; SmallVec::push appends at the end, SmallVec::get is positional
read (0 outside the stored range). -/

/-- CageCandidates::for_add.  The loop bound "goal - len + 2" and the
recursive goal "goal - i" use wrapping u32 subtraction. -/
def for_add (mx : ℕ) : ℕ → ℕ → List (List ℕ)
  | goal, 1 => if goal ≤ mx then [[goal]] else []
  | goal, n + 2 =>
      (List.range' 1 (min (mx + 1) (add32 (sub32 goal (n + 2)) 2) - 1)).flatMap
        (fun i => (for_add mx (sub32 goal i) (n + 1)).map (fun v => v ++ [i]))
  | _, 0 => []

/-- CageCandidates::for_mul.  The loop bound "goal + 1" wraps in u32. -/
def for_mul (mx : ℕ) : ℕ → ℕ → List (List ℕ)
  | goal, 1 => if goal ≤ mx then [[goal]] else []
  | goal, n + 2 =>
      (List.range' 1 (min (mx + 1) (add32 goal 1) - 1)).flatMap
        (fun i =>
          if goal % i = 0 then
            (for_mul mx (goal / i) (n + 1)).map (fun v => v ++ [i])
          else [])
  | _, 0 => []

/-- CageCandidates::for_sub: "(1..max-goal+1)" with wrapping u32
subtraction in the bound. -/
def for_sub (mx goal : ℕ) : List (List ℕ) :=
  (List.range' 1 (add32 (sub32 mx goal) 1 - 1)).flatMap
    (fun i => [[i, i + goal], [i + goal, i]])

/-- CageCandidates::for_div: "(1..max/goal+1)". -/
def for_div (mx goal : ℕ) : List (List ℕ) :=
  (List.range' 1 (mx / goal + 1 - 1)).flatMap
    (fun i => [[i, i * goal], [i * goal, i]])

/-- The filter applied for one pair (i, j) of cage cell positions inside
CageCandidates::reduced. -/
def retainPair (cells : List (ℕ × ℕ)) (i j : ℕ) (l : List (List ℕ)) :
    List (List ℕ) :=
  l.filter (fun cand =>
    if (cells.getD i (0, 0)).1 = (cells.getD j (0, 0)).1 ∨
       (cells.getD i (0, 0)).2 = (cells.getD j (0, 0)).2 then
      cand.getD i 0 ≠ cand.getD j 0
    else True)

/-- CageCandidates::reduced: for every pair i < j of cell positions,
retain only candidates that do not repeat a digit across two cells in one
row or column. -/
def reduced (cage : Cage) (l : List (List ℕ)) : List (List ℕ) :=
  (List.range cage.cells.length).foldl
    (fun acc i =>
      ((List.range cage.cells.length).drop (i + 1)).foldl
        (fun acc2 j => retainPair cage.cells i j acc2) acc)
    l

/-- CageCandidates::from_cage. -/
def from_cage (ken : KenKen) (cage : Cage) : List (List ℕ) :=
  match cage.operation with
  | Op.add goal => reduced cage (for_add ken.size goal cage.cells.length)
  | Op.mul goal => reduced cage (for_mul ken.size goal cage.cells.length)
  | Op.sub goal => for_sub ken.size goal
  | Op.div goal => for_div ken.size goal
  | Op.const c => [[c]]

/-- CageCandidates::candidates_for_cell: the BitSet of values appearing at
one cell position across the candidate sequences. -/
def candidates_for_cell (l : List (List ℕ)) (ix : ℕ) : ℕ :=
  l.foldl (fun res v => bset res (v.getD ix 0)) 0

/-- Pointwise update of a two-argument table (Tbl::put). -/
def upd2 {α : Type} (f : ℕ → ℕ → α) (i j : ℕ) (x : α) : ℕ → ℕ → α :=
  fun i2 j2 => if i2 = i ∧ j2 = j then x else f i2 j2

/-! The constraint store, src/constraints.rs. -/

structure Constraints where
  cellcands : ℕ → ℕ → ℕ
  cagecands : List (List (List ℕ))

/-- Constraints::empty. -/
def Constraints.empty (ken : KenKen) : Constraints :=
  ⟨fun _ _ => new_full ken.size, []⟩

/-- Constraints::exclude: remove digit el from cell (row, col), drop every
candidate sequence of the owning cage with el at that position, and
recompute the digit-sets of the other cells of the cage from the surviving
sequences. -/
def exclude (ken : KenKen) (s : Constraints) (row col el : ℕ) :
    Constraints × Bool :=
  if (s.cellcands row col).testBit el then
    let cc1 := upd2 s.cellcands row col (bclear (s.cellcands row col) el)
    let gk := ken.cell2cage row col
    let rcands := (s.cagecands.getD gk.1 []).filter
      (fun cand => cand.getD gk.2 0 ≠ el)
    let cage := ken.cages.getD gk.1 default
    let cc2 := (List.range cage.cells.length).foldl
      (fun cc otheridx =>
        if otheridx ≠ gk.2 then
          upd2 cc (cage.cells.getD otheridx (0, 0)).1
            (cage.cells.getD otheridx (0, 0)).2
            (candidates_for_cell rcands otheridx)
        else cc) cc1
    ({ cellcands := cc2, cagecands := s.cagecands.set gk.1 rcands }, true)
  else (s, false)

/-- The cage record looked up by exclude for the cell (row, col). -/
def exCage (ken : KenKen) (row col : ℕ) : Cage :=
  ken.cages.getD (ken.cell2cage row col).1 default

/-- The surviving candidate list of the cage after exclude removes el at
the cell position of (row, col). -/
def exRcands (ken : KenKen) (s : Constraints) (row col el : ℕ) :
    List (List ℕ) :=
  (s.cagecands.getD (ken.cell2cage row col).1 []).filter
    (fun cand => cand.getD (ken.cell2cage row col).2 0 ≠ el)

/-- The cell digit-set table after a successful exclude. -/
def exCc2 (ken : KenKen) (s : Constraints) (row col el : ℕ) : ℕ → ℕ → ℕ :=
  (List.range (exCage ken row col).cells.length).foldl
    (fun cc otheridx =>
      if otheridx ≠ (ken.cell2cage row col).2 then
        upd2 cc ((exCage ken row col).cells.getD otheridx (0, 0)).1
          ((exCage ken row col).cells.getD otheridx (0, 0)).2
          (candidates_for_cell (exRcands ken s row col el) otheridx)
      else cc)
    (upd2 s.cellcands row col (bclear (s.cellcands row col) el))

/-- Constraints::determine_initial. -/
def determine_initial (ken : KenKen) (s : Constraints) : Constraints :=
  ken.cages.foldl
    (fun s cage =>
      let nw := from_cage ken cage
      { cellcands :=
          (List.range cage.cells.length).foldl
            (fun cc cellidx =>
              upd2 cc (cage.cells.getD cellidx (0, 0)).1
                (cage.cells.getD cellidx (0, 0)).2
                (candidates_for_cell nw cellidx))
            s.cellcands,
        cagecands := s.cagecands ++ [nw] })
    s

/-- One exclude call inside Constraints::reduce, or-ing its change flag
into the accumulator ("changed |= self.exclude(...)"). -/
def rstep (ken : KenKen) (r c el : ℕ) (acc : Constraints × Bool) :
    Constraints × Bool :=
  let e := exclude ken acc.1 r c el
  (e.1, acc.2 || e.2)

/-- The body of Constraints::reduce for one cell (row, col): the naked
single rule when its digit-set has one member, the naked pair rule when it
has two. -/
def reduceCell (ken : KenKen) (row col : ℕ) (acc : Constraints × Bool) :
    Constraints × Bool :=
  let st := acc.1.cellcands row col
  let n1 := bcount st
  if n1 = 1 then
    let el := get_one st
    (List.range ken.size).foldl
      (fun a other =>
        let a2 := if other ≠ col then rstep ken row other el a else a
        if other ≠ row then rstep ken other col el a2 else a2)
      acc
  else if n1 = 2 then
    let p := get_two st
    let acc2 :=
      (List.range' (col + 1) (ken.size - (col + 1))).foldl
        (fun a scol =>
          if a.1.cellcands row col = a.1.cellcands row scol then
            (List.range ken.size).foldl
              (fun b ocol =>
                if ocol ≠ col ∧ ocol ≠ scol then
                  rstep ken row ocol p.2 (rstep ken row ocol p.1 b)
                else b)
              a
          else a)
        acc
    (List.range' (row + 1) (ken.size - (row + 1))).foldl
      (fun a srow =>
        if a.1.cellcands row col = a.1.cellcands srow col then
          (List.range ken.size).foldl
            (fun b orow =>
              if orow ≠ row ∧ orow ≠ srow then
                rstep ken orow col p.2 (rstep ken orow col p.1 b)
              else b)
            a
        else a)
      acc2
  else acc

/-- Constraints::reduce: scan all cells row-major, returning the store and
whether anything changed. -/
def reduce (ken : KenKen) (s : Constraints) : Constraints × Bool :=
  (List.range ken.size).foldl
    (fun acc row =>
      (List.range ken.size).foldl (fun a col => reduceCell ken row col a) acc)
    (s, false)

/-- The driver loop "while reduce(..) { }" of KenKen::solve, with explicit
fuel.  The loop terminates because every change strictly shrinks the total
bit count of the store, which is at most 16*size*size; solve runs it with
that much fuel, so the fuel never runs out on a loader-accepted puzzle. -/
def reduceLoop (ken : KenKen) : ℕ → Constraints → Constraints
  | 0, s => s
  | fuel + 1, s =>
      let r := reduce ken s
      if r.2 then reduceLoop ken fuel r.1 else r.1

/-! The backtracking search, src/main.rs. -/

/-- Cage::satisfied.  sum and product are u32 computations, hence the
explicit reduction modulo 2^32 (the sum of at most 15 digits below 16
never wraps, the product can). -/
def Cage.satisfied (cage : Cage) (tbl : Grid) : Bool :=
  match cage.operation with
  | Op.const c =>
      tbl (cage.cells.getD 0 (0, 0)).1 (cage.cells.getD 0 (0, 0)).2 == c
  | Op.add goal => (cage.cells.map (fun c => tbl c.1 c.2)).sum % w32 == goal
  | Op.mul goal => (cage.cells.map (fun c => tbl c.1 c.2)).prod % w32 == goal
  | Op.sub goal =>
      let v1 := tbl (cage.cells.getD 0 (0, 0)).1 (cage.cells.getD 0 (0, 0)).2
      let v2 := tbl (cage.cells.getD 1 (0, 0)).1 (cage.cells.getD 1 (0, 0)).2
      max v1 v2 - min v1 v2 == goal
  | Op.div goal =>
      let v1 := tbl (cage.cells.getD 0 (0, 0)).1 (cage.cells.getD 0 (0, 0)).2
      let v2 := tbl (cage.cells.getD 1 (0, 0)).1 (cage.cells.getD 1 (0, 0)).2
      let a := max v1 v2
      let b := min v1 v2
      a % b == 0 && a / b == goal

/-- KenKen::constraint_satisfied: check the cage of (row, col) only when
(row, col) is its last cell in row-major order. -/
def constraint_satisfied (ken : KenKen) (work : Grid) (row col : ℕ) : Bool :=
  let cage := ken.cages.getD (ken.cell2cage row col).1 default
  if (row, col) = cage.lastcell then cage.satisfied work else true

/-- The mutable state threaded through the recursive search "inner". -/
structure SearchState where
  work : Grid
  res : List Grid
  rmask : ℕ → ℕ
  cmask : ℕ → ℕ
  steps : ℕ

/-- The candidate loop of "inner" at cell (row, col), together with the
entry into the next cell.  pval is the conjunction of the row and column
masks read once at entry of the cell; the trailing "work.put(row, col, 0)"
of inner is the empty-list case.  A recursive entry into a cell is
"innerList .. (cons row col)" on the state with steps bumped, as in
innerCell below. -/
def innerList (ken : KenKen) (cons : ℕ → ℕ → List ℕ) :
    ℕ → ℕ → ℕ → List ℕ → SearchState → SearchState
  | row, col, _, [], s => { s with work := s.work.put row col 0 }
  | row, col, pval, v :: rest, s =>
      if pval &&& (1 <<< v) = 0 then
        innerList ken cons row col pval rest s
      else
        let s1 := { s with work := s.work.put row col v }
        if constraint_satisfied ken s1.work row col then
          let s2 := { s1 with
            rmask := upd s1.rmask row (s1.rmask row &&& (mask32 ^^^ (1 <<< v))),
            cmask := upd s1.cmask col (s1.cmask col &&& (mask32 ^^^ (1 <<< v))) }
          let s3 :=
            if col < ken.size - 1 then
              innerList ken cons row (col + 1)
                (s2.rmask row &&& s2.cmask (col + 1)) (cons row (col + 1))
                { s2 with steps := s2.steps + 1 }
            else if row < ken.size - 1 then
              innerList ken cons (row + 1) 0
                (s2.rmask (row + 1) &&& s2.cmask 0) (cons (row + 1) 0)
                { s2 with steps := s2.steps + 1 }
            else
              { s2 with res := s2.res ++ [s2.work] }
          let s4 := { s3 with
            rmask := upd s3.rmask row (s3.rmask row ||| (1 <<< v)),
            cmask := upd s3.cmask col (s3.cmask col ||| (1 <<< v)) }
          innerList ken cons row col pval rest s4
        else
          innerList ken cons row col pval rest s1
  termination_by row col _pval cands _s => (ken.size - row, ken.size - col, cands.length)
  decreasing_by
  · apply Prod.Lex.right
    apply Prod.Lex.right
    simp
  · apply Prod.Lex.right
    apply Prod.Lex.left
    omega
  · apply Prod.Lex.left
    omega
  · apply Prod.Lex.right
    apply Prod.Lex.right
    simp
  · apply Prod.Lex.right
    apply Prod.Lex.right
    simp

/-- One invocation of "inner" on cell (row, col): bump the step counter,
read the pair of masks, and run the candidate loop. -/
def innerCell (ken : KenKen) (cons : ℕ → ℕ → List ℕ) (row col : ℕ)
    (s : SearchState) : SearchState :=
  innerList ken cons row col (s.rmask row &&& s.cmask col) (cons row col)
    { s with steps := s.steps + 1 }

/-- The per-cell candidate sets handed to the search: the members of the
cell's BitSet in ascending order (the BTreeSet iteration order of the Tbl
handed to inner).  Modelled from the spec: the free functions
empty_constraints, initial_constraints and reduce_constraints called by
KenKen::solve are not in src/constraints.rs; per the spec the store seeds
itself from candidate generation and propagates to a fixpoint, which is
exactly Constraints::empty, determine_initial and the reduce loop. -/
def mkCons (ken : KenKen) : ℕ → ℕ → List ℕ :=
  let s := reduceLoop ken (16 * ken.size * ken.size)
    (determine_initial ken (Constraints.empty ken))
  fun r c => (List.range 32).filter (fun v => (s.cellcands r c).testBit v)

/-- The search state prepared by KenKen::solve: empty working grid, no
results, masks "((1 << size) - 1) << 1" for every row and column. -/
def initState (ken : KenKen) : SearchState :=
  { work := fun _ _ => 0
    res := []
    rmask := fun _ => ((1 <<< ken.size) - 1) <<< 1
    cmask := fun _ => ((1 <<< ken.size) - 1) <<< 1
    steps := 0 }

/-- The complete search run performed by KenKen::solve. -/
def searchFinal (ken : KenKen) : SearchState :=
  innerCell ken (mkCons ken) 0 0 (initState ken)

/-- KenKen::solve: run the search, then report more than one accumulated
grid, none, or exactly the last one with the step count ("res.pop()"). -/
def solve (ken : KenKen) : Except String (ℕ × Grid) :=
  let final := searchFinal ken
  if final.res.length > 1 then
    Except.error "found more than 1 solution"
  else
    match final.res.getLast? with
    | none => Except.error "found no solution"
    | some g => Except.ok (final.steps, g)

/-- The grid component of a successful solve (projection used to state
concrete instances). -/
def solveGrid (ken : KenKen) : Grid :=
  match solve ken with
  | Except.ok p => p.2
  | Except.error _ => default

/-- The step count of a successful solve. -/
def solveSteps (ken : KenKen) : ℕ :=
  match solve ken with
  | Except.ok p => p.1
  | Except.error _ => 0

/-- Fueled, option-valued mirror of innerList, structurally recursive on
the fuel so that concrete searches evaluate by kernel reduction; it
returns none on fuel exhaustion, and innerListF_sound shows every
successful run computes exactly innerList. -/
def innerListF (ken : KenKen) (cons : ℕ → ℕ → List ℕ) :
    ℕ → ℕ → ℕ → ℕ → List ℕ → SearchState → Option SearchState
  | 0, _, _, _, _, _ => none
  | _ + 1, row, col, _, [], s => some { s with work := s.work.put row col 0 }
  | fuel + 1, row, col, pval, v :: rest, s =>
      if pval &&& (1 <<< v) = 0 then
        innerListF ken cons fuel row col pval rest s
      else
        let s1 := { s with work := s.work.put row col v }
        if constraint_satisfied ken s1.work row col then
          let s2 := { s1 with
            rmask := upd s1.rmask row (s1.rmask row &&& (mask32 ^^^ (1 <<< v))),
            cmask := upd s1.cmask col (s1.cmask col &&& (mask32 ^^^ (1 <<< v))) }
          let o3 :=
            if col < ken.size - 1 then
              innerListF ken cons fuel row (col + 1)
                (s2.rmask row &&& s2.cmask (col + 1)) (cons row (col + 1))
                { s2 with steps := s2.steps + 1 }
            else if row < ken.size - 1 then
              innerListF ken cons fuel (row + 1) 0
                (s2.rmask (row + 1) &&& s2.cmask 0) (cons (row + 1) 0)
                { s2 with steps := s2.steps + 1 }
            else
              some { s2 with res := s2.res ++ [s2.work] }
          o3.bind (fun s3 =>
            innerListF ken cons fuel row col pval rest
              { s3 with
                rmask := upd s3.rmask row (s3.rmask row ||| (1 <<< v)),
                cmask := upd s3.cmask col (s3.cmask col ||| (1 <<< v)) })
        else
          innerListF ken cons fuel row col pval rest s1

/-- The candidate table of p1 after propagation, written out as a
literal (shown equal to mkCons p1 on the grid in the C3 witness
development). -/
def p1cons : ℕ → ℕ → List ℕ := fun r c =>
  if r = 0 then (if c = 0 then [1] else [2])
  else (if c = 0 then [2] else [1])

/-- Iterating reduce a fixed number of times (every state the driver loop
passes through is of this form). -/
def reduceIter (ken : KenKen) : ℕ → Constraints → Constraints
  | 0, s => s
  | k + 1, s => reduceIter ken k (reduce ken s).1

/-! Spec-side notions (sections 3, 4.3 and 8 of the spec) used to state
the claims. -/

/-- Two cells share a row or a column. -/
def aligned (a b : ℕ × ℕ) : Prop := a.1 = b.1 ∨ a.2 = b.2

instance aligned.dec (a b : ℕ × ℕ) : Decidable (aligned a b) := by
  unfold aligned; infer_instance

/-- Strict row-major order on cells. -/
def posLt (p q : ℕ × ℕ) : Prop := p.1 < q.1 ∨ (p.1 = q.1 ∧ p.2 < q.2)

instance posLt.dec (p q : ℕ × ℕ) : Decidable (posLt p q) := by
  unfold posLt; infer_instance

/-- Row-major order on cells. -/
def posLe (p q : ℕ × ℕ) : Prop := posLt p q ∨ p = q

instance posLe.dec (p q : ℕ × ℕ) : Decidable (posLe p q) := by
  unfold posLe; infer_instance

/-- Modelled from the spec: the arithmetic goal of an operator on a digit
sequence, in exact arithmetic (spec section 4.3; the sequence lists the
digits in cage-cell order). -/
def GoalSat : Op → List ℕ → Prop
  | Op.const c, t => t = [c]
  | Op.add goal, t => t.sum = goal
  | Op.mul goal, t => t.prod = goal
  | Op.sub goal, t =>
      max (t.getD 0 0) (t.getD 1 0) - min (t.getD 0 0) (t.getD 1 0) = goal
  | Op.div goal, t =>
      max (t.getD 0 0) (t.getD 1 0) % min (t.getD 0 0) (t.getD 1 0) = 0 ∧
      max (t.getD 0 0) (t.getD 1 0) / min (t.getD 0 0) (t.getD 1 0) = goal

instance GoalSat.dec (op : Op) (t : List ℕ) : Decidable (GoalSat op t) := by
  cases op <;> (simp only [GoalSat]; infer_instance)

/-- Modelled from the spec: the intra-cage distinctness rule, a sequence
never places equal digits at two cage positions whose cells share a row
or a column. -/
def IntraOk (cage : Cage) (t : List ℕ) : Prop :=
  ∀ j < cage.cells.length, ∀ i < j,
    aligned (cage.cells.getD i (0, 0)) (cage.cells.getD j (0, 0)) →
    t.getD i 0 ≠ t.getD j 0

instance IntraOk.dec (cage : Cage) (t : List ℕ) : Decidable (IntraOk cage t) := by
  unfold IntraOk; infer_instance

/-- Modelled from the spec: the brute-force description of an admissible
cage sequence, a tuple of the right length over 1..n achieving the goal
and obeying the intra-cage distinctness rule. -/
def ValidSeq (n : ℕ) (cage : Cage) (t : List ℕ) : Prop :=
  t.length = cage.cells.length ∧ (∀ v ∈ t, 1 ≤ v ∧ v ≤ n) ∧
  GoalSat cage.operation t ∧ IntraOk cage t

instance ValidSeq.dec (n : ℕ) (cage : Cage) (t : List ℕ) :
    Decidable (ValidSeq n cage t) := by
  unfold ValidSeq; infer_instance

/-- Shape of a single cage as established by the loader: cells inside the
grid, the recorded lastcell is the row-major maximum of the cells, and the
operator-specific cell-count rules; all goals are u32 values. -/
def CageWF (n : ℕ) (cage : Cage) : Prop :=
  cage.cells ≠ [] ∧
  (∀ cell ∈ cage.cells, cell.1 < n ∧ cell.2 < n) ∧
  cage.lastcell ∈ cage.cells ∧
  (∀ cell ∈ cage.cells, posLe cell cage.lastcell) ∧
  (match cage.operation with
   | Op.const c => cage.cells.length = 1 ∧ c < w32
   | Op.sub g => cage.cells.length = 2 ∧ g < w32
   | Op.div g => cage.cells.length = 2 ∧ g < w32
   | Op.add g => 2 ≤ cage.cells.length ∧ cage.cells.length ≤ 15 ∧ g < w32
   | Op.mul g => 2 ≤ cage.cells.length ∧ cage.cells.length ≤ 15 ∧ g < w32)

instance CageWF.dec (n : ℕ) (cage : Cage) : Decidable (CageWF n cage) := by
  unfold CageWF
  cases cage.operation <;> (simp only []; infer_instance)

/-- Well-formedness of a loaded puzzle: size bounds, cage shapes, and the
mutual consistency of the cell-to-cage index with the cage cell lists
(the cages partition the grid). -/
def WF (ken : KenKen) : Prop :=
  2 ≤ ken.size ∧ ken.size ≤ 15 ∧
  (∀ cage ∈ ken.cages, CageWF ken.size cage) ∧
  (∀ r < ken.size, ∀ c < ken.size,
    (ken.cell2cage r c).1 < ken.cages.length ∧
    (ken.cell2cage r c).2 <
      (ken.cages.getD (ken.cell2cage r c).1 default).cells.length ∧
    (ken.cages.getD (ken.cell2cage r c).1 default).cells.getD
      (ken.cell2cage r c).2 (0, 0) = (r, c)) ∧
  (∀ g < ken.cages.length,
    ∀ k < (ken.cages.getD g default).cells.length,
    ken.cell2cage ((ken.cages.getD g default).cells.getD k (0, 0)).1
      ((ken.cages.getD g default).cells.getD k (0, 0)).2 = (g, k))

instance WF.dec (ken : KenKen) : Decidable (WF ken) := by
  unfold WF; infer_instance

/-- Goal range that keeps every digit generated for one cage below 16,
the 4-bit SmallVec representation domain. -/
def cageGoalOk (n : ℕ) (cage : Cage) : Prop :=
  match cage.operation with
  | Op.sub g => g ≤ n
  | Op.const c => c ≤ 15
  | _ => True

instance cageGoalOk.dec (n : ℕ) (cage : Cage) : Decidable (cageGoalOk n cage) := by
  unfold cageGoalOk
  cases cage.operation <;> (simp only []; infer_instance)

/-- Goal ranges that keep every generated digit below 16 (the loader
guarantees Const goals are one digit; subtraction goals above the grid
size are outside the spec's precondition). -/
def GoalsOk (ken : KenKen) : Prop :=
  ∀ cage ∈ ken.cages, cageGoalOk ken.size cage

instance GoalsOk.dec (ken : KenKen) : Decidable (GoalsOk ken) := by
  unfold GoalsOk; infer_instance

/-- A complete solution in the sense of the spec: digits 1..n, every row
and column without repeats, every cage goal met in exact arithmetic. -/
def IsSolution (ken : KenKen) (S : ℕ → ℕ → ℕ) : Prop :=
  (∀ r < ken.size, ∀ c < ken.size, 1 ≤ S r c ∧ S r c ≤ ken.size) ∧
  (∀ r < ken.size, ∀ c1 < ken.size, ∀ c2 < ken.size,
    c1 ≠ c2 → S r c1 ≠ S r c2) ∧
  (∀ c < ken.size, ∀ r1 < ken.size, ∀ r2 < ken.size,
    r1 ≠ r2 → S r1 c ≠ S r2 c) ∧
  (∀ cage ∈ ken.cages,
    GoalSat cage.operation (cage.cells.map (fun p => S p.1 p.2)))

instance IsSolution.dec (ken : KenKen) (S : ℕ → ℕ → ℕ) :
    Decidable (IsSolution ken S) := by
  unfold IsSolution
  have h1 : Decidable
      (∀ r < ken.size, ∀ c < ken.size, 1 ≤ S r c ∧ S r c ≤ ken.size) :=
    inferInstance
  have h2 : Decidable
      (∀ r < ken.size, ∀ c1 < ken.size, ∀ c2 < ken.size,
        c1 ≠ c2 → S r c1 ≠ S r c2) :=
    inferInstance
  have h3 : Decidable
      (∀ c < ken.size, ∀ r1 < ken.size, ∀ r2 < ken.size,
        r1 ≠ r2 → S r1 c ≠ S r2 c) :=
    inferInstance
  have h4 : Decidable
      (∀ cage ∈ ken.cages,
        GoalSat cage.operation (cage.cells.map (fun p => S p.1 p.2))) :=
    inferInstance
  exact @instDecidableAnd _ _ h1 (@instDecidableAnd _ _ h2
    (@instDecidableAnd _ _ h3 h4))

/-- Representation side of the store invariant: one candidate list per
cage, candidate lengths match the cage, all stored digits below 16. -/
def RepOk (ken : KenKen) (s : Constraints) : Prop :=
  s.cagecands.length = ken.cages.length ∧
  (∀ g < ken.cages.length, ∀ cand ∈ s.cagecands.getD g [],
    cand.length = (ken.cages.getD g default).cells.length ∧
    ∀ v ∈ cand, v < 16)

/-- The synchronisation invariant of claim C4: each cell digit-set equals
exactly the set of values appearing at that cell position across the
surviving sequences of its cage. -/
def Sync (ken : KenKen) (s : Constraints) : Prop :=
  ∀ g < ken.cages.length, ∀ k < (ken.cages.getD g default).cells.length,
    s.cellcands ((ken.cages.getD g default).cells.getD k (0, 0)).1
        ((ken.cages.getD g default).cells.getD k (0, 0)).2 =
      candidates_for_cell (s.cagecands.getD g []) k

instance RepOk.dec (ken : KenKen) (s : Constraints) : Decidable (RepOk ken s) := by
  unfold RepOk; infer_instance

instance Sync.dec (ken : KenKen) (s : Constraints) : Decidable (Sync ken s) := by
  unfold Sync; infer_instance

/-- The survival invariant behind claim C5: the digit sequence a solution
induces on each cage is still among the surviving candidate sequences. -/
def Survives (ken : KenKen) (S : ℕ → ℕ → ℕ) (s : Constraints) : Prop :=
  ∀ g < ken.cages.length,
    ((ken.cages.getD g default).cells.map (fun p => S p.1 p.2)) ∈
      s.cagecands.getD g []

/-- Row r of a finished grid as a list. -/
def rowOf (g : Grid) (n r : ℕ) : List ℕ := (List.range n).map (fun c => g r c)

/-- Column c of a finished grid as a list. -/
def colOf (g : Grid) (n c : ℕ) : List ℕ := (List.range n).map (fun r => g r c)

/-- A fully valid output grid in the sense of claim C3: digits 1..n,
distinct along rows and columns, every cage check of the code passes. -/
def GridOk (ken : KenKen) (g : Grid) : Prop :=
  (∀ r, r < ken.size → ∀ c, c < ken.size → 1 ≤ g r c ∧ g r c ≤ ken.size) ∧
  (∀ r, r < ken.size → ∀ c1, c1 < ken.size → ∀ c2, c2 < ken.size →
    c1 ≠ c2 → g r c1 ≠ g r c2) ∧
  (∀ c, c < ken.size → ∀ r1, r1 < ken.size → ∀ r2, r2 < ken.size →
    r1 ≠ r2 → g r1 c ≠ g r2 c) ∧
  (∀ cage ∈ ken.cages, Cage.satisfied cage g = true)

/-- Search invariant piece: every cell strictly before the current one in
row-major order holds a digit 1..n. -/
def Filled (n row col : ℕ) (w : Grid) : Prop :=
  ∀ r, r < n → ∀ c, c < n → posLt (r, c) (row, col) →
    1 ≤ w r c ∧ w r c ≤ n

/-- Search invariant piece: already placed digits are distinct within
each row. -/
def RowsOk (n row col : ℕ) (w : Grid) : Prop :=
  ∀ i, i < n → ∀ c1, c1 < n → ∀ c2, c2 < n →
    posLt (i, c1) (row, col) → posLt (i, c2) (row, col) → c1 ≠ c2 →
    w i c1 ≠ w i c2

/-- Search invariant piece: already placed digits are distinct within
each column. -/
def ColsOk (n row col : ℕ) (w : Grid) : Prop :=
  ∀ j, j < n → ∀ r1, r1 < n → ∀ r2, r2 < n →
    posLt (r1, j) (row, col) → posLt (r2, j) (row, col) → r1 ≠ r2 →
    w r1 j ≠ w r2 j

/-- Search invariant piece: each occupancy mask holds exactly the digits
1..n not yet placed in its row respectively column before the current
cell. -/
def MaskOk (n row col : ℕ) (w : Grid) (rmask cmask : ℕ → ℕ) : Prop :=
  (∀ i, i < n → ∀ v, ((rmask i).testBit v = true ↔
    (1 ≤ v ∧ v ≤ n ∧ ∀ c, c < n → posLt (i, c) (row, col) → w i c ≠ v))) ∧
  (∀ j, j < n → ∀ v, ((cmask j).testBit v = true ↔
    (1 ≤ v ∧ v ≤ n ∧ ∀ r, r < n → posLt (r, j) (row, col) → w r j ≠ v)))

/-- Search invariant piece: every cage whose last cell lies strictly
before the current cell already passes its check. -/
def CagesOk (ken : KenKen) (row col : ℕ) (w : Grid) : Prop :=
  ∀ cage ∈ ken.cages, posLt cage.lastcell (row, col) →
    Cage.satisfied cage w = true

/-- The full invariant maintained by the backtracking search on entry of
cell (row, col). -/
def SearchInv (ken : KenKen) (row col : ℕ) (s : SearchState) : Prop :=
  Filled ken.size row col s.work ∧ RowsOk ken.size row col s.work ∧
  ColsOk ken.size row col s.work ∧
  MaskOk ken.size row col s.work s.rmask s.cmask ∧
  CagesOk ken row col s.work

/-! Concrete puzzles used as witnesses. -/

/-- A 2 by 2 puzzle of four Const cages with the unique solution
1 2 / 2 1. -/
def p1 : KenKen :=
  { size := 2
    cages :=
      [ ⟨[(0, 0)], (0, 0), Op.const 1⟩,
        ⟨[(0, 1)], (0, 1), Op.const 2⟩,
        ⟨[(1, 0)], (1, 0), Op.const 2⟩,
        ⟨[(1, 1)], (1, 1), Op.const 1⟩ ]
    cell2cage := fun r c =>
      if r = 0 then (if c = 0 then (0, 0) else (1, 0))
      else (if c = 0 then (2, 0) else (3, 0)) }

/-- The unique solution of p1. -/
def sol1 : ℕ → ℕ → ℕ := fun r c => ([[1, 2], [2, 1]].getD r []).getD c 0

/-- A 2 by 2 puzzle with a single Add 6 cage over all four cells; it has
exactly two solutions. -/
def p2 : KenKen :=
  { size := 2
    cages := [⟨[(0, 0), (0, 1), (1, 0), (1, 1)], (1, 1), Op.add 6⟩]
    cell2cage := fun r c => (0, 2 * r + c) }

/-- A 2 by 2 puzzle of four Const cages all demanding 1; it has no
solution. -/
def p0 : KenKen :=
  { size := 2
    cages :=
      [ ⟨[(0, 0)], (0, 0), Op.const 1⟩,
        ⟨[(0, 1)], (0, 1), Op.const 1⟩,
        ⟨[(1, 0)], (1, 0), Op.const 1⟩,
        ⟨[(1, 1)], (1, 1), Op.const 1⟩ ]
    cell2cage := fun r c =>
      if r = 0 then (if c = 0 then (0, 0) else (1, 0))
      else (if c = 0 then (2, 0) else (3, 0)) }

/-- A Const cage demanding 3, legal for the loader even on a 2 by 2 grid. -/
def cageC3 : Cage := ⟨[(0, 0)], (0, 0), Op.const 3⟩

/-- A two-cell division cage with goal 1 whose cells share row 0. -/
def cageD1 : Cage := ⟨[(0, 0), (0, 1)], (0, 1), Op.div 1⟩

/-- A two-cell subtraction cage used in witnesses. -/
def cageS1 : Cage := ⟨[(0, 0), (0, 1)], (0, 1), Op.sub 1⟩

/-- A dummy 2 by 2 puzzle wrapper used to evaluate from_cage on a single
cage (from_cage only reads the size). -/
def kenOf (n : ℕ) (cage : Cage) : KenKen :=
  { size := n, cages := [cage], cell2cage := fun _ _ => (0, 0) }

/-- The output set claimed for the subtraction generator: the sequences
[i, i+goal] and [i+goal, i] for each i from 1 to N - goal. -/
def subClaim (n g : ℕ) (t : List ℕ) : Prop :=
  ∃ i, 1 ≤ i ∧ i ≤ n - g ∧ (t = [i, i + g] ∨ t = [i + g, i])

/-- Goal in range for the operator, the precondition under which the
generator output coincides with the brute-force enumeration. -/
def cageGoalRange (n : ℕ) (cage : Cage) : Prop :=
  match cage.operation with
  | Op.const c => 1 ≤ c ∧ c ≤ n
  | Op.sub g => 1 ≤ g ∧ g ≤ n
  | Op.div g => 2 ≤ g
  | _ => True

instance cageGoalRange.dec (n : ℕ) (cage : Cage) :
    Decidable (cageGoalRange n cage) := by
  unfold cageGoalRange
  cases cage.operation <;> (simp only []; infer_instance)

/-- Shape of a Const, Sub or Div cage with its goal in the nondegenerate
range (a Sub goal of 0 or a Div goal of 1 would generate pairs of equal
digits). -/
def noPassShape (cage : Cage) : Prop :=
  match cage.operation with
  | Op.const _ => cage.cells.length = 1
  | Op.sub g => cage.cells.length = 2 ∧ 1 ≤ g
  | Op.div g => cage.cells.length = 2 ∧ 2 ≤ g
  | _ => False

instance noPassShape.dec (cage : Cage) : Decidable (noPassShape cage) := by
  unfold noPassShape
  cases cage.operation <;> (simp only []; infer_instance)

/-! Bit-level lemmas about the BitSet operations. -/

theorem w32_eq : w32 = 4294967296 := by norm_num [w32]

theorem one_shiftLeft (v : ℕ) : (1 <<< v) = 2 ^ v := by
  simp [Nat.shiftLeft_eq]

theorem testBit_pow (v i : ℕ) : (1 <<< v).testBit i = decide (i = v) := by
  rw [one_shiftLeft]
  rcases eq_or_ne i v with h | h
  · subst h; simp
  · simp [Nat.testBit_two_pow_of_ne (Ne.symm h), h]

theorem testBit_bset (x b i : ℕ) :
    (bset x b).testBit i = (x.testBit i || decide (i = b)) := by
  unfold bset; rw [Nat.testBit_lor, testBit_pow]

theorem testBit_mask32 (i : ℕ) : mask32.testBit i = decide (i < 32) := by
  unfold mask32; exact Nat.testBit_two_pow_sub_one 32 i

theorem testBit_bclear (x b i : ℕ) (hb : b < 32) :
    (bclear x b).testBit i =
      (x.testBit i && (decide (i ≠ b) && decide (i < 32))) := by
  unfold bclear
  rw [Nat.testBit_land, Nat.testBit_xor, testBit_mask32, testBit_pow]
  by_cases h1 : i = b
  · subst h1; simp [hb]
  · by_cases h2 : i < 32 <;> simp [h1, h2]

theorem land_pow_eq_zero (x v : ℕ) :
    x &&& (1 <<< v) = 0 ↔ x.testBit v = false := by
  constructor
  · intro h
    by_contra hb
    have hb2 : x.testBit v = true := by
      cases hv : x.testBit v
      · exact absurd hv hb
      · rfl
    have h3 : (x &&& (1 <<< v)).testBit v = true := by
      rw [Nat.testBit_land, testBit_pow]; simp [hb2]
    rw [h] at h3
    simp [Nat.zero_testBit] at h3
  · intro h
    apply Nat.eq_of_testBit_eq
    intro i
    rw [Nat.testBit_land, testBit_pow, Nat.zero_testBit]
    by_cases hi : i = v
    · subst hi; simp [h]
    · simp [hi]

theorem testBit_new_full (n i : ℕ) :
    (new_full n).testBit i = (decide (1 ≤ i) && decide (i ≤ n)) := by
  have h1 : new_full n = 2 * (2 ^ n - 1) := by
    unfold new_full
    rw [one_shiftLeft, pow_succ]
    have : 1 ≤ 2 ^ n := Nat.one_le_two_pow
    omega
  rw [h1]
  cases i with
  | zero =>
      rw [Nat.testBit_zero]
      simp [Nat.mul_mod_right]
  | succ j =>
      have h2 : (2 * (2 ^ n - 1)).testBit (j + 1) = (2 ^ n - 1).testBit j := by
        rw [Nat.testBit_succ, Nat.mul_div_cancel_left _ (by norm_num : 0 < 2)]
      rw [h2, Nat.testBit_two_pow_sub_one]
      by_cases h3 : j < n
      · simp [h3]; omega
      · simp [h3]; omega

theorem initMask_eq (n : ℕ) : ((1 <<< n) - 1) <<< 1 = new_full n := by
  unfold new_full
  rw [one_shiftLeft, Nat.shiftLeft_eq, one_shiftLeft]
  have h1 : 2 ^ (n + 1) = 2 ^ n * 2 := pow_succ 2 n
  have h2 : 1 ≤ 2 ^ n := Nat.one_le_two_pow
  simp only [pow_one]
  omega

theorem two_pow_le_of_testBit (x i : ℕ) (h : x.testBit i = true) :
    2 ^ i ≤ x := by
  rw [Nat.testBit_to_div_mod] at h
  have h2 : x / 2 ^ i % 2 = 1 := of_decide_eq_true h
  have h3 : x / 2 ^ i ≠ 0 := by
    intro h0
    rw [h0] at h2
    exact absurd h2 (by norm_num)
  have h4 : 1 ≤ x / 2 ^ i := Nat.one_le_iff_ne_zero.mpr h3
  have h5 := (Nat.le_div_iff_mul_le (Nat.pos_pow_of_pos i (by norm_num))).mp h4
  omega

theorem testBit_false_of_le (x n i : ℕ) (hx : x < 2 ^ n) (hn : n ≤ i) :
    x.testBit i = false := by
  cases h : x.testBit i
  · rfl
  · have h1 := two_pow_le_of_testBit x i h
    have h2 : 2 ^ n ≤ 2 ^ i := Nat.pow_le_pow_right (by norm_num) hn
    omega

theorem testBit_lt_32 (x i : ℕ) (hx : x < w32) (h : x.testBit i = true) :
    i < 32 := by
  by_contra h2
  push_neg at h2
  rw [testBit_false_of_le x 32 i (by rw [w32_eq] at hx; norm_num; omega) h2] at h
  exact Bool.noConfusion h

theorem get_one_fuel_spec (fuel : ℕ) :
    ∀ x, x ≠ 0 → x < 2 ^ fuel →
      x.testBit (get_one_fuel fuel x) = true ∧
      ∀ j < get_one_fuel fuel x, x.testBit j = false := by
  induction fuel with
  | zero =>
      intro x hx hlt
      exact absurd hlt (by omega)
  | succ n ih =>
      intro x hx hlt
      simp only [get_one_fuel]
      rw [if_neg hx]
      by_cases h2 : x % 2 = 1
      · rw [if_pos h2]
        refine ⟨?_, fun j hj => absurd hj (by omega)⟩
        rw [Nat.testBit_zero]
        simp [h2]
      · rw [if_neg h2]
        have h2b : x % 2 = 0 := by omega
        have hhalf : x / 2 ≠ 0 := by omega
        have hlt2 : x / 2 < 2 ^ n := by
          have hp : 2 ^ (n + 1) = 2 ^ n * 2 := pow_succ 2 n
          omega
        obtain ⟨ha, hb⟩ := ih (x / 2) hhalf hlt2
        constructor
        · rw [Nat.testBit_succ]
          exact ha
        · intro j hj
          cases j with
          | zero => rw [Nat.testBit_zero]; simp [h2b]
          | succ j2 => rw [Nat.testBit_succ]; exact hb j2 (by omega)

theorem get_one_spec (x : ℕ) (hx : x ≠ 0) (hx32 : x < w32) :
    x.testBit (get_one x) = true ∧ ∀ j < get_one x, x.testBit j = false :=
  get_one_fuel_spec 32 x hx hx32

theorem testBit_log2 (x : ℕ) (hx : x ≠ 0) : x.testBit (Nat.log2 x) = true := by
  have h1 : 2 ^ x.log2 ≤ x := Nat.log2_self_le hx
  have h2 : x < 2 ^ (x.log2 + 1) := (Nat.log2_lt hx).mp (Nat.lt_succ_self _)
  rw [pow_succ] at h2
  have hdiv : x / 2 ^ x.log2 = 1 :=
    Nat.div_eq_of_lt_le (by omega) (by omega)
  rw [Nat.testBit_to_div_mod, hdiv]
  simp

theorem le_log2_of_testBit (x i : ℕ) (hx : x ≠ 0) (h : x.testBit i = true) :
    i ≤ Nat.log2 x := by
  have h1 := two_pow_le_of_testBit x i h
  by_contra hlt
  push_neg at hlt
  have h2 : x < 2 ^ i := (Nat.log2_lt hx).mp hlt
  omega

theorem log2_lt_32 (x : ℕ) (hx : x < w32) (h0 : x ≠ 0) : Nat.log2 x < 32 := by
  rw [Nat.log2_lt h0]
  rw [w32_eq] at hx
  norm_num
  omega

theorem sub32_of_le (a b : ℕ) (ha : a < w32) (hb : b ≤ a) :
    sub32 a b = a - b := by
  unfold sub32
  rw [w32_eq] at *
  omega

theorem add32_of_lt (a b : ℕ) (h : a + b < w32) : add32 a b = a + b := by
  unfold add32
  rw [w32_eq] at *
  omega

theorem mem_bits (x i : ℕ) :
    i ∈ (List.range 32).filter (fun j => x.testBit j) ↔
      i < 32 ∧ x.testBit i = true := by
  simp [List.mem_filter, List.mem_range]

theorem bcount_zero_of_zero : bcount 0 = 0 := by
  unfold bcount
  simp [Nat.zero_testBit]

theorem bcount_ne_zero (x : ℕ) (h : bcount x ≠ 0) : x ≠ 0 := by
  intro h0
  subst h0
  exact h bcount_zero_of_zero

theorem bcount_one_testBit (x : ℕ) (hx : x < w32) (h1 : bcount x = 1) :
    ∀ v, (x.testBit v = true ↔ v = get_one x) := by
  unfold bcount at h1
  obtain ⟨a, ha⟩ := List.length_eq_one.mp h1
  have hx0 : x ≠ 0 := bcount_ne_zero x (by unfold bcount; omega)
  obtain ⟨hg1, _⟩ := get_one_spec x hx0 hx
  have hglt : get_one x < 32 := testBit_lt_32 x _ hx hg1
  have hgmem : get_one x ∈ (List.range 32).filter (fun j => x.testBit j) :=
    (mem_bits x _).mpr ⟨hglt, hg1⟩
  rw [ha] at hgmem
  simp at hgmem
  intro v
  constructor
  · intro hv
    have hvlt : v < 32 := testBit_lt_32 x v hx hv
    have hvmem : v ∈ (List.range 32).filter (fun j => x.testBit j) :=
      (mem_bits x v).mpr ⟨hvlt, hv⟩
    rw [ha] at hvmem
    simp at hvmem
    rw [hvmem, ← hgmem]
  · intro hv
    rw [hv]
    exact hg1

theorem bcount_two_testBit (x : ℕ) (hx : x < w32) (h2 : bcount x = 2) :
    (get_two x).2 < (get_two x).1 ∧
      ∀ v, (x.testBit v = true ↔ v = (get_two x).1 ∨ v = (get_two x).2) := by
  unfold bcount at h2
  obtain ⟨a, b, hab⟩ := List.length_eq_two.mp h2
  have hx0 : x ≠ 0 := bcount_ne_zero x (by unfold bcount; omega)
  have hsort : a < b := by
    have hp : ((List.range 32).filter (fun j => x.testBit j)).Pairwise (· < ·) :=
      (List.pairwise_lt_range 32).sublist (List.filter_sublist _)
    rw [hab] at hp
    simp at hp
    exact hp
  have hmema : a ∈ (List.range 32).filter (fun j => x.testBit j) := by
    rw [hab]; simp
  have hmemb : b ∈ (List.range 32).filter (fun j => x.testBit j) := by
    rw [hab]; simp
  have hta : x.testBit a = true := ((mem_bits x a).mp hmema).2
  have htb : x.testBit b = true := ((mem_bits x b).mp hmemb).2
  have hmem : ∀ v, x.testBit v = true → v = a ∨ v = b := by
    intro v hv
    have hvlt : v < 32 := testBit_lt_32 x v hx hv
    have : v ∈ (List.range 32).filter (fun j => x.testBit j) :=
      (mem_bits x v).mpr ⟨hvlt, hv⟩
    rw [hab] at this
    simpa using this
  -- get_one x = a
  obtain ⟨hg1, hg2⟩ := get_one_spec x hx0 hx
  have hga : get_one x = a := by
    rcases hmem _ hg1 with h | h
    · exact h
    · exfalso
      have : ¬ a < get_one x := fun hc => by rw [hg2 a hc] at hta; exact Bool.noConfusion hta
      omega
  -- the first component is log2 x, which is b
  have hlog : Nat.log2 x = b := by
    rcases hmem _ (testBit_log2 x hx0) with h | h
    · exfalso
      have h3 := le_log2_of_testBit x b hx0 htb
      omega
    · exact h
  have hfst : (get_two x).1 = b := by
    unfold get_two leading_zeros
    rw [if_neg hx0]
    have hl32 : Nat.log2 x < 32 := log2_lt_32 x hx hx0
    have e1 : sub32 32 (31 - Nat.log2 x) = 32 - (31 - Nat.log2 x) :=
      sub32_of_le 32 (31 - Nat.log2 x) (by rw [w32_eq]; norm_num) (by omega)
    rw [e1]
    have e2 : sub32 (32 - (31 - Nat.log2 x)) 1 = 32 - (31 - Nat.log2 x) - 1 :=
      sub32_of_le _ 1 (by rw [w32_eq]; omega) (by omega)
    rw [e2]
    simp only []
    omega
  have hsnd : (get_two x).2 = a := by
    unfold get_two
    simpa using hga
  rw [hfst, hsnd]
  refine ⟨hsort, ?_⟩
  intro v
  constructor
  · intro hv
    rcases hmem v hv with h | h
    · right; exact h
    · left; exact h
  · intro hv
    rcases hv with h | h
    · rw [h]; exact htb
    · rw [h]; exact hta

/-! Generic lemmas about folds of filters and small list facts. -/

theorem mem_foldl_step {α β : Type} (g : List α → β → List α)
    (q : β → α → Prop)
    (hg : ∀ acc x a, a ∈ g acc x ↔ a ∈ acc ∧ q x a) :
    ∀ (L : List β) (l : List α) (a : α),
      a ∈ L.foldl g l ↔ a ∈ l ∧ ∀ x ∈ L, q x a := by
  intro L
  induction L with
  | nil => simp
  | cons x xs ih =>
      intro l a
      rw [List.foldl_cons, ih, hg]
      constructor
      · rintro ⟨⟨h1, h2⟩, h3⟩
        exact ⟨h1, fun y hy => by
          rcases List.mem_cons.mp hy with rfl | hy2
          · exact h2
          · exact h3 y hy2⟩
      · rintro ⟨h1, h2⟩
        exact ⟨⟨h1, h2 x (List.mem_cons_self x xs)⟩,
          fun y hy => h2 y (List.mem_cons_of_mem x hy)⟩

theorem foldl_fix {α β : Type} (g : α → β → α) (l : α) :
    ∀ (L : List β), (∀ x ∈ L, g l x = l) → L.foldl g l = l := by
  intro L
  induction L with
  | nil => simp
  | cons x xs ih =>
      intro h
      rw [List.foldl_cons, h x (List.mem_cons_self x xs)]
      exact ih (fun y hy => h y (List.mem_cons_of_mem x hy))

theorem length_le_sum (l : List ℕ) (h : ∀ v ∈ l, 1 ≤ v) :
    l.length ≤ l.sum := by
  induction l with
  | nil => simp
  | cons x xs ih =>
      simp only [List.length_cons, List.sum_cons]
      have h1 := h x (List.mem_cons_self x xs)
      have h2 := ih (fun v hv => h v (List.mem_cons_of_mem x hv))
      omega

theorem sum_le_mul (l : List ℕ) (m : ℕ) (h : ∀ v ∈ l, v ≤ m) :
    l.sum ≤ l.length * m := by
  have := List.sum_le_card_nsmul l m h
  simpa [smul_eq_mul] using this

theorem list_last_decomp {α : Type} (l : List α) (d : α) (h : l ≠ []) :
    l = l.dropLast ++ [l.getLastD d] := by
  conv_lhs => rw [← List.dropLast_append_getLast h]
  rw [List.getLastD_eq_getLast?, List.getLast?_eq_getLast l h]
  rfl

/-! Lemmas about the candidate generators. -/

theorem for_add_length (mx : ℕ) :
    ∀ len goal t, t ∈ for_add mx goal len → t.length = len := by
  intro len
  induction len using Nat.strong_induction_on with
  | _ len ih =>
    intro goal t ht
    match len with
    | 0 => simp [for_add] at ht
    | 1 =>
        rw [for_add] at ht
        by_cases h : goal ≤ mx
        · rw [if_pos h] at ht
          simp at ht
          rw [ht]
          rfl
        · rw [if_neg h] at ht
          simp at ht
    | (n + 2) =>
        rw [for_add, List.mem_flatMap] at ht
        obtain ⟨i, _, hti⟩ := ht
        rw [List.mem_map] at hti
        obtain ⟨t2, ht2, rfl⟩ := hti
        have h3 := ih (n + 1) (by omega) _ _ ht2
        simp [h3]

theorem for_add_bound (mx : ℕ) :
    ∀ len goal t, t ∈ for_add mx goal len → ∀ v ∈ t, v ≤ mx := by
  intro len
  induction len using Nat.strong_induction_on with
  | _ len ih =>
    intro goal t ht
    match len with
    | 0 => simp [for_add] at ht
    | 1 =>
        rw [for_add] at ht
        by_cases h : goal ≤ mx
        · rw [if_pos h] at ht
          simp at ht
          intro v hv
          rw [ht] at hv
          simp at hv
          omega
        · rw [if_neg h] at ht
          simp at ht
    | (n + 2) =>
        rw [for_add, List.mem_flatMap] at ht
        obtain ⟨i, hi, hti⟩ := ht
        rw [List.mem_map] at hti
        obtain ⟨t2, ht2, rfl⟩ := hti
        rw [List.mem_range'_1] at hi
        have hle : min (mx + 1) (add32 (sub32 goal (n + 2)) 2) ≤ mx + 1 :=
          min_le_left _ _
        intro v hv
        rcases List.mem_append.mp hv with h1 | h1
        · exact ih (n + 1) (by omega) _ _ ht2 v h1
        · simp at h1
          omega

theorem for_add_mem (mx : ℕ) (hmx : mx ≤ 15) :
    ∀ len, 1 ≤ len → len ≤ 225 → ∀ goal, goal < w32 →
      (2 ≤ len ∨ 1 ≤ goal) → ∀ t,
      (t ∈ for_add mx goal len ↔
        (t.length = len ∧ (∀ v ∈ t, 1 ≤ v ∧ v ≤ mx) ∧ t.sum = goal)) := by
  intro len
  induction len using Nat.strong_induction_on with
  | _ len ih =>
    intro hlen1 hlen2 goal hgoal hside t
    match len with
    | 1 =>
        have hg1 : 1 ≤ goal := by omega
        rw [for_add]
        constructor
        · intro ht
          by_cases h : goal ≤ mx
          · rw [if_pos h] at ht
            simp at ht
            subst ht
            refine ⟨rfl, ?_, by simp⟩
            intro v hv
            simp at hv
            omega
          · rw [if_neg h] at ht
            simp at ht
        · rintro ⟨hl, hb, hs⟩
          match t, hl with
          | [a], _ =>
              simp at hs
              subst hs
              have := hb a (by simp)
              rw [if_pos (by omega)]
              simp
    | (n + 2) =>
        rw [for_add, List.mem_flatMap]
        constructor
        · rintro ⟨i, hi, hti⟩
          rw [List.mem_map] at hti
          obtain ⟨t2, ht2, rfl⟩ := hti
          rw [List.mem_range'_1] at hi
          have hle : min (mx + 1) (add32 (sub32 goal (n + 2)) 2) ≤ mx + 1 :=
            min_le_left _ _
          have hi1 : 1 ≤ i := hi.1
          have himx : i ≤ mx := by omega
          -- the recursive goal is small, so no wrap happened
          have hsub : sub32 goal i < w32 := Nat.mod_lt _ (by rw [w32_eq]; norm_num)
          have hside2 : 2 ≤ n + 1 ∨ 1 ≤ sub32 goal i := by
            by_cases hn1 : 1 ≤ n
            · left; omega
            · have hn : n = 0 := by omega
              subst hn
              right
              -- here the range bound forces i < goal
              simp only [Nat.zero_add] at hi
              have hB : add32 (sub32 goal 2) 2 = goal := by
                unfold add32 sub32
                rw [w32_eq] at *
                omega
              rw [hB] at hi
              have hmin : min (mx + 1) goal ≤ goal := min_le_right _ _
              have hig : i < goal := by omega
              have he2 : sub32 goal i = goal - i := sub32_of_le _ _ hgoal (by omega)
              omega
          have ihm := (ih (n + 1) (by omega) (by omega) (by omega) (sub32 goal i)
            hsub hside2 t2).mp ht2
          obtain ⟨hl2, hb2, hs2⟩ := ihm
          -- the sum of t2 is small, so the recursive goal did not wrap
          have hsum_small : t2.sum ≤ 3360 := by
            have e1 : t2.sum ≤ t2.length * mx := sum_le_mul t2 mx (fun v hv => (hb2 v hv).2)
            rw [hl2] at e1
            have e2 : (n + 1) * mx ≤ (n + 1) * 15 := Nat.mul_le_mul_left _ hmx
            have e3 : (n + 1) * 15 ≤ 224 * 15 := Nat.mul_le_mul_right _ (by omega)
            omega
          have hig : i ≤ goal := by
            by_contra hc
            push_neg at hc
            have he3 : sub32 goal i = goal + (w32 - i) := by
              unfold sub32
              have e4 : i % w32 = i := Nat.mod_eq_of_lt (by rw [w32_eq]; omega)
              rw [e4]
              apply Nat.mod_eq_of_lt
              rw [w32_eq] at *
              omega
            rw [w32_eq] at *
            omega
          have hsub_eq : sub32 goal i = goal - i := sub32_of_le _ _ hgoal hig
          refine ⟨by simp [hl2], ?_, ?_⟩
          · intro v hv
            rcases List.mem_append.mp hv with h1 | h1
            · exact hb2 v h1
            · simp at h1
              omega
          · simp [hs2, hsub_eq]
            omega
        · rintro ⟨hl, hb, hs⟩
          have hne : t ≠ [] := by
            intro h0
            rw [h0] at hl
            simp at hl
          set i := t.getLastD 0 with hi_def
          set t2 := t.dropLast with ht2_def
          have hdecomp : t = t2 ++ [i] := list_last_decomp t 0 hne
          have hmemi : i ∈ t := by rw [hdecomp]; simp
          have hi1 : 1 ≤ i := (hb i hmemi).1
          have himx : i ≤ mx := (hb i hmemi).2
          have hl2 : t2.length = n + 1 := by
            have : t.length = t2.length + 1 := by rw [hdecomp]; simp
            omega
          have hb2 : ∀ v ∈ t2, 1 ≤ v ∧ v ≤ mx := by
            intro v hv
            exact hb v (by rw [hdecomp]; exact List.mem_append_left _ hv)
          have hs2 : t2.sum + i = goal := by
            rw [hdecomp] at hs
            simp at hs
            omega
          have hlensum : n + 1 ≤ t2.sum := by
            have := length_le_sum t2 (fun v hv => (hb2 v hv).1)
            omega
          have hgoal_ge : n + 2 ≤ goal := by omega
          have hsubeq : sub32 goal (n + 2) = goal - (n + 2) :=
            sub32_of_le _ _ hgoal (by omega)
          have haddeq : add32 (goal - (n + 2)) 2 = goal - (n + 2) + 2 :=
            add32_of_lt _ _ (by omega)
          refine ⟨i, ?_, ?_⟩
          · rw [List.mem_range'_1, hsubeq, haddeq]
            constructor
            · exact hi1
            · have h1 : i ≤ goal - (n + 1) := by omega
              have h3 : i + 1 ≤ min (mx + 1) (goal - (n + 2) + 2) :=
                le_min (by omega) (by omega)
              omega
          · rw [List.mem_map]
            refine ⟨t2, ?_, by rw [← hdecomp]⟩
            have hsub_eq : sub32 goal i = goal - i := sub32_of_le _ _ hgoal (by omega)
            rw [hsub_eq]
            refine (ih (n + 1) (by omega) (by omega) (by omega) (goal - i)
              (by omega) ?_ t2).mpr ⟨hl2, hb2, by omega⟩
            match n with
            | 0 => right; omega
            | n2 + 1 => left; omega

theorem prod_ne_u32max (l : List ℕ) (h : ∀ v ∈ l, v ≤ 15) :
    l.prod ≠ w32 - 1 := by
  intro hp
  have h17n : Nat.Prime 17 := by norm_num
  have h17 : Prime (17 : ℕ) := h17n.prime
  have hdvd : (17 : ℕ) ∣ l.prod := by
    rw [hp, w32_eq]
    norm_num
  obtain ⟨a, ha, hdvd2⟩ := h17.dvd_prod_iff.mp hdvd
  have ha15 := h a ha
  have ha0 : a = 0 := by
    rcases Nat.eq_zero_or_pos a with h0 | hpos
    · exact h0
    · have := Nat.le_of_dvd hpos hdvd2
      omega
  subst ha0
  have hz : l.prod = 0 := List.prod_eq_zero ha
  rw [hp, w32_eq] at hz
  norm_num at hz

theorem for_mul_length (mx : ℕ) :
    ∀ len goal t, t ∈ for_mul mx goal len → t.length = len := by
  intro len
  induction len using Nat.strong_induction_on with
  | _ len ih =>
    intro goal t ht
    match len with
    | 0 => simp [for_mul] at ht
    | 1 =>
        rw [for_mul] at ht
        by_cases h : goal ≤ mx
        · rw [if_pos h] at ht
          simp at ht
          rw [ht]
          rfl
        · rw [if_neg h] at ht
          simp at ht
    | (n + 2) =>
        rw [for_mul, List.mem_flatMap] at ht
        obtain ⟨i, _, hti⟩ := ht
        by_cases hm : goal % i = 0
        · rw [if_pos hm, List.mem_map] at hti
          obtain ⟨t2, ht2, rfl⟩ := hti
          have h3 := ih (n + 1) (by omega) _ _ ht2
          simp [h3]
        · rw [if_neg hm] at hti
          simp at hti

theorem for_mul_bound (mx : ℕ) :
    ∀ len goal t, t ∈ for_mul mx goal len → ∀ v ∈ t, v ≤ mx := by
  intro len
  induction len using Nat.strong_induction_on with
  | _ len ih =>
    intro goal t ht
    match len with
    | 0 => simp [for_mul] at ht
    | 1 =>
        rw [for_mul] at ht
        by_cases h : goal ≤ mx
        · rw [if_pos h] at ht
          simp at ht
          intro v hv
          rw [ht] at hv
          simp at hv
          omega
        · rw [if_neg h] at ht
          simp at ht
    | (n + 2) =>
        rw [for_mul, List.mem_flatMap] at ht
        obtain ⟨i, hi, hti⟩ := ht
        by_cases hm : goal % i = 0
        · rw [if_pos hm, List.mem_map] at hti
          obtain ⟨t2, ht2, rfl⟩ := hti
          rw [List.mem_range'_1] at hi
          have hle : min (mx + 1) (add32 goal 1) ≤ mx + 1 := min_le_left _ _
          intro v hv
          rcases List.mem_append.mp hv with h1 | h1
          · exact ih (n + 1) (by omega) _ _ ht2 v h1
          · simp at h1
            omega
        · rw [if_neg hm] at hti
          simp at hti

theorem for_mul_mem (mx : ℕ) (hmx : mx ≤ 15) :
    ∀ len, 1 ≤ len → ∀ goal, goal < w32 →
      (2 ≤ len ∨ 1 ≤ goal) → ∀ t,
      (t ∈ for_mul mx goal len ↔
        (t.length = len ∧ (∀ v ∈ t, 1 ≤ v ∧ v ≤ mx) ∧ t.prod = goal)) := by
  intro len
  induction len using Nat.strong_induction_on with
  | _ len ih =>
    intro hlen1 goal hgoal hside t
    match len with
    | 1 =>
        have hg1 : 1 ≤ goal := by omega
        rw [for_mul]
        constructor
        · intro ht
          by_cases h : goal ≤ mx
          · rw [if_pos h] at ht
            simp at ht
            subst ht
            refine ⟨rfl, ?_, by simp⟩
            intro v hv
            simp at hv
            omega
          · rw [if_neg h] at ht
            simp at ht
        · rintro ⟨hl, hb, hs⟩
          match t, hl with
          | [a], _ =>
              simp at hs
              subst hs
              have := hb a (by simp)
              rw [if_pos (by omega)]
              simp
    | (n + 2) =>
        rw [for_mul, List.mem_flatMap]
        constructor
        · rintro ⟨i, hi, hti⟩
          by_cases hm : goal % i = 0
          swap
          · rw [if_neg hm] at hti
            simp at hti
          rw [if_pos hm, List.mem_map] at hti
          obtain ⟨t2, ht2, rfl⟩ := hti
          rw [List.mem_range'_1] at hi
          have hle : min (mx + 1) (add32 goal 1) ≤ mx + 1 := min_le_left _ _
          have hi1 : 1 ≤ i := hi.1
          have himx : i ≤ mx := by omega
          have hdvd : i ∣ goal := Nat.dvd_of_mod_eq_zero hm
          have hg1 : 1 ≤ goal := by
            by_contra hg0
            have hg0b : goal = 0 := by omega
            subst hg0b
            have ha1 : add32 0 1 = 1 := by
              unfold add32
              rw [w32_eq]
            rw [ha1] at hi
            have hm1 : min (mx + 1) 1 = 1 := min_eq_right (by omega)
            rw [hm1] at hi
            omega
          have hdivpos : 1 ≤ goal / i :=
            Nat.div_pos (Nat.le_of_dvd (by omega) hdvd) (by omega)
          have ihm := (ih (n + 1) (by omega) (by omega) (goal / i)
            (by have := Nat.div_le_self goal i; omega)
            (by
              match n with
              | 0 => right; exact hdivpos
              | n2 + 1 => left; omega) t2).mp ht2
          obtain ⟨hl2, hb2, hs2⟩ := ihm
          refine ⟨by simp [hl2], ?_, ?_⟩
          · intro v hv
            rcases List.mem_append.mp hv with h1 | h1
            · exact hb2 v h1
            · simp at h1
              omega
          · simp [hs2]
            exact Nat.div_mul_cancel hdvd
        · rintro ⟨hl, hb, hs⟩
          have hne : t ≠ [] := by
            intro h0
            rw [h0] at hl
            simp at hl
          set i := t.getLastD 0 with hi_def
          set t2 := t.dropLast with ht2_def
          have hdecomp : t = t2 ++ [i] := list_last_decomp t 0 hne
          have hmemi : i ∈ t := by rw [hdecomp]; simp
          have hi1 : 1 ≤ i := (hb i hmemi).1
          have himx : i ≤ mx := (hb i hmemi).2
          have hl2 : t2.length = n + 1 := by
            have : t.length = t2.length + 1 := by rw [hdecomp]; simp
            omega
          have hb2 : ∀ v ∈ t2, 1 ≤ v ∧ v ≤ mx := by
            intro v hv
            exact hb v (by rw [hdecomp]; exact List.mem_append_left _ hv)
          have hs2 : t2.prod * i = goal := by
            rw [hdecomp] at hs
            simpa using hs
          have hdvd : i ∣ goal := ⟨t2.prod, by rw [← hs2, Nat.mul_comm]⟩
          have hg1 : 1 ≤ goal := by
            have : 0 < t.prod := List.prod_pos (fun a ha => (hb a ha).1)
            omega
          have hgmax : goal ≠ w32 - 1 := by
            rw [← hs]
            exact prod_ne_u32max t (fun v hv => by have := (hb v hv).2; omega)
          have ha1 : add32 goal 1 = goal + 1 := add32_of_lt _ _ (by rw [w32_eq] at *; omega)
          have hig : i ≤ goal := Nat.le_of_dvd (by omega) hdvd
          refine ⟨i, ?_, ?_⟩
          · rw [List.mem_range'_1, ha1]
            refine ⟨hi1, ?_⟩
            have h3 : i + 1 ≤ min (mx + 1) (goal + 1) := le_min (by omega) (by omega)
            omega
          · rw [if_pos (Nat.mod_eq_zero_of_dvd hdvd)]
            rw [List.mem_map]
            refine ⟨t2, ?_, by rw [← hdecomp]⟩
            have hdivpos : 1 ≤ goal / i :=
              Nat.div_pos (by omega) (by omega)
            refine (ih (n + 1) (by omega) (by omega) (goal / i)
              (by have := Nat.div_le_self goal i; omega)
              (by
                match n with
                | 0 => right; exact hdivpos
                | n2 + 1 => left; omega) t2).mpr ⟨hl2, hb2, ?_⟩
            rw [← hs2, Nat.mul_div_cancel _ (by omega : 0 < i)]

theorem mem_drop_range (n m j : ℕ) :
    j ∈ (List.range n).drop m ↔ m ≤ j ∧ j < n := by
  rw [List.mem_drop_iff_getElem]
  constructor
  · rintro ⟨i, hm, heq⟩
    rw [List.getElem_range] at heq
    rw [List.length_range] at hm
    omega
  · rintro ⟨h1, h2⟩
    refine ⟨j - m, ?_, ?_⟩
    · rw [List.length_range]
      omega
    · rw [List.getElem_range]
      omega

/-! Lemmas about the intra-cage exclusion pass (reduced). -/

theorem mem_retainPair (cells : List (ℕ × ℕ)) (i j : ℕ) (l : List (List ℕ))
    (t : List ℕ) :
    t ∈ retainPair cells i j l ↔ t ∈ l ∧
      (aligned (cells.getD i (0, 0)) (cells.getD j (0, 0)) →
        t.getD i 0 ≠ t.getD j 0) := by
  unfold retainPair aligned
  rw [List.mem_filter]
  constructor
  · rintro ⟨h1, h2⟩
    refine ⟨h1, ?_⟩
    intro halign
    rw [if_pos halign] at h2
    exact of_decide_eq_true h2
  · rintro ⟨h1, h2⟩
    refine ⟨h1, ?_⟩
    by_cases hc : ((cells.getD i (0, 0)).1 = (cells.getD j (0, 0)).1 ∨
        (cells.getD i (0, 0)).2 = (cells.getD j (0, 0)).2)
    · rw [if_pos hc]
      exact decide_eq_true (h2 hc)
    · rw [if_neg hc]
      rfl

theorem mem_reduced (cage : Cage) (l : List (List ℕ)) (t : List ℕ) :
    t ∈ reduced cage l ↔ t ∈ l ∧ IntraOk cage t := by
  unfold reduced
  rw [mem_foldl_step _
    (fun i a => ∀ j ∈ (List.range cage.cells.length).drop (i + 1),
      aligned (cage.cells.getD i (0, 0)) (cage.cells.getD j (0, 0)) →
        a.getD i 0 ≠ a.getD j 0)
    (fun acc i a =>
      mem_foldl_step _
        (fun j a2 =>
          aligned (cage.cells.getD i (0, 0)) (cage.cells.getD j (0, 0)) →
            a2.getD i 0 ≠ a2.getD j 0)
        (fun acc2 j a2 => mem_retainPair cage.cells i j acc2 a2) _ acc a)]
  unfold IntraOk
  constructor
  · rintro ⟨h1, h2⟩
    refine ⟨h1, ?_⟩
    intro j hj i hij halign
    have hi : i ∈ List.range cage.cells.length := List.mem_range.mpr (by omega)
    have hjd : j ∈ (List.range cage.cells.length).drop (i + 1) := by
      rw [mem_drop_range]
      omega
    exact h2 i hi j hjd halign
  · rintro ⟨h1, h2⟩
    refine ⟨h1, ?_⟩
    intro i hi j hj halign
    rw [mem_drop_range] at hj
    exact h2 j (by omega) i (by omega) halign

theorem reduced_eq_self (cage : Cage) (l : List (List ℕ))
    (h : ∀ t ∈ l, IntraOk cage t) : reduced cage l = l := by
  unfold reduced
  apply foldl_fix
  intro i hi
  apply foldl_fix
  intro j hj
  unfold retainPair
  apply List.filter_eq_self.mpr
  intro t ht
  rw [List.mem_range] at hi
  rw [mem_drop_range] at hj
  have h2 := h t ht j hj.2 i (by omega)
  by_cases hc : ((cage.cells.getD i (0, 0)).1 = (cage.cells.getD j (0, 0)).1 ∨
      (cage.cells.getD i (0, 0)).2 = (cage.cells.getD j (0, 0)).2)
  · rw [if_pos hc]
    exact decide_eq_true (h2 hc)
  · rw [if_neg hc]
    rfl

/-! Lemmas about the subtraction and division generators. -/

theorem for_sub_eq (n g : ℕ) (hn : n ≤ 15) (hg : g ≤ n) :
    for_sub n g =
      (List.range' 1 (n - g)).flatMap (fun i => [[i, i + g], [i + g, i]]) := by
  unfold for_sub
  rw [sub32_of_le n g (by rw [w32_eq]; omega) hg,
    add32_of_lt (n - g) 1 (by rw [w32_eq]; omega)]
  simp

theorem mem_for_sub (n g : ℕ) (hn : n ≤ 15) (hg : g ≤ n) (t : List ℕ) :
    t ∈ for_sub n g ↔
      ∃ i, 1 ≤ i ∧ i + g ≤ n ∧ (t = [i, i + g] ∨ t = [i + g, i]) := by
  rw [for_sub_eq n g hn hg, List.mem_flatMap]
  constructor
  · rintro ⟨i, hi, ht⟩
    rw [List.mem_range'_1] at hi
    simp at ht
    exact ⟨i, hi.1, by omega, ht⟩
  · rintro ⟨i, h1, h2, h3⟩
    refine ⟨i, ?_, by simpa using h3⟩
    rw [List.mem_range'_1]
    omega

theorem mem_for_div (n g : ℕ) (hg : 1 ≤ g) (t : List ℕ) :
    t ∈ for_div n g ↔
      ∃ i, 1 ≤ i ∧ i * g ≤ n ∧ (t = [i, i * g] ∨ t = [i * g, i]) := by
  unfold for_div
  rw [List.mem_flatMap]
  simp only [Nat.add_sub_cancel]
  constructor
  · rintro ⟨i, hi, ht⟩
    rw [List.mem_range'_1] at hi
    simp at ht
    refine ⟨i, hi.1, ?_, ht⟩
    have : i ≤ n / g := by omega
    exact (Nat.le_div_iff_mul_le (by omega)).mp this
  · rintro ⟨i, h1, h2, h3⟩
    refine ⟨i, ?_, by simpa using h3⟩
    rw [List.mem_range'_1]
    have : i ≤ n / g := (Nat.le_div_iff_mul_le (by omega)).mpr h2
    omega

/-! The generator output against the brute-force description. -/

theorem from_cage_complete (ken : KenKen) (cage : Cage) (hn : ken.size ≤ 15)
    (hwf : CageWF ken.size cage) :
    ∀ t, ValidSeq ken.size cage t → t ∈ from_cage ken cage := by
  obtain ⟨cells, last, op⟩ := cage
  intro t hv
  obtain ⟨hl, hb, hg, hio⟩ := hv
  cases op with
  | add goal =>
      obtain ⟨-, -, -, -, hop⟩ := hwf
      dsimp only at hop
      show t ∈ reduced _ (for_add ken.size goal _)
      rw [mem_reduced]
      refine ⟨?_, hio⟩
      exact (for_add_mem ken.size hn cells.length (by omega) (by omega) goal
        hop.2.2 (Or.inl hop.1) t).mpr ⟨hl, hb, hg⟩
  | mul goal =>
      obtain ⟨-, -, -, -, hop⟩ := hwf
      dsimp only at hop
      show t ∈ reduced _ (for_mul ken.size goal _)
      rw [mem_reduced]
      refine ⟨?_, hio⟩
      exact (for_mul_mem ken.size hn cells.length (by omega) goal
        hop.2.2 (Or.inl hop.1) t).mpr ⟨hl, hb, hg⟩
  | sub g =>
      obtain ⟨-, -, -, -, hop⟩ := hwf
      dsimp only at hop
      have hlen2 : t.length = 2 := by rw [hl]; exact hop.1
      obtain ⟨a, b, rfl⟩ := List.length_eq_two.mp hlen2
      have hga := hb a (by simp)
      have hgb := hb b (by simp)
      have hg2 : max a b - min a b = g := hg
      show [a, b] ∈ for_sub ken.size g
      rw [mem_for_sub ken.size g hn (by omega)]
      rcases le_total a b with hab | hab
      · refine ⟨a, by omega, by omega, Or.inl ?_⟩
        have : b = a + g := by omega
        rw [this]
      · refine ⟨b, by omega, by omega, Or.inr ?_⟩
        have : a = b + g := by omega
        rw [this]
  | div g =>
      obtain ⟨-, -, -, -, hop⟩ := hwf
      dsimp only at hop
      have hlen2 : t.length = 2 := by rw [hl]; exact hop.1
      obtain ⟨a, b, rfl⟩ := List.length_eq_two.mp hlen2
      have hga := hb a (by simp)
      have hgb := hb b (by simp)
      obtain ⟨hmod, hdiv⟩ := (hg : max a b % min a b = 0 ∧ max a b / min a b = g)
      have hminpos : 0 < min a b := by omega
      have hgpos : 1 ≤ g := by
        rw [← hdiv]
        exact Nat.div_pos (by omega) hminpos
      have hmax : max a b = min a b * g :=
        Nat.eq_mul_of_div_eq_right (Nat.dvd_of_mod_eq_zero hmod) hdiv
      show [a, b] ∈ for_div ken.size g
      rw [mem_for_div ken.size g hgpos]
      rcases le_total a b with hab | hab
      · have hmaxb : max a b = b := max_eq_right hab
        have hmina : min a b = a := min_eq_left hab
        refine ⟨a, by omega, by rw [← hmina, ← hmax, hmaxb]; omega, Or.inl ?_⟩
        have : b = a * g := by rw [← hmina, ← hmax, hmaxb]
        rw [this]
      · have hmaxa : max a b = a := max_eq_left hab
        have hminb : min a b = b := min_eq_right hab
        refine ⟨b, by omega, by rw [← hminb, ← hmax, hmaxa]; omega, Or.inr ?_⟩
        have : a = b * g := by rw [← hminb, ← hmax, hmaxa]
        rw [this]
  | const c =>
      have hc : t = [c] := hg
      subst hc
      show [c] ∈ [[c]]
      simp

theorem from_cage_sound (ken : KenKen) (cage : Cage) (hn : ken.size ≤ 15)
    (hwf : CageWF ken.size cage) (hrange : cageGoalRange ken.size cage) :
    ∀ t, t ∈ from_cage ken cage → ValidSeq ken.size cage t := by
  obtain ⟨cells, last, op⟩ := cage
  intro t ht
  cases op with
  | add goal =>
      obtain ⟨-, -, -, -, hop⟩ := hwf
      dsimp only at hop
      rw [show from_cage ken ⟨cells, last, Op.add goal⟩ =
        reduced ⟨cells, last, Op.add goal⟩ (for_add ken.size goal cells.length)
        from rfl, mem_reduced] at ht
      obtain ⟨ht1, hio⟩ := ht
      obtain ⟨hl, hb, hs⟩ := (for_add_mem ken.size hn cells.length (by omega)
        (by omega) goal hop.2.2 (Or.inl hop.1) t).mp ht1
      exact ⟨hl, hb, hs, hio⟩
  | mul goal =>
      obtain ⟨-, -, -, -, hop⟩ := hwf
      dsimp only at hop
      rw [show from_cage ken ⟨cells, last, Op.mul goal⟩ =
        reduced ⟨cells, last, Op.mul goal⟩ (for_mul ken.size goal cells.length)
        from rfl, mem_reduced] at ht
      obtain ⟨ht1, hio⟩ := ht
      obtain ⟨hl, hb, hs⟩ := (for_mul_mem ken.size hn cells.length (by omega)
        goal hop.2.2 (Or.inl hop.1) t).mp ht1
      exact ⟨hl, hb, hs, hio⟩
  | sub g =>
      obtain ⟨-, -, -, -, hop⟩ := hwf
      dsimp only at hop
      obtain ⟨hg1, hg2⟩ := (hrange : 1 ≤ g ∧ g ≤ ken.size)
      rw [show from_cage ken ⟨cells, last, Op.sub g⟩ = for_sub ken.size g
        from rfl, mem_for_sub ken.size g hn hg2] at ht
      obtain ⟨i, hi1, hi2, ht⟩ := ht
      have hlen : cells.length = 2 := hop.1
      rcases ht with rfl | rfl
      · refine ⟨by simp [hlen], ?_, ?_, ?_⟩
        · intro v hv
          simp at hv
          rcases hv with rfl | rfl <;> omega
        · show max i (i + g) - min i (i + g) = g
          omega
        · intro j hj i2 hi2j _
          rw [hlen] at hj
          have hj1 : j = 1 := by omega
          have hi20 : i2 = 0 := by omega
          subst hj1
          subst hi20
          simp
          omega
      · refine ⟨by simp [hlen], ?_, ?_, ?_⟩
        · intro v hv
          simp at hv
          rcases hv with rfl | rfl <;> omega
        · show max (i + g) i - min (i + g) i = g
          omega
        · intro j hj i2 hi2j _
          rw [hlen] at hj
          have hj1 : j = 1 := by omega
          have hi20 : i2 = 0 := by omega
          subst hj1
          subst hi20
          simp
          omega
  | div g =>
      obtain ⟨-, -, -, -, hop⟩ := hwf
      dsimp only at hop
      have hg2 : 2 ≤ g := hrange
      rw [show from_cage ken ⟨cells, last, Op.div g⟩ = for_div ken.size g
        from rfl, mem_for_div ken.size g (by omega)] at ht
      obtain ⟨i, hi1, hi2, ht⟩ := ht
      have hlen : cells.length = 2 := hop.1
      have higi : i < i * g := by
        have h3 : i * 2 ≤ i * g := Nat.mul_le_mul_left i hg2
        omega
      rcases ht with rfl | rfl
      · refine ⟨by simp [hlen], ?_, ?_, ?_⟩
        · intro v hv
          simp at hv
          rcases hv with rfl | rfl <;> omega
        · constructor
          · show max i (i * g) % min i (i * g) = 0
            rw [max_eq_right (by omega), min_eq_left (by omega)]
            simp [Nat.mul_mod_right]
          · show max i (i * g) / min i (i * g) = g
            rw [max_eq_right (by omega), min_eq_left (by omega)]
            exact Nat.mul_div_cancel_left g (by omega)
        · intro j hj i2 hi2j _
          rw [hlen] at hj
          have hj1 : j = 1 := by omega
          have hi20 : i2 = 0 := by omega
          subst hj1
          subst hi20
          simp
          omega
      · refine ⟨by simp [hlen], ?_, ?_, ?_⟩
        · intro v hv
          simp at hv
          rcases hv with rfl | rfl <;> omega
        · constructor
          · show max (i * g) i % min (i * g) i = 0
            rw [max_eq_left (by omega), min_eq_right (by omega)]
            simp [Nat.mul_mod_right]
          · show max (i * g) i / min (i * g) i = g
            rw [max_eq_left (by omega), min_eq_right (by omega)]
            exact Nat.mul_div_cancel_left g (by omega)
        · intro j hj i2 hi2j _
          rw [hlen] at hj
          have hj1 : j = 1 := by omega
          have hi20 : i2 = 0 := by omega
          subst hj1
          subst hi20
          simp
          omega
  | const c =>
      obtain ⟨-, -, -, -, hop⟩ := hwf
      dsimp only at hop
      obtain ⟨hc1, hc2⟩ := (hrange : 1 ≤ c ∧ c ≤ ken.size)
      have ht2 : t = [c] := by
        have : t ∈ [[c]] := ht
        simpa using this
      subst ht2
      refine ⟨by simp [hop.1], ?_, rfl, ?_⟩
      · intro v hv
        simp at hv
        omega
      · intro j hj i2 hi2j _
        rw [hop.1] at hj
        omega

/-! Lemmas about the constraint store. -/

theorem upd2_same {α : Type} (f : ℕ → ℕ → α) (a b : ℕ) (x : α) :
    upd2 f a b x a b = x := by
  simp [upd2]

theorem upd2_other {α : Type} (f : ℕ → ℕ → α) (a b : ℕ) (x : α) (r c : ℕ)
    (h : ¬(r = a ∧ c = b)) : upd2 f a b x r c = f r c := by
  simp only [upd2, if_neg h]

theorem testBit_candidates_for_cell (l : List (List ℕ)) (ix v : ℕ) :
    (candidates_for_cell l ix).testBit v = true ↔
      ∃ cand ∈ l, cand.getD ix 0 = v := by
  unfold candidates_for_cell
  suffices h : ∀ a : ℕ,
      ((l.foldl (fun res v2 => bset res (v2.getD ix 0)) a).testBit v = true ↔
        (a.testBit v = true ∨ ∃ cand ∈ l, cand.getD ix 0 = v)) by
    rw [h 0]
    simp [Nat.zero_testBit]
  induction l with
  | nil => intro a; simp
  | cons x xs ih =>
      intro a
      rw [List.foldl_cons, ih]
      rw [testBit_bset]
      constructor
      · rintro (h1 | h1)
        · rcases Bool.or_eq_true_iff.mp h1 with h2 | h2
          · exact Or.inl h2
          · exact Or.inr ⟨x, by simp, (of_decide_eq_true h2).symm⟩
        · obtain ⟨cand, hc1, hc2⟩ := h1
          exact Or.inr ⟨cand, by simp [hc1], hc2⟩
      · rintro (h1 | ⟨cand, hc1, hc2⟩)
        · exact Or.inl (by simp [h1])
        · rcases List.mem_cons.mp hc1 with rfl | hc3
          · subst hc2
            exact Or.inl (by simp)
          · exact Or.inr ⟨cand, hc3, hc2⟩

theorem high_bits_lt (x n : ℕ) (h : ∀ i, n ≤ i → x.testBit i = false) :
    x < 2 ^ n := by
  by_contra hc
  push_neg at hc
  have hx0 : x ≠ 0 := by
    intro h0
    subst h0
    have := Nat.one_le_two_pow (n := n)
    omega
  have h1 : n ≤ Nat.log2 x := by
    by_contra h2
    push_neg at h2
    have := (Nat.log2_lt hx0).mp h2
    omega
  have := h _ h1
  rw [testBit_log2 x hx0] at this
  exact Bool.noConfusion this

theorem candidates_for_cell_lt (l : List (List ℕ)) (ix : ℕ)
    (h : ∀ cand ∈ l, ∀ v ∈ cand, v < 16) :
    candidates_for_cell l ix < 2 ^ 16 := by
  apply high_bits_lt
  intro i hi
  cases hb : (candidates_for_cell l ix).testBit i
  · rfl
  · exfalso
    obtain ⟨cand, hc1, hc2⟩ := (testBit_candidates_for_cell l ix i).mp hb
    have hv : cand.getD ix 0 < 16 := by
      rcases Nat.lt_or_ge ix cand.length with hix | hix
      · refine h cand hc1 _ ?_
        rw [List.getD_eq_getElem cand 0 hix]
        exact List.getElem_mem hix
      · rw [List.getD_eq_default _ _ hix]
        omega
    omega

/-- Reading a fold of guarded cell updates at an untouched position. -/
theorem foldl_guard_upd2_ne {α : Type} (f : ℕ → ℕ × ℕ) (g : ℕ → α) (cidx : ℕ)
    (L : List ℕ) (base : ℕ → ℕ → α) (r c : ℕ)
    (h : ∀ k ∈ L, k ≠ cidx → f k ≠ (r, c)) :
    (L.foldl (fun cc k =>
      if k ≠ cidx then upd2 cc (f k).1 (f k).2 (g k) else cc) base) r c =
      base r c := by
  induction L generalizing base with
  | nil => rfl
  | cons k L2 ih =>
      rw [List.foldl_cons]
      rw [ih _ (fun k2 hk2 => h k2 (List.mem_cons_of_mem k hk2))]
      by_cases hk : k ≠ cidx
      · rw [if_pos hk]
        apply upd2_other
        intro hrc
        exact h k (List.mem_cons_self k L2) hk (by
          have : f k = (r, c) := Prod.ext (by omega) (by omega)
          exact this)
      · rw [if_neg hk]

/-- Reading a fold of guarded cell updates at the unique touched position. -/
theorem foldl_guard_upd2_hit {α : Type} (f : ℕ → ℕ × ℕ) (g : ℕ → α) (cidx : ℕ)
    (L : List ℕ) (base : ℕ → ℕ → α) (k0 r c : ℕ)
    (hk0 : k0 ∈ L) (hne : k0 ≠ cidx) (hf : f k0 = (r, c))
    (huniq : ∀ k ∈ L, k ≠ cidx → f k = (r, c) → k = k0) :
    (L.foldl (fun cc k =>
      if k ≠ cidx then upd2 cc (f k).1 (f k).2 (g k) else cc) base) r c =
      g k0 := by
  induction L generalizing base with
  | nil => exact absurd hk0 (List.not_mem_nil k0)
  | cons k L2 ih =>
      rw [List.foldl_cons]
      by_cases hkk : k = k0
      · subst hkk
        by_cases hk2 : k ∈ L2
        · exact ih _ hk2 (fun k2 hk2b => huniq k2 (List.mem_cons_of_mem k hk2b))
        · rw [foldl_guard_upd2_ne]
          · rw [if_pos hne, hf, upd2_same]
          · intro k2 hk2b hk2c hk2d
            have := huniq k2 (List.mem_cons_of_mem k hk2b) hk2c hk2d
            subst this
            exact hk2 hk2b
      · have hk0b : k0 ∈ L2 := by
          rcases List.mem_cons.mp hk0 with h1 | h1
          · exact absurd h1.symm hkk
          · exact h1
        exact ih _ hk0b (fun k2 hk2b => huniq k2 (List.mem_cons_of_mem k hk2b))

/-- Reading a fold of unguarded cell updates at an untouched position. -/
theorem foldl_upd2_ne {α : Type} (f : ℕ → ℕ × ℕ) (g : ℕ → α)
    (L : List ℕ) (base : ℕ → ℕ → α) (r c : ℕ)
    (h : ∀ k ∈ L, f k ≠ (r, c)) :
    (L.foldl (fun cc k => upd2 cc (f k).1 (f k).2 (g k)) base) r c =
      base r c := by
  induction L generalizing base with
  | nil => rfl
  | cons k L2 ih =>
      rw [List.foldl_cons]
      rw [ih _ (fun k2 hk2 => h k2 (List.mem_cons_of_mem k hk2))]
      apply upd2_other
      intro hrc
      exact h k (List.mem_cons_self k L2) (Prod.ext (by omega) (by omega))

/-- Reading a fold of unguarded cell updates at the unique touched
position. -/
theorem foldl_upd2_hit {α : Type} (f : ℕ → ℕ × ℕ) (g : ℕ → α)
    (L : List ℕ) (base : ℕ → ℕ → α) (k0 r c : ℕ)
    (hk0 : k0 ∈ L) (hf : f k0 = (r, c))
    (huniq : ∀ k ∈ L, f k = (r, c) → k = k0) :
    (L.foldl (fun cc k => upd2 cc (f k).1 (f k).2 (g k)) base) r c = g k0 := by
  induction L generalizing base with
  | nil => exact absurd hk0 (List.not_mem_nil k0)
  | cons k L2 ih =>
      rw [List.foldl_cons]
      by_cases hkk : k = k0
      · subst hkk
        by_cases hk2 : k ∈ L2
        · exact ih _ hk2 (fun k2 hk2b => huniq k2 (List.mem_cons_of_mem k hk2b))
        · rw [foldl_upd2_ne]
          · rw [hf, upd2_same]
          · intro k2 hk2b hk2d
            have := huniq k2 (List.mem_cons_of_mem k hk2b) hk2d
            subst this
            exact hk2 hk2b
      · have hk0b : k0 ∈ L2 := by
          rcases List.mem_cons.mp hk0 with h1 | h1
          · exact absurd h1.symm hkk
          · exact h1
        exact ih _ hk0b (fun k2 hk2b => huniq k2 (List.mem_cons_of_mem k hk2b))

/-- Unfolding of a successful exclude. -/
theorem exclude_true (ken : KenKen) (s : Constraints) (row col el : ℕ)
    (h : (s.cellcands row col).testBit el = true) :
    exclude ken s row col el =
      (⟨exCc2 ken s row col el,
        s.cagecands.set (ken.cell2cage row col).1 (exRcands ken s row col el)⟩,
        true) := by
  unfold exclude exCc2 exCage exRcands
  rw [if_pos h]

/-- Unfolding of a no-op exclude. -/
theorem exclude_false (ken : KenKen) (s : Constraints) (row col el : ℕ)
    (h : (s.cellcands row col).testBit el = false) :
    exclude ken s row col el = (s, false) := by
  unfold exclude
  rw [if_neg (by simp [h])]

/-- Two distinct positions of one cage are distinct cells. -/
theorem wf_cells_ne (ken : KenKen) (hwf : WF ken) (g k k2 : ℕ)
    (hg : g < ken.cages.length)
    (hk : k < (ken.cages.getD g default).cells.length)
    (hk2 : k2 < (ken.cages.getD g default).cells.length) (hne : k ≠ k2) :
    (ken.cages.getD g default).cells.getD k (0, 0) ≠
      (ken.cages.getD g default).cells.getD k2 (0, 0) := by
  obtain ⟨-, -, hp2⟩ := hwf.2.2
  intro heq
  have h1 := hp2 g hg k hk
  have h2 := hp2 g hg k2 hk2
  rw [heq] at h1
  rw [h1] at h2
  exact hne (by injection h2)

/-- Cells of two distinct cages are distinct. -/
theorem wf_cells_cross (ken : KenKen) (hwf : WF ken) (g g2 k k2 : ℕ)
    (hg : g < ken.cages.length) (hg2 : g2 < ken.cages.length)
    (hk : k < (ken.cages.getD g default).cells.length)
    (hk2 : k2 < (ken.cages.getD g2 default).cells.length) (hne : g ≠ g2) :
    (ken.cages.getD g default).cells.getD k (0, 0) ≠
      (ken.cages.getD g2 default).cells.getD k2 (0, 0) := by
  obtain ⟨-, -, hp2⟩ := hwf.2.2
  intro heq
  have h1 := hp2 g hg k hk
  have h2 := hp2 g2 hg2 k2 hk2
  rw [heq] at h1
  rw [h1] at h2
  exact hne (by injection h2)

theorem getD_set_eq {α : Type} (l : List α) (i : ℕ) (x d : α)
    (h : i < l.length) : (l.set i x).getD i d = x := by
  rw [List.getD_eq_getElem?_getD, List.getElem?_set_self h]
  rfl

theorem getD_set_ne {α : Type} (l : List α) (i : ℕ) (x d : α) (j : ℕ)
    (h : j ≠ i) : (l.set i x).getD j d = l.getD j d := by
  rw [List.getD_eq_getElem?_getD, List.getElem?_set_ne (Ne.symm h),
    ← List.getD_eq_getElem?_getD]

/-- A successful exclude clears exactly the bit el at the target cell. -/
theorem exclude_target_cleared (ken : KenKen) (s : Constraints)
    (row col el : ℕ) (hwf : WF ken) (hrow : row < ken.size)
    (hcol : col < ken.size) (htb : (s.cellcands row col).testBit el = true) :
    (exclude ken s row col el).1.cellcands row col =
      bclear (s.cellcands row col) el := by
  rw [exclude_true _ _ _ _ _ htb]
  show exCc2 ken s row col el row col = _
  have hpc := hwf.2.2.2.1 row hrow col hcol
  unfold exCc2 exCage
  rw [foldl_guard_upd2_ne]
  · exact upd2_same _ _ _ _
  · intro k hk hkne heq
    rw [List.mem_range] at hk
    exact wf_cells_ne ken hwf (ken.cell2cage row col).1 k
      (ken.cell2cage row col).2 hpc.1 hk hpc.2.1 hkne
      (heq.trans hpc.2.2.symm)

/-! Claim C6: idempotence of exclusion. -/

/-- C6: excluding the same digit twice leaves the store as after one
call and the second call returns false; when the digit is already absent
the call changes nothing and returns false.  The digit-set bound is the
u32 representation (and the first call is a no-op above bit 31, as the
guard bit test fails there). -/
theorem C6_exclude_idempotent (ken : KenKen) (s : Constraints)
    (row col el : ℕ) (hwf : WF ken) (hrow : row < ken.size)
    (hcol : col < ken.size) (hbound : s.cellcands row col < w32) :
    (exclude ken (exclude ken s row col el).1 row col el =
      ((exclude ken s row col el).1, false)) ∧
    ((s.cellcands row col).testBit el = false →
      exclude ken s row col el = (s, false)) := by
  constructor
  · cases htb : (s.cellcands row col).testBit el
    · rw [exclude_false _ _ _ _ _ htb]
      exact exclude_false _ _ _ _ _ htb
    · have hel32 : el < 32 := testBit_lt_32 _ _ hbound htb
      have hcl := exclude_target_cleared ken s row col el hwf hrow hcol htb
      apply exclude_false
      rw [hcl, testBit_bclear _ _ _ hel32]
      simp
  · intro h
    exact exclude_false _ _ _ _ _ h

/-- Witness for C6 on the empty store of the concrete puzzle p1. -/
theorem C6_witness :
    (WF p1 ∧ (0 : ℕ) < p1.size ∧ (Constraints.empty p1).cellcands 0 0 < w32) ∧
    ((exclude p1 (exclude p1 (Constraints.empty p1) 0 0 1).1 0 0 1 =
        ((exclude p1 (Constraints.empty p1) 0 0 1).1, false)) ∧
      (((Constraints.empty p1).cellcands 0 0).testBit 1 = false →
        exclude p1 (Constraints.empty p1) 0 0 1 = (Constraints.empty p1, false))) :=
  ⟨⟨by decide, by decide, by decide⟩,
    C6_exclude_idempotent p1 (Constraints.empty p1) 0 0 1 (by decide)
      (by decide) (by decide) (by decide)⟩

/-! Preservation and establishment of the store invariant (claim C4). -/

theorem exclude_preserves (ken : KenKen) (s : Constraints) (row col el : ℕ)
    (hwf : WF ken) (hrow : row < ken.size) (hcol : col < ken.size)
    (hel : el < 32) (hrep : RepOk ken s) (hsync : Sync ken s) :
    RepOk ken (exclude ken s row col el).1 ∧
      Sync ken (exclude ken s row col el).1 := by
  cases htb : (s.cellcands row col).testBit el
  · rw [exclude_false _ _ _ _ _ htb]
    exact ⟨hrep, hsync⟩
  · rw [exclude_true _ _ _ _ _ htb]
    obtain ⟨h2s, h15, hcwf, hp1, hp2⟩ := hwf
    have hpc := hp1 row hrow col hcol
    obtain ⟨hg, hcidx, hcell⟩ := hpc
    obtain ⟨hlen, hentry⟩ := hrep
    have hglt : (ken.cell2cage row col).1 < s.cagecands.length := by omega
    constructor
    · constructor
      · show (s.cagecands.set _ _).length = _
        rw [List.length_set]
        exact hlen
      · intro g2 hg2 cand hcand
        by_cases hgg : g2 = (ken.cell2cage row col).1
        · subst hgg
          rw [show (s.cagecands.set (ken.cell2cage row col).1
              (exRcands ken s row col el)).getD (ken.cell2cage row col).1 [] =
              exRcands ken s row col el from getD_set_eq _ _ _ _ hglt] at hcand
          unfold exRcands at hcand
          exact hentry _ hg2 cand (List.mem_of_mem_filter hcand)
        · rw [getD_set_ne _ _ _ _ _ hgg] at hcand
          exact hentry g2 hg2 cand hcand
    · intro g2 hg2 k hk
      by_cases hgg : g2 = (ken.cell2cage row col).1
      · subst hgg
        rw [show (s.cagecands.set (ken.cell2cage row col).1
            (exRcands ken s row col el)).getD (ken.cell2cage row col).1 [] =
            exRcands ken s row col el from getD_set_eq _ _ _ _ hglt]
        by_cases hkc : k = (ken.cell2cage row col).2
        · subst hkc
          show exCc2 ken s row col el _ _ = _
          unfold exCc2 exCage
          rw [hcell]
          have hbase : upd2 s.cellcands row col
              (bclear (s.cellcands row col) el) (row, col).1 (row, col).2 =
              bclear (s.cellcands row col) el := upd2_same _ _ _ _
          rw [foldl_guard_upd2_ne]
          · rw [hbase]
            -- bit-level equality with the recomputed set at the target
            apply Nat.eq_of_testBit_eq
            intro v
            rw [testBit_bclear _ _ _ hel]
            have holdc := hsync (ken.cell2cage row col).1 hg2
              (ken.cell2cage row col).2 hk
            rw [hcell] at holdc
            cases hv : (candidates_for_cell (exRcands ken s row col el)
                (ken.cell2cage row col).2).testBit v
            · cases hv2 : (s.cellcands row col).testBit v
              · simp
              · -- v must be el, else it would survive the filter
                simp only [Bool.true_and]
                rw [holdc] at hv2
                obtain ⟨cand, hc1, hc2⟩ := (testBit_candidates_for_cell _ _ _).mp hv2
                by_cases hvel : v = el
                · simp [hvel]
                · exfalso
                  have hmemf : cand ∈ exRcands ken s row col el := by
                    unfold exRcands
                    rw [List.mem_filter]
                    refine ⟨hc1, ?_⟩
                    rw [hc2]
                    exact decide_eq_true hvel
                  have := (testBit_candidates_for_cell _ _ v).mpr ⟨cand, hmemf, hc2⟩
                  rw [hv] at this
                  exact Bool.noConfusion this
            · obtain ⟨cand, hc1, hc2⟩ := (testBit_candidates_for_cell _ _ _).mp hv
              unfold exRcands at hc1
              rw [List.mem_filter] at hc1
              have hvel : v ≠ el := by
                have := of_decide_eq_true hc1.2
                rw [hc2] at this
                exact this
              have hv2 : (s.cellcands row col).testBit v = true := by
                rw [holdc]
                exact (testBit_candidates_for_cell _ _ v).mpr ⟨cand, hc1.1, hc2⟩
              have hv32 : v < 32 := by
                have hcand16 := hentry (ken.cell2cage row col).1 hg2 cand hc1.1
                rcases Nat.lt_or_ge (ken.cell2cage row col).2 cand.length with hix | hix
                · have : cand.getD (ken.cell2cage row col).2 0 ∈ cand := by
                    rw [List.getD_eq_getElem cand 0 hix]
                    exact List.getElem_mem hix
                  have := hcand16.2 _ this
                  omega
                · rw [List.getD_eq_default _ _ hix] at hc2
                  omega
              simp [hv2, hvel, hv32]
          · intro k2 hk2 hkne heq
            rw [List.mem_range] at hk2
            have heq2 : (ken.cages.getD (ken.cell2cage row col).1
                default).cells.getD k2 (0, 0) = (row, col) := by
              rw [heq]
            exact wf_cells_ne ken ⟨h2s, h15, hcwf, hp1, hp2⟩
              (ken.cell2cage row col).1 k2 (ken.cell2cage row col).2 hg2 hk2
              hcidx hkne (heq2.trans hcell.symm)
        · -- a sibling position: the fold wrote the recomputed set there
          show exCc2 ken s row col el _ _ = _
          unfold exCc2 exCage
          rw [foldl_guard_upd2_hit _ _ _ _ _ k _ _
            (List.mem_range.mpr hk) hkc
            (Prod.mk.eta)
            ?_]
          intro k2 hk2 hk2ne heq
          rw [List.mem_range] at hk2
          by_contra hne2
          exact wf_cells_ne ken ⟨h2s, h15, hcwf, hp1, hp2⟩
            (ken.cell2cage row col).1 k2 k hg2 hk2 hk hne2
            (heq.trans Prod.mk.eta)
      · -- a cell of another cage: both sides unchanged
        rw [getD_set_ne _ _ _ _ _ hgg]
        show exCc2 ken s row col el _ _ = _
        unfold exCc2 exCage
        rw [foldl_guard_upd2_ne]
        · rw [upd2_other]
          · exact hsync g2 hg2 k hk
          · intro hrc
            have heq : (ken.cages.getD g2 default).cells.getD k (0, 0) =
                (row, col) := by
              rw [Prod.ext_iff]
              exact ⟨hrc.1, hrc.2⟩
            exact wf_cells_cross ken ⟨h2s, h15, hcwf, hp1, hp2⟩ g2
              (ken.cell2cage row col).1 k (ken.cell2cage row col).2 hg2 hg hk
              hcidx hgg (heq.trans hcell.symm)
        · intro k2 hk2 hk2ne heq
          rw [List.mem_range] at hk2
          exact wf_cells_cross ken ⟨h2s, h15, hcwf, hp1, hp2⟩
            (ken.cell2cage row col).1 g2 k2 k hg hg2 hk2 hk
            (fun h => hgg h.symm) (heq.trans Prod.mk.eta)

theorem getD_map_of_lt {α β : Type} (f : α → β) (L : List α) (i : ℕ)
    (d : β) (d2 : α) (h : i < L.length) :
    (L.map f).getD i d = f (L.getD i d2) := by
  rw [List.getD_eq_getElem?_getD, List.getElem?_map,
    List.getElem?_eq_getElem h, List.getD_eq_getElem L d2 h]
  rfl

theorem getD_mem_of_lt {α : Type} (L : List α) (i : ℕ) (d : α)
    (h : i < L.length) : L.getD i d ∈ L := by
  rw [List.getD_eq_getElem L d h]
  exact List.getElem_mem h

/-- Every generated sequence has the cage's length and digits below 16. -/
theorem from_cage_rep (ken : KenKen) (cage : Cage) (hn : ken.size ≤ 15)
    (hwf : CageWF ken.size cage) (hgoal : cageGoalOk ken.size cage) :
    ∀ t ∈ from_cage ken cage,
      t.length = cage.cells.length ∧ ∀ v ∈ t, v < 16 := by
  obtain ⟨cells, last, op⟩ := cage
  intro t ht
  cases op with
  | add goal =>
      rw [show from_cage ken ⟨cells, last, Op.add goal⟩ =
        reduced ⟨cells, last, Op.add goal⟩ (for_add ken.size goal cells.length)
        from rfl, mem_reduced] at ht
      refine ⟨for_add_length ken.size _ _ _ ht.1, ?_⟩
      intro v hv
      have := for_add_bound ken.size _ _ _ ht.1 v hv
      omega
  | mul goal =>
      rw [show from_cage ken ⟨cells, last, Op.mul goal⟩ =
        reduced ⟨cells, last, Op.mul goal⟩ (for_mul ken.size goal cells.length)
        from rfl, mem_reduced] at ht
      refine ⟨for_mul_length ken.size _ _ _ ht.1, ?_⟩
      intro v hv
      have := for_mul_bound ken.size _ _ _ ht.1 v hv
      omega
  | sub g =>
      obtain ⟨-, -, -, -, hop⟩ := hwf
      dsimp only at hop
      have hg : g ≤ ken.size := hgoal
      have ht2 : t ∈ for_sub ken.size g := ht
      rw [mem_for_sub ken.size g hn hg] at ht2
      obtain ⟨i, hi1, hi2, ht3⟩ := ht2
      rcases ht3 with rfl | rfl <;>
        exact ⟨by simp [hop.1], by intro v hv; simp at hv; rcases hv with rfl | rfl <;> omega⟩
  | div g =>
      obtain ⟨-, -, -, -, hop⟩ := hwf
      dsimp only at hop
      have ht2 : t ∈ for_div ken.size g := ht
      by_cases hg0 : g = 0
      · exfalso
        subst hg0
        unfold for_div at ht2
        simp at ht2
      · rw [mem_for_div ken.size g (by omega)] at ht2
        obtain ⟨i, hi1, hi2, ht3⟩ := ht2
        have hig : i ≤ i * g := Nat.le_mul_of_pos_right i (by omega)
        rcases ht3 with rfl | rfl <;>
          exact ⟨by simp [hop.1], by intro v hv; simp at hv; rcases hv with rfl | rfl <;> omega⟩
  | const c =>
      obtain ⟨-, -, -, -, hop⟩ := hwf
      dsimp only at hop
      have hc : c ≤ 15 := hgoal
      have ht2 : t = [c] := by
        have h2 : t ∈ [[c]] := ht
        simpa using h2
      subst ht2
      refine ⟨by simp [hop.1], ?_⟩
      intro v hv
      simp at hv
      omega

/-- The cage candidate lists accumulated by determine_initial. -/
theorem di_fold_cagecands (ken : KenKen) (L : List Cage) :
    ∀ s : Constraints,
      (L.foldl
        (fun s cage =>
          let nw := from_cage ken cage
          { cellcands :=
              (List.range cage.cells.length).foldl
                (fun cc cellidx =>
                  upd2 cc (cage.cells.getD cellidx (0, 0)).1
                    (cage.cells.getD cellidx (0, 0)).2
                    (candidates_for_cell nw cellidx))
                s.cellcands,
            cagecands := s.cagecands ++ [nw] })
        s).cagecands = s.cagecands ++ L.map (from_cage ken) := by
  induction L with
  | nil => intro s; simp
  | cons cage L2 ih =>
      intro s
      rw [List.foldl_cons, ih]
      simp

/-- Cells not owned by any cage of the list keep their digit-set. -/
theorem di_fold_cellcands_ne (ken : KenKen) (L : List Cage) :
    ∀ (s : Constraints) (r c : ℕ),
      (∀ cage ∈ L, ∀ k < cage.cells.length,
        cage.cells.getD k (0, 0) ≠ (r, c)) →
      (L.foldl
        (fun s cage =>
          let nw := from_cage ken cage
          { cellcands :=
              (List.range cage.cells.length).foldl
                (fun cc cellidx =>
                  upd2 cc (cage.cells.getD cellidx (0, 0)).1
                    (cage.cells.getD cellidx (0, 0)).2
                    (candidates_for_cell nw cellidx))
                s.cellcands,
            cagecands := s.cagecands ++ [nw] })
        s).cellcands r c = s.cellcands r c := by
  induction L with
  | nil => intro s r c _; rfl
  | cons cage L2 ih =>
      intro s r c h
      rw [List.foldl_cons, ih _ _ _
        (fun cg hcg => h cg (List.mem_cons_of_mem cage hcg))]
      show (List.range cage.cells.length).foldl _ s.cellcands r c = _
      rw [foldl_upd2_ne]
      intro k hk
      rw [List.mem_range] at hk
      exact h cage (List.mem_cons_self cage L2) k hk

/-- The digit-set written by determine_initial at a cell of one of the
cages, provided the cell is owned exactly once across the list. -/
theorem di_fold_cellcands_hit (ken : KenKen) (L : List Cage) :
    ∀ (s : Constraints) (cage0 : Cage) (k0 r c : ℕ),
      cage0 ∈ L → k0 < cage0.cells.length →
      cage0.cells.getD k0 (0, 0) = (r, c) →
      (∀ cage ∈ L, ∀ k < cage.cells.length,
        cage.cells.getD k (0, 0) = (r, c) → cage = cage0 ∧ k = k0) →
      (L.foldl
        (fun s cage =>
          let nw := from_cage ken cage
          { cellcands :=
              (List.range cage.cells.length).foldl
                (fun cc cellidx =>
                  upd2 cc (cage.cells.getD cellidx (0, 0)).1
                    (cage.cells.getD cellidx (0, 0)).2
                    (candidates_for_cell nw cellidx))
                s.cellcands,
            cagecands := s.cagecands ++ [nw] })
        s).cellcands r c = candidates_for_cell (from_cage ken cage0) k0 := by
  induction L with
  | nil =>
      intro s cage0 k0 r c hmem
      exact absurd hmem (List.not_mem_nil cage0)
  | cons cage L2 ih =>
      intro s cage0 k0 r c hmem hk0 hcell huniq
      rw [List.foldl_cons]
      by_cases hlater : cage0 ∈ L2
      · exact ih _ cage0 k0 r c hlater hk0 hcell
          (fun cg hcg => huniq cg (List.mem_cons_of_mem cage hcg))
      · have hhead : cage = cage0 := by
          rcases List.mem_cons.mp hmem with h1 | h1
          · exact h1.symm
          · exact absurd h1 hlater
        subst hhead
        rw [di_fold_cellcands_ne]
        · show (List.range cage.cells.length).foldl _ s.cellcands r c = _
          rw [foldl_upd2_hit _ _ _ _ k0 r c (List.mem_range.mpr hk0) hcell]
          intro k2 hk2 heq
          rw [List.mem_range] at hk2
          exact (huniq cage (List.mem_cons_self cage L2) k2 hk2 heq).2
        · intro cg hcg k hk heq
          have h2 := huniq cg (List.mem_cons_of_mem cage hcg) k hk heq
          rw [h2.1] at hcg
          exact hlater hcg

/-- After determine_initial the store satisfies the synchronisation
invariant. -/
theorem determine_initial_sync (ken : KenKen) (hwf : WF ken) :
    Sync ken (determine_initial ken (Constraints.empty ken)) := by
  intro g hg k hk
  have hp2 := hwf.2.2.2.2
  have huniq : ∀ cg ∈ ken.cages, ∀ k2 < cg.cells.length,
      cg.cells.getD k2 (0, 0) =
        (((ken.cages.getD g default).cells.getD k (0, 0)).1,
         ((ken.cages.getD g default).cells.getD k (0, 0)).2) →
      cg = ken.cages.getD g default ∧ k2 = k := by
    intro cg hcg k2 hk2 heq
    obtain ⟨g2, hg2, hge⟩ := List.mem_iff_getElem.mp hcg
    have hge2 : ken.cages.getD g2 default = cg := by
      rw [List.getD_eq_getElem _ _ hg2]
      exact hge
    subst hge2
    have e1 := hp2 g2 hg2 k2 hk2
    have e2 := hp2 g hg k hk
    rw [heq] at e1
    dsimp only at e1
    rw [e1] at e2
    have hgg : g2 = g := by injection e2
    have hkk : k2 = k := by injection e2
    subst hgg
    exact ⟨rfl, hkk⟩
  have hhit := di_fold_cellcands_hit ken ken.cages (Constraints.empty ken)
    (ken.cages.getD g default) k
    ((ken.cages.getD g default).cells.getD k (0, 0)).1
    ((ken.cages.getD g default).cells.getD k (0, 0)).2
    (getD_mem_of_lt _ _ _ hg) hk Prod.mk.eta.symm huniq
  have hcc := di_fold_cagecands ken ken.cages (Constraints.empty ken)
  show (determine_initial ken (Constraints.empty ken)).cellcands _ _ = _
  unfold determine_initial
  rw [hhit, hcc]
  have hemp : (Constraints.empty ken).cagecands = [] := rfl
  rw [hemp, List.nil_append,
    getD_map_of_lt (from_cage ken) ken.cages g [] default hg]

/-- After determine_initial the store satisfies the representation
invariant. -/
theorem determine_initial_rep (ken : KenKen) (hwf : WF ken)
    (hgoals : GoalsOk ken) :
    RepOk ken (determine_initial ken (Constraints.empty ken)) := by
  have hcc := di_fold_cagecands ken ken.cages (Constraints.empty ken)
  have hemp : (Constraints.empty ken).cagecands = [] := rfl
  constructor
  · show (determine_initial ken (Constraints.empty ken)).cagecands.length = _
    unfold determine_initial
    rw [hcc, hemp]
    simp
  · intro g hg cand hcand
    unfold determine_initial at hcand
    rw [hcc, hemp, List.nil_append,
      getD_map_of_lt (from_cage ken) ken.cages g [] default hg] at hcand
    exact from_cage_rep ken _ hwf.2.1
      (hwf.2.2.1 _ (getD_mem_of_lt _ _ _ hg))
      (hgoals _ (getD_mem_of_lt _ _ _ hg)) cand hcand

/-! Claim C4: the store synchronisation invariant. -/

/-- C4: after determine_initial the constraint store satisfies the
synchronisation invariant (every cell digit-set equals exactly the set of
values appearing at that position across the surviving sequences of its
cage), the invariant is preserved by every call to exclude, and in
particular every surviving sequence's value at each position is a member
of that position's cell digit-set.  RepOk is the u64/u32 representation
invariant of the source (digits below 16, one candidate list per cage)
that the bit-level store relies on. -/
theorem C4_store_synchronized (ken : KenKen) (hwf : WF ken)
    (hgoals : GoalsOk ken) :
    (Sync ken (determine_initial ken (Constraints.empty ken)) ∧
      RepOk ken (determine_initial ken (Constraints.empty ken))) ∧
    (∀ s row col el, row < ken.size → col < ken.size → el < 32 →
      RepOk ken s → Sync ken s →
      Sync ken (exclude ken s row col el).1 ∧
        RepOk ken (exclude ken s row col el).1) ∧
    (∀ s, Sync ken s → ∀ g, g < ken.cages.length →
      ∀ cand ∈ s.cagecands.getD g [],
      ∀ k, k < (ken.cages.getD g default).cells.length →
      (s.cellcands ((ken.cages.getD g default).cells.getD k (0, 0)).1
        ((ken.cages.getD g default).cells.getD k (0, 0)).2).testBit
        (cand.getD k 0) = true) := by
  refine ⟨⟨determine_initial_sync ken hwf, determine_initial_rep ken hwf hgoals⟩,
    ?_, ?_⟩
  · intro s row col el hrow hcol hel hrep hsync
    obtain ⟨h1, h2⟩ := exclude_preserves ken s row col el hwf hrow hcol hel hrep hsync
    exact ⟨h2, h1⟩
  · intro s hsync g hg cand hcand k hk
    rw [hsync g hg k hk]
    exact (testBit_candidates_for_cell _ _ _).mpr ⟨cand, hcand, rfl⟩

/-- Witness for C4 on the concrete puzzle p1. -/
theorem C4_witness :
    (WF p1 ∧ GoalsOk p1) ∧
    ((Sync p1 (determine_initial p1 (Constraints.empty p1)) ∧
      RepOk p1 (determine_initial p1 (Constraints.empty p1))) ∧
    (∀ s row col el, row < p1.size → col < p1.size → el < 32 →
      RepOk p1 s → Sync p1 s →
      Sync p1 (exclude p1 s row col el).1 ∧
        RepOk p1 (exclude p1 s row col el).1) ∧
    (∀ s, Sync p1 s → ∀ g, g < p1.cages.length →
      ∀ cand ∈ s.cagecands.getD g [],
      ∀ k, k < (p1.cages.getD g default).cells.length →
      (s.cellcands ((p1.cages.getD g default).cells.getD k (0, 0)).1
        ((p1.cages.getD g default).cells.getD k (0, 0)).2).testBit
        (cand.getD k 0) = true)) :=
  ⟨⟨by decide, by decide⟩, C4_store_synchronized p1 (by decide) (by decide)⟩

/-! Claim C2: completeness of candidate generation. -/

/-- C2 counterexample: a Const cage demanding 3 on a 2 by 2 grid (the
loader accepts it) generates the sequence [3], but the brute-force set of
valid sequences over digits 1..2 is empty, so the claimed set equality
fails as stated. -/
theorem C2_counterexample :
    ¬ (∀ t, t ∈ from_cage (kenOf 2 cageC3) cageC3 ↔ ValidSeq 2 cageC3 t) := by
  intro h
  have h2 := (h [3]).mp (by decide)
  exact absurd h2 (by decide)

/-- C2 amended: for every cage of loader shape whose goal is in range for
its operator (Const: 1 ≤ c ≤ N, Sub: 1 ≤ goal ≤ N, Div: 2 ≤ goal, Add and
Mul unrestricted), the set of sequences produced by the candidate
generator equals the set of all length-L tuples over 1..N satisfying the
arithmetic goal and the intra-cage row/column distinctness rule. -/
theorem C2_candidate_generation_amended (ken : KenKen) (cage : Cage)
    (hn2 : 2 ≤ ken.size) (hn : ken.size ≤ 15) (hwf : CageWF ken.size cage)
    (hrange : cageGoalRange ken.size cage) :
    ∀ t, t ∈ from_cage ken cage ↔ ValidSeq ken.size cage t :=
  fun t => ⟨from_cage_sound ken cage hn hwf hrange t,
    from_cage_complete ken cage hn hwf t⟩

/-- Witness for C2 on a concrete subtraction cage of a 2 by 2 puzzle. -/
theorem C2_witness :
    (2 ≤ (kenOf 2 cageS1).size ∧ (kenOf 2 cageS1).size ≤ 15 ∧
      CageWF (kenOf 2 cageS1).size cageS1 ∧
      cageGoalRange (kenOf 2 cageS1).size cageS1) ∧
    ([1, 2] ∈ from_cage (kenOf 2 cageS1) cageS1 ↔
      ValidSeq (kenOf 2 cageS1).size cageS1 [1, 2]) :=
  ⟨by decide, C2_candidate_generation_amended (kenOf 2 cageS1) cageS1
    (by decide) (by decide) (by decide) (by decide) [1, 2]⟩

/-! Claim C8: the subtraction generator. -/

/-- C8 counterexample: for size 2 and goal 4 the u32 bound "max-goal+1"
wraps, and the generator emits [1, 5] (it is the first element produced),
while the claimed output set for a goal exceeding the size is empty. -/
theorem C8_counterexample : ¬ (∀ t, t ∈ for_sub 2 4 ↔ subClaim 2 4 t) := by
  intro h
  have hmem : [1, 5] ∈ for_sub 2 4 := by
    unfold for_sub
    rw [List.mem_flatMap]
    refine ⟨1, ?_, by norm_num⟩
    rw [List.mem_range'_1]
    have h1 : sub32 2 4 = w32 - 2 := by
      unfold sub32
      rw [w32_eq]
    have h2 : add32 (w32 - 2) 1 = w32 - 1 := by
      unfold add32
      rw [w32_eq]
    rw [h1, h2, w32_eq]
    norm_num
  obtain ⟨i, hi1, hi2, -⟩ := (h [1, 5]).mp hmem
  omega

/-- C8 amended: for every subtraction goal at most N (goals above N are
outside the spec's precondition on cage goals), the subtraction generator
produces exactly the sequences [i, i+goal] and [i+goal, i] for each i
from 1 to N - goal. -/
theorem C8_for_sub_amended (n g : ℕ) (hn2 : 2 ≤ n) (hn : n ≤ 15)
    (hg : g ≤ n) :
    for_sub n g =
      (List.range' 1 (n - g)).flatMap (fun i => [[i, i + g], [i + g, i]]) :=
  for_sub_eq n g hn hg

/-- Witness for C8 at size 4, goal 1. -/
theorem C8_witness :
    (2 ≤ 4 ∧ (4 : ℕ) ≤ 15 ∧ (1 : ℕ) ≤ 4) ∧
    for_sub 4 1 =
      (List.range' 1 (4 - 1)).flatMap (fun i => [[i, i + 1], [i + 1, i]]) :=
  ⟨by norm_num, C8_for_sub_amended 4 1 (by norm_num) (by norm_num) (by norm_num)⟩

/-! Claim C9: Const, Sub and Div sequences and the exclusion pass. -/

/-- C9 counterexample: a division cage with goal 1 whose two cells share a
row (the loader accepts it) generates the sequence [1, 1], which places
equal digits on two cells of one row, so not every generated Const, Sub or
Div sequence satisfies the distinctness rule. -/
theorem C9_counterexample :
    ¬ (∀ t ∈ from_cage (kenOf 2 cageD1) cageD1, IntraOk cageD1 t) := by
  decide

/-- C9 amended: for every Const cage, Sub cage with goal at least 1, and
Div cage with goal at least 2, every generated sequence satisfies the
intra-cage distinctness rule, and applying the exclusion pass to the
generator output changes nothing (from_cage indeed applies none for these
operators). -/
theorem C9_no_pass_needed (ken : KenKen) (cage : Cage)
    (hshape : noPassShape cage) :
    (∀ t ∈ from_cage ken cage, IntraOk cage t) ∧
    reduced cage (from_cage ken cage) = from_cage ken cage := by
  have h1 : ∀ t ∈ from_cage ken cage, IntraOk cage t := by
    obtain ⟨cells, last, op⟩ := cage
    unfold noPassShape at hshape
    intro t ht
    cases op with
    | const c =>
        dsimp only at hshape
        intro j hj i2 hi2 _
        dsimp only at hj
        rw [hshape] at hj
        omega
    | sub g =>
        dsimp only at hshape
        obtain ⟨hlen, hg1⟩ := hshape
        have ht2 : t ∈ for_sub ken.size g := ht
        unfold for_sub at ht2
        rw [List.mem_flatMap] at ht2
        obtain ⟨i, hi, ht3⟩ := ht2
        rw [List.mem_range'_1] at hi
        simp at ht3
        intro j hj i2 hi2 _
        dsimp only at hj
        rw [hlen] at hj
        have hj1 : j = 1 := by omega
        have hi20 : i2 = 0 := by omega
        subst hj1
        subst hi20
        rcases ht3 with rfl | rfl <;> (simp; omega)
    | div g =>
        dsimp only at hshape
        obtain ⟨hlen, hg2⟩ := hshape
        have ht2 : t ∈ for_div ken.size g := ht
        unfold for_div at ht2
        rw [List.mem_flatMap] at ht2
        obtain ⟨i, hi, ht3⟩ := ht2
        rw [List.mem_range'_1] at hi
        simp at ht3
        intro j hj i2 hi2 _
        dsimp only at hj
        rw [hlen] at hj
        have hj1 : j = 1 := by omega
        have hi20 : i2 = 0 := by omega
        subst hj1
        subst hi20
        have higi : i < i * g := by
          have h3 : i * 2 ≤ i * g := Nat.mul_le_mul_left i hg2
          omega
        rcases ht3 with rfl | rfl <;> (simp; omega)
    | add goal => exact False.elim hshape
    | mul goal => exact False.elim hshape
  exact ⟨h1, reduced_eq_self cage _ h1⟩

/-- Witness for C9 on a concrete subtraction cage. -/
theorem C9_witness :
    noPassShape cageS1 ∧
    ((∀ t ∈ from_cage (kenOf 2 cageS1) cageS1, IntraOk cageS1 t) ∧
      reduced cageS1 (from_cage (kenOf 2 cageS1) cageS1) =
        from_cage (kenOf 2 cageS1) cageS1) :=
  ⟨by decide, C9_no_pass_needed (kenOf 2 cageS1) cageS1 (by decide)⟩

/-! Claim C10: get_two on a two-element digit-set. -/

/-- C10: for every digit-set (u32 BitSet) whose cardinality is exactly 2,
get_two returns the pair (larger member, smaller member): the first
component is the maximum of the two members, the second the minimum. -/
theorem C10_get_two_max_min (x : ℕ) (hx : x < w32) (h : bcount x = 2) :
    x.testBit (get_two x).1 = true ∧ x.testBit (get_two x).2 = true ∧
    (get_two x).2 < (get_two x).1 ∧
    ∀ v, x.testBit v = true → (get_two x).2 ≤ v ∧ v ≤ (get_two x).1 := by
  obtain ⟨hlt, hiff⟩ := bcount_two_testBit x hx h
  refine ⟨(hiff _).mpr (Or.inl rfl), (hiff _).mpr (Or.inr rfl), hlt, ?_⟩
  intro v hv
  rcases (hiff v).mp hv with h2 | h2 <;> omega

/-- Witness for C10 on the digit-set with members 1 and 2. -/
theorem C10_witness :
    (6 < w32 ∧ bcount 6 = 2) ∧
    ((6 : ℕ).testBit (get_two 6).1 = true ∧
      (6 : ℕ).testBit (get_two 6).2 = true ∧
      (get_two 6).2 < (get_two 6).1 ∧
      ∀ v, (6 : ℕ).testBit v = true → (get_two 6).2 ≤ v ∧ v ≤ (get_two 6).1) :=
  ⟨⟨by rw [w32_eq]; norm_num, by decide⟩,
    C10_get_two_max_min 6 (by rw [w32_eq]; norm_num) (by decide)⟩

/-! Claim C5: propagation never removes a digit of a true solution. -/

/-- A predicate preserved by every step of a fold is preserved by the
whole fold. -/
theorem foldl_pres {α β : Type} (P : α → Prop) (f : α → β → α)
    (L : List β) :
    (∀ a, ∀ x ∈ L, P a → P (f a x)) → ∀ a, P a → P (L.foldl f a) := by
  induction L with
  | nil => intro _ a ha; exact ha
  | cons x xs ih =>
      intro h a ha
      rw [List.foldl_cons]
      exact ih (fun a2 y hy => h a2 y (List.mem_cons_of_mem x hy)) _
        (h a x (List.mem_cons_self x xs) ha)

/-- The sequence a solution induces on a cage is a valid sequence. -/
theorem sol_seq_valid (ken : KenKen) (S : ℕ → ℕ → ℕ) (hwf : WF ken)
    (hS : IsSolution ken S) (g : ℕ) (hg : g < ken.cages.length) :
    ValidSeq ken.size (ken.cages.getD g default)
      ((ken.cages.getD g default).cells.map (fun p => S p.1 p.2)) := by
  obtain ⟨hb, hdr, hdc, hcage⟩ := hS
  have hin := (hwf.2.2.1 _ (getD_mem_of_lt ken.cages g default hg)).2.1
  refine ⟨by simp, ?_, ?_, ?_⟩
  · intro v hv
    obtain ⟨p, hp, hpe⟩ := List.mem_map.mp hv
    rw [← hpe]
    exact hb p.1 (hin p hp).1 p.2 (hin p hp).2
  · exact hcage _ (getD_mem_of_lt ken.cages g default hg)
  · intro j hj i hij halign
    have hi2 : i < (ken.cages.getD g default).cells.length := by omega
    rw [getD_map_of_lt (fun p => S p.1 p.2) _ _ 0 (0, 0) hi2,
      getD_map_of_lt (fun p => S p.1 p.2) _ _ 0 (0, 0) hj]
    have hcne := wf_cells_ne ken hwf g i j hg hi2 hj (by omega)
    have hinI := hin _ (getD_mem_of_lt _ i (0, 0) hi2)
    have hinJ := hin _ (getD_mem_of_lt _ j (0, 0) hj)
    rcases halign with hal | hal
    · have hcc : ((ken.cages.getD g default).cells.getD i (0, 0)).2 ≠
          ((ken.cages.getD g default).cells.getD j (0, 0)).2 := by
        intro hc2
        exact hcne (Prod.ext hal hc2)
      have hne := hdr _ hinI.1 _ hinI.2 _ hinJ.2 hcc
      rw [← hal]
      exact hne
    · have hrr : ((ken.cages.getD g default).cells.getD i (0, 0)).1 ≠
          ((ken.cages.getD g default).cells.getD j (0, 0)).1 := by
        intro hc1
        exact hcne (Prod.ext hc1 hal)
      have hne := hdc _ hinI.2 _ hinI.1 _ hinJ.1 hrr
      rw [← hal]
      exact hne

/-- After determine_initial the cage sequences induced by a solution all
survive. -/
theorem determine_initial_survives (ken : KenKen) (S : ℕ → ℕ → ℕ)
    (hwf : WF ken) (hS : IsSolution ken S) :
    Survives ken S (determine_initial ken (Constraints.empty ken)) := by
  intro g hg
  have hcc := di_fold_cagecands ken ken.cages (Constraints.empty ken)
  have hemp : (Constraints.empty ken).cagecands = [] := rfl
  unfold determine_initial
  rw [hcc, hemp, List.nil_append,
    getD_map_of_lt (from_cage ken) ken.cages g [] default hg]
  exact from_cage_complete ken _ hwf.2.1
    (hwf.2.2.1 _ (getD_mem_of_lt _ _ _ hg)) _
    (sol_seq_valid ken S hwf hS g hg)

/-- An exclude call that does not remove the digit of the solution at its
target cell keeps all induced cage sequences alive. -/
theorem exclude_survives (ken : KenKen) (S : ℕ → ℕ → ℕ) (s : Constraints)
    (row col el : ℕ) (hwf : WF ken) (hrow : row < ken.size)
    (hcol : col < ken.size) (hrep : RepOk ken s) (hne : S row col ≠ el)
    (hsur : Survives ken S s) :
    Survives ken S (exclude ken s row col el).1 := by
  cases htb : (s.cellcands row col).testBit el
  · rw [exclude_false _ _ _ _ _ htb]
    exact hsur
  · rw [exclude_true _ _ _ _ _ htb]
    intro g hg
    dsimp only
    by_cases hgg : g = (ken.cell2cage row col).1
    · subst hgg
      have hpc := hwf.2.2.2.1 row hrow col hcol
      obtain ⟨hgl, hkl, hcell⟩ := hpc
      rw [getD_set_eq _ _ _ _ (by rw [hrep.1]; exact hgl)]
      unfold exRcands
      apply List.mem_filter.mpr
      have hval : ((ken.cages.getD (ken.cell2cage row col).1 default).cells.map
          (fun p => S p.1 p.2)).getD (ken.cell2cage row col).2 0 =
            S row col := by
        rw [getD_map_of_lt (fun p => S p.1 p.2) _ _ 0 (0, 0) hkl, hcell]
      refine ⟨hsur _ hgl, ?_⟩
      apply decide_eq_true
      rw [hval]
      exact hne
    · rw [getD_set_ne _ _ _ _ _ hgg]
      exact hsur g hg

/-- Under the store invariant, the digit of the solution is present in
every cell digit-set. -/
theorem sol_in_cellcands (ken : KenKen) (S : ℕ → ℕ → ℕ) (s : Constraints)
    (hwf : WF ken) (hsync : Sync ken s) (hsur : Survives ken S s)
    (r c : ℕ) (hr : r < ken.size) (hc : c < ken.size) :
    (s.cellcands r c).testBit (S r c) = true := by
  have hpc := hwf.2.2.2.1 r hr c hc
  obtain ⟨hg, hk, hcell⟩ := hpc
  have h2 := hsync _ hg _ hk
  rw [hcell] at h2
  dsimp only at h2
  rw [h2]
  apply (testBit_candidates_for_cell _ _ _).mpr
  have hval : ((ken.cages.getD (ken.cell2cage r c).1 default).cells.map
      (fun p => S p.1 p.2)).getD (ken.cell2cage r c).2 0 = S r c := by
    rw [getD_map_of_lt (fun p => S p.1 p.2) _ _ 0 (0, 0) hk, hcell]
  exact ⟨_, hsur _ hg, hval⟩

/-- Under the store invariant every in-grid cell digit-set is a u32
value (in fact below 2 to the 16). -/
theorem cellcands_lt_w32 (ken : KenKen) (s : Constraints) (hwf : WF ken)
    (hrep : RepOk ken s) (hsync : Sync ken s) (r c : ℕ)
    (hr : r < ken.size) (hc : c < ken.size) : s.cellcands r c < w32 := by
  have hpc := hwf.2.2.2.1 r hr c hc
  obtain ⟨hg, hk, hcell⟩ := hpc
  have h2 := hsync _ hg _ hk
  rw [hcell] at h2
  dsimp only at h2
  rw [h2]
  have hlt := candidates_for_cell_lt
    (s.cagecands.getD (ken.cell2cage r c).1 []) (ken.cell2cage r c).2
    (fun cand hcand v hv => (hrep.2 _ hg cand hcand).2 v hv)
  have hw : (2 : ℕ) ^ 16 < w32 := by rw [w32_eq]; norm_num
  omega

/-- exclude only removes digits: every digit present in an in-grid cell
after the call was present before. -/
theorem exclude_shrinks (ken : KenKen) (s : Constraints) (row col el : ℕ)
    (hwf : WF ken) (hrow : row < ken.size) (hcol : col < ken.size)
    (hel : el < 32) (hrep : RepOk ken s) (hsync : Sync ken s)
    (r c : ℕ) (hr : r < ken.size) (hc : c < ken.size) (v : ℕ)
    (hv : ((exclude ken s row col el).1.cellcands r c).testBit v = true) :
    (s.cellcands r c).testBit v = true := by
  cases htb : (s.cellcands row col).testBit el
  · rw [exclude_false _ _ _ _ _ htb] at hv
    exact hv
  · have hsync2 := (exclude_preserves ken s row col el hwf hrow hcol hel
      hrep hsync).2
    have hpc := hwf.2.2.2.1 r hr c hc
    obtain ⟨hg, hk, hcell⟩ := hpc
    have h2 := hsync2 _ hg _ hk
    rw [hcell] at h2
    dsimp only at h2
    rw [h2] at hv
    have h3 := hsync _ hg _ hk
    rw [hcell] at h3
    dsimp only at h3
    rw [h3]
    have hcg : (exclude ken s row col el).1.cagecands =
        s.cagecands.set (ken.cell2cage row col).1
          (exRcands ken s row col el) := by
      rw [exclude_true _ _ _ _ _ htb]
    rw [hcg] at hv
    obtain ⟨cand, hc1, hc2⟩ := (testBit_candidates_for_cell _ _ _).mp hv
    apply (testBit_candidates_for_cell _ _ _).mpr
    refine ⟨cand, ?_, hc2⟩
    by_cases hgg : (ken.cell2cage r c).1 = (ken.cell2cage row col).1
    · rw [hgg] at hc1
      have hpcr := hwf.2.2.2.1 row hrow col hcol
      rw [getD_set_eq _ _ _ _ (by rw [hrep.1]; exact hpcr.1)] at hc1
      unfold exRcands at hc1
      rw [hgg]
      exact List.mem_of_mem_filter hc1
    · rw [getD_set_ne _ _ _ _ _ hgg] at hc1
      exact hc1

/-- One exclusion step of reduce preserves the full invariant when it
never targets the digit of the solution at its cell. -/
theorem rstep_preserves (ken : KenKen) (S : ℕ → ℕ → ℕ) (r c el : ℕ)
    (acc : Constraints × Bool) (hwf : WF ken) (hr : r < ken.size)
    (hc : c < ken.size) (hel : el < 32) (hne : S r c ≠ el)
    (h : RepOk ken acc.1 ∧ Sync ken acc.1 ∧ Survives ken S acc.1) :
    RepOk ken (rstep ken r c el acc).1 ∧
      Sync ken (rstep ken r c el acc).1 ∧
      Survives ken S (rstep ken r c el acc).1 := by
  obtain ⟨h1, h2, h3⟩ := h
  have hp := exclude_preserves ken acc.1 r c el hwf hr hc hel h1 h2
  have hs := exclude_survives ken S acc.1 r c el hwf hr hc h1 hne h3
  unfold rstep
  dsimp only
  exact ⟨hp.1, hp.2, hs⟩

/-- The naked-pair double exclusion step preserves the invariant and only
shrinks the digit-set observed at the pair cell. -/
theorem pair_step_preserves (ken : KenKen) (S : ℕ → ℕ → ℕ)
    (row col r2 c2 el1 el2 m : ℕ) (hwf : WF ken)
    (hrow : row < ken.size) (hcol : col < ken.size)
    (hr2 : r2 < ken.size) (hc2 : c2 < ken.size)
    (hel1 : el1 < 32) (hel2 : el2 < 32)
    (hne1 : S r2 c2 ≠ el1) (hne2 : S r2 c2 ≠ el2)
    (b : Constraints × Bool)
    (hQ : (RepOk ken b.1 ∧ Sync ken b.1 ∧ Survives ken S b.1) ∧
      ∀ v, (b.1.cellcands row col).testBit v = true →
        m.testBit v = true) :
    (RepOk ken (rstep ken r2 c2 el2 (rstep ken r2 c2 el1 b)).1 ∧
      Sync ken (rstep ken r2 c2 el2 (rstep ken r2 c2 el1 b)).1 ∧
      Survives ken S (rstep ken r2 c2 el2 (rstep ken r2 c2 el1 b)).1) ∧
    ∀ v, ((rstep ken r2 c2 el2
        (rstep ken r2 c2 el1 b)).1.cellcands row col).testBit v = true →
      m.testBit v = true := by
  obtain ⟨hP, hmono⟩ := hQ
  have hP1 := rstep_preserves ken S r2 c2 el1 b hwf hr2 hc2 hel1 hne1 hP
  have hP2 := rstep_preserves ken S r2 c2 el2 _ hwf hr2 hc2 hel2 hne2 hP1
  refine ⟨hP2, ?_⟩
  intro v hv
  apply hmono
  have hs2 : ((rstep ken r2 c2 el1 b).1.cellcands row col).testBit v =
      true := by
    refine exclude_shrinks ken (rstep ken r2 c2 el1 b).1 r2 c2 el2 hwf hr2
      hc2 hel2 hP1.1 hP1.2.1 row col hrow hcol v ?_
    exact hv
  refine exclude_shrinks ken b.1 r2 c2 el1 hwf hr2 hc2 hel1 hP.1 hP.2.1
    row col hrow hcol v ?_
  exact hs2

/-- The body of reduce for one cell preserves representation,
synchronisation and survival of the induced sequences of a solution. -/
theorem reduceCell_preserves (ken : KenKen) (S : ℕ → ℕ → ℕ) (row col : ℕ)
    (hwf : WF ken) (hS : IsSolution ken S) (hrow : row < ken.size)
    (hcol : col < ken.size) (acc : Constraints × Bool)
    (h : RepOk ken acc.1 ∧ Sync ken acc.1 ∧ Survives ken S acc.1) :
    RepOk ken (reduceCell ken row col acc).1 ∧
      Sync ken (reduceCell ken row col acc).1 ∧
      Survives ken S (reduceCell ken row col acc).1 := by
  have hb := hS.1
  have hdr := hS.2.1
  have hdc := hS.2.2.1
  have hstlt : acc.1.cellcands row col < w32 :=
    cellcands_lt_w32 ken acc.1 hwf h.1 h.2.1 row col hrow hcol
  have hmem : (acc.1.cellcands row col).testBit (S row col) = true :=
    sol_in_cellcands ken S acc.1 hwf h.2.1 h.2.2 row col hrow hcol
  unfold reduceCell
  dsimp only
  by_cases h1 : bcount (acc.1.cellcands row col) = 1
  · rw [if_pos h1]
    have hSel : S row col = get_one (acc.1.cellcands row col) :=
      (bcount_one_testBit _ hstlt h1 _).mp hmem
    have hel32 : get_one (acc.1.cellcands row col) < 32 := by
      have hbnd := hb row hrow col hcol
      have h15 := hwf.2.1
      omega
    refine foldl_pres
      (fun a : Constraints × Bool =>
        RepOk ken a.1 ∧ Sync ken a.1 ∧ Survives ken S a.1)
      _ _ ?_ acc h
    intro a other hother ha
    rw [List.mem_range] at hother
    by_cases hor : other ≠ row
    · rw [if_pos hor]
      by_cases hoc : other ≠ col
      · rw [if_pos hoc]
        refine rstep_preserves ken S other col _ _ hwf hother hcol hel32 ?_
          (rstep_preserves ken S row other _ _ hwf hrow hother hel32 ?_ ha)
        · rw [← hSel]
          exact hdc col hcol other hother row hrow hor
        · rw [← hSel]
          exact hdr row hrow other hother col hcol hoc
      · rw [if_neg hoc]
        refine rstep_preserves ken S other col _ _ hwf hother hcol hel32 ?_ ha
        rw [← hSel]
        exact hdc col hcol other hother row hrow hor
    · rw [if_neg hor]
      by_cases hoc : other ≠ col
      · rw [if_pos hoc]
        refine rstep_preserves ken S row other _ _ hwf hrow hother hel32 ?_ ha
        rw [← hSel]
        exact hdr row hrow other hother col hcol hoc
      · rw [if_neg hoc]
        exact ha
  · rw [if_neg h1]
    by_cases h2 : bcount (acc.1.cellcands row col) = 2
    · rw [if_pos h2]
      obtain ⟨hplt, hpiff⟩ := bcount_two_testBit _ hstlt h2
      have hp1lt : (get_two (acc.1.cellcands row col)).1 < 32 :=
        testBit_lt_32 _ _ hstlt ((hpiff _).mpr (Or.inl rfl))
      have hp2lt : (get_two (acc.1.cellcands row col)).2 < 32 :=
        testBit_lt_32 _ _ hstlt ((hpiff _).mpr (Or.inr rfl))
      refine (foldl_pres
        (fun a : Constraints × Bool =>
          (RepOk ken a.1 ∧ Sync ken a.1 ∧ Survives ken S a.1) ∧
          ∀ v, (a.1.cellcands row col).testBit v = true →
            (acc.1.cellcands row col).testBit v = true)
        _ _ ?_ _
        (foldl_pres
          (fun a : Constraints × Bool =>
            (RepOk ken a.1 ∧ Sync ken a.1 ∧ Survives ken S a.1) ∧
            ∀ v, (a.1.cellcands row col).testBit v = true →
              (acc.1.cellcands row col).testBit v = true)
          _ _ ?_ acc ⟨h, fun _ hv => hv⟩)).1
      · intro a srow hsrow hQa
        rw [List.mem_range'_1] at hsrow
        by_cases hcond : a.1.cellcands row col = a.1.cellcands srow col
        · rw [if_pos hcond]
          have hSin : (a.1.cellcands row col).testBit (S row col) = true :=
            sol_in_cellcands ken S a.1 hwf hQa.1.2.1 hQa.1.2.2 row col
              hrow hcol
          have hSs : (a.1.cellcands row col).testBit (S srow col) = true := by
            rw [hcond]
            exact sol_in_cellcands ken S a.1 hwf hQa.1.2.1 hQa.1.2.2 srow col
              (by omega) hcol
          have hv1 := (hpiff _).mp (hQa.2 _ hSin)
          have hv2 := (hpiff _).mp (hQa.2 _ hSs)
          have hne12 : S row col ≠ S srow col :=
            hdc col hcol row hrow srow (by omega) (by omega)
          refine foldl_pres
            (fun a : Constraints × Bool =>
              (RepOk ken a.1 ∧ Sync ken a.1 ∧ Survives ken S a.1) ∧
              ∀ v, (a.1.cellcands row col).testBit v = true →
                (acc.1.cellcands row col).testBit v = true)
            _ _ ?_ a hQa
          intro b orow horow hQb
          rw [List.mem_range] at horow
          by_cases hor : orow ≠ row ∧ orow ≠ srow
          · rw [if_pos hor]
            have hnS1 : S orow col ≠ S row col :=
              hdc col hcol orow horow row hrow hor.1
            have hnS2 : S orow col ≠ S srow col :=
              hdc col hcol orow horow srow (by omega) hor.2
            refine pair_step_preserves ken S row col orow col _ _ _ hwf hrow
              hcol horow hcol hp1lt hp2lt ?_ ?_ b hQb
            · rcases hv1 with he1 | he1 <;> rcases hv2 with he2 | he2 <;> omega
            · rcases hv1 with he1 | he1 <;> rcases hv2 with he2 | he2 <;> omega
          · rw [if_neg hor]
            exact hQb
        · rw [if_neg hcond]
          exact hQa
      · intro a scol hscol hQa
        rw [List.mem_range'_1] at hscol
        by_cases hcond : a.1.cellcands row col = a.1.cellcands row scol
        · rw [if_pos hcond]
          have hSin : (a.1.cellcands row col).testBit (S row col) = true :=
            sol_in_cellcands ken S a.1 hwf hQa.1.2.1 hQa.1.2.2 row col
              hrow hcol
          have hSs : (a.1.cellcands row col).testBit (S row scol) = true := by
            rw [hcond]
            exact sol_in_cellcands ken S a.1 hwf hQa.1.2.1 hQa.1.2.2 row scol
              hrow (by omega)
          have hv1 := (hpiff _).mp (hQa.2 _ hSin)
          have hv2 := (hpiff _).mp (hQa.2 _ hSs)
          have hne12 : S row col ≠ S row scol :=
            hdr row hrow col hcol scol (by omega) (by omega)
          refine foldl_pres
            (fun a : Constraints × Bool =>
              (RepOk ken a.1 ∧ Sync ken a.1 ∧ Survives ken S a.1) ∧
              ∀ v, (a.1.cellcands row col).testBit v = true →
                (acc.1.cellcands row col).testBit v = true)
            _ _ ?_ a hQa
          intro b ocol hocol hQb
          rw [List.mem_range] at hocol
          by_cases hoc : ocol ≠ col ∧ ocol ≠ scol
          · rw [if_pos hoc]
            have hnS1 : S row ocol ≠ S row col :=
              hdr row hrow ocol hocol col hcol hoc.1
            have hnS2 : S row ocol ≠ S row scol :=
              hdr row hrow ocol hocol scol (by omega) hoc.2
            refine pair_step_preserves ken S row col row ocol _ _ _ hwf hrow
              hcol hrow hocol hp1lt hp2lt ?_ ?_ b hQb
            · rcases hv1 with he1 | he1 <;> rcases hv2 with he2 | he2 <;> omega
            · rcases hv1 with he1 | he1 <;> rcases hv2 with he2 | he2 <;> omega
          · rw [if_neg hoc]
            exact hQb
        · rw [if_neg hcond]
          exact hQa
    · rw [if_neg h2]
      exact h

/-- A full reduce scan preserves the invariant. -/
theorem reduce_preserves (ken : KenKen) (S : ℕ → ℕ → ℕ) (hwf : WF ken)
    (hS : IsSolution ken S) (s : Constraints)
    (h : RepOk ken s ∧ Sync ken s ∧ Survives ken S s) :
    RepOk ken (reduce ken s).1 ∧ Sync ken (reduce ken s).1 ∧
      Survives ken S (reduce ken s).1 := by
  unfold reduce
  refine foldl_pres
    (fun a : Constraints × Bool =>
      RepOk ken a.1 ∧ Sync ken a.1 ∧ Survives ken S a.1)
    _ _ ?_ (s, false) h
  intro a row hrowm ha
  rw [List.mem_range] at hrowm
  refine foldl_pres
    (fun a : Constraints × Bool =>
      RepOk ken a.1 ∧ Sync ken a.1 ∧ Survives ken S a.1)
    _ _ ?_ a ha
  intro b col hcolm hb
  rw [List.mem_range] at hcolm
  exact reduceCell_preserves ken S row col hwf hS hrowm hcolm b hb

/-- The reduce driver loop preserves the invariant for any fuel. -/
theorem reduceLoop_preserves (ken : KenKen) (S : ℕ → ℕ → ℕ) (hwf : WF ken)
    (hS : IsSolution ken S) :
    ∀ (fuel : ℕ) (s : Constraints),
      RepOk ken s ∧ Sync ken s ∧ Survives ken S s →
      RepOk ken (reduceLoop ken fuel s) ∧
        Sync ken (reduceLoop ken fuel s) ∧
        Survives ken S (reduceLoop ken fuel s) := by
  intro fuel
  induction fuel with
  | zero => intro s h; exact h
  | succ n ih =>
      intro s h
      unfold reduceLoop
      dsimp only
      by_cases hr : (reduce ken s).2 = true
      · rw [if_pos hr]
        exact ih _ (reduce_preserves ken S hwf hS s h)
      · rw [if_neg hr]
        exact reduce_preserves ken S hwf hS s h

/-- C5: for every well-formed puzzle with goals in the digit range and
every complete solution S of it, after determine_initial followed by any
number of reduce passes (in particular after running reduce to fixpoint,
as solve does), the digit-set of each cell still contains the digit S
places at that cell: propagation never removes a digit belonging to a
true solution. -/
theorem C5_propagation_keeps_solution (ken : KenKen) (S : ℕ → ℕ → ℕ)
    (hwf : WF ken) (hgoals : GoalsOk ken) (hS : IsSolution ken S) :
    ∀ (fuel r c : ℕ), r < ken.size → c < ken.size →
      ((reduceLoop ken fuel
          (determine_initial ken (Constraints.empty ken))).cellcands r
        c).testBit (S r c) = true := by
  intro fuel r c hr hc
  have h0 : RepOk ken (determine_initial ken (Constraints.empty ken)) ∧
      Sync ken (determine_initial ken (Constraints.empty ken)) ∧
      Survives ken S (determine_initial ken (Constraints.empty ken)) :=
    ⟨determine_initial_rep ken hwf hgoals, determine_initial_sync ken hwf,
      determine_initial_survives ken S hwf hS⟩
  have hfin := reduceLoop_preserves ken S hwf hS fuel _ h0
  exact sol_in_cellcands ken S _ hwf hfin.2.1 hfin.2.2 r c hr hc

/-- Witness for C5 on the concrete puzzle p1 and its unique solution. -/
theorem C5_witness :
    (WF p1 ∧ GoalsOk p1 ∧ IsSolution p1 sol1 ∧ (0 : ℕ) < p1.size) ∧
    ((reduceLoop p1 64
        (determine_initial p1 (Constraints.empty p1))).cellcands 0
      0).testBit (sol1 0 0) = true :=
  ⟨⟨by decide, by decide, by decide, by decide⟩,
    C5_propagation_keeps_solution p1 sol1 (by decide) (by decide)
      (by decide) 64 0 0 (by decide) (by decide)⟩

/-! Claim C7: the search restores masks and resets assigned cells. -/

theorem upd_same {α : Type} (f : ℕ → α) (i : ℕ) (x : α) : upd f i x i = x := by
  simp [upd]

theorem upd_other2 {α : Type} (f : ℕ → α) (i : ℕ) (x : α) (j : ℕ)
    (h : j ≠ i) : upd f i x j = f j := by
  simp [upd, h]

theorem upd_upd {α : Type} (f : ℕ → α) (i : ℕ) (x y : α) :
    upd (upd f i x) i y = upd f i y := by
  funext j
  by_cases hj : j = i <;> simp [upd, hj]

theorem upd_of_eq {α : Type} (f : ℕ → α) (i : ℕ) (x : α) (h : x = f i) :
    upd f i x = f := by
  subst h
  funext j
  by_cases hj : j = i <;> simp [upd, hj]

theorem land_le_left (a b : ℕ) : a &&& b ≤ a := Nat.and_le_left

/-- Clearing a set bit and then re-adding it restores a u32 mask. -/
theorem mask_restore (m v : ℕ) (hm : m < w32) (hv : m.testBit v = true) :
    (m &&& (mask32 ^^^ 1 <<< v)) ||| 1 <<< v = m := by
  have hv32 : v < 32 := testBit_lt_32 m v hm hv
  apply Nat.eq_of_testBit_eq
  intro j
  rw [Nat.testBit_or, Nat.testBit_and, Nat.testBit_xor, testBit_mask32,
    testBit_pow]
  by_cases hj : j = v
  · subst hj
    simp [hv, hv32]
  · have hjd : decide (j = v) = false := decide_eq_false hj
    rw [hjd]
    by_cases hj32 : j < 32
    · have hd : decide (j < 32) = true := decide_eq_true hj32
      rw [hd]
      simp
    · have hd : decide (j < 32) = false := decide_eq_false hj32
      rw [hd]
      have hbit : m.testBit j = false :=
        testBit_false_of_le m 32 j hm (by omega)
      rw [hbit]
      simp

/-- Grid.put reads back the written value at its cell. -/
theorem put_read_same (g : Grid) (i j v : ℕ) : g.put i j v i j = v := by
  simp [Grid.put]

/-- Grid.put leaves every other cell unchanged. -/
theorem put_read_other (g : Grid) (i j v r c : ℕ) (h : ¬(r = i ∧ c = j)) :
    g.put i j v r c = g r c := by
  simp only [Grid.put, if_neg h]

/-- Frame property of the candidate loop of inner: when it returns, both
mask vectors equal their values at entry, the cell of the invocation is
reset to 0, and every working-grid cell is either untouched or reset. -/
theorem innerList_frame (ken : KenKen) (cons : ℕ → ℕ → List ℕ) :
    ∀ (row col pval : ℕ) (cands : List ℕ) (s : SearchState),
    (∀ i, s.rmask i < w32) → (∀ i, s.cmask i < w32) →
    (∀ w, pval.testBit w = true →
      (s.rmask row).testBit w = true ∧ (s.cmask col).testBit w = true) →
    ((innerList ken cons row col pval cands s).rmask = s.rmask ∧
      (innerList ken cons row col pval cands s).cmask = s.cmask) ∧
    (innerList ken cons row col pval cands s).work row col = 0 ∧
    (∀ r c, (innerList ken cons row col pval cands s).work r c = s.work r c ∨
      (innerList ken cons row col pval cands s).work r c = 0)
  | row, col, pval, [], s, hrm, hcm, hp => by
      have he : innerList ken cons row col pval [] s =
          { s with work := s.work.put row col 0 } := by
        simp only [innerList]
      rw [he]
      refine ⟨⟨rfl, rfl⟩, ?_, ?_⟩
      · exact put_read_same s.work row col 0
      · intro r c
        by_cases hrc : r = row ∧ c = col
        · right
          obtain ⟨h1, h2⟩ := hrc
          subst h1
          subst h2
          exact put_read_same s.work r c 0
        · left
          exact put_read_other s.work row col 0 r c hrc
  | row, col, pval, v :: rest, s, hrm, hcm, hp => by
      by_cases hg : pval &&& 1 <<< v = 0
      · have hrec := innerList_frame ken cons row col pval rest s hrm hcm hp
        simp only [innerList]
        rw [if_pos hg]
        exact hrec
      · have htb : pval.testBit v = true := by
          cases htb2 : pval.testBit v
          · exact absurd ((land_pow_eq_zero pval v).mpr htb2) hg
          · rfl
        have hrv : (s.rmask row).testBit v = true := (hp v htb).1
        have hcv : (s.cmask col).testBit v = true := (hp v htb).2
        simp only [innerList]
        rw [if_neg hg]
        by_cases hsat :
            constraint_satisfied ken (s.work.put row col v) row col = true
        · rw [if_pos hsat]
          by_cases hcol : col < ken.size - 1
          · rw [if_pos hcol]
            have hR := innerList_frame ken cons row (col + 1)
              (upd s.rmask row (s.rmask row &&& (mask32 ^^^ 1 <<< v)) row &&&
                upd s.cmask col (s.cmask col &&& (mask32 ^^^ 1 <<< v))
                  (col + 1))
              (cons row (col + 1))
              { work := s.work.put row col v, res := s.res,
                rmask := upd s.rmask row
                  (s.rmask row &&& (mask32 ^^^ 1 <<< v)),
                cmask := upd s.cmask col
                  (s.cmask col &&& (mask32 ^^^ 1 <<< v)),
                steps := s.steps + 1 }
              (by
                intro i
                by_cases hi : i = row
                · subst hi
                  show upd s.rmask i (s.rmask i &&& (mask32 ^^^ 1 <<< v)) i < w32
                  rw [upd_same]
                  exact Nat.lt_of_le_of_lt (land_le_left _ _) (hrm i)
                · show upd s.rmask row (s.rmask row &&& (mask32 ^^^ 1 <<< v)) i < w32
                  rw [upd_other2 _ _ _ _ hi]
                  exact hrm i)
              (by
                intro i
                by_cases hi : i = col
                · subst hi
                  show upd s.cmask i (s.cmask i &&& (mask32 ^^^ 1 <<< v)) i < w32
                  rw [upd_same]
                  exact Nat.lt_of_le_of_lt (land_le_left _ _) (hcm i)
                · show upd s.cmask col (s.cmask col &&& (mask32 ^^^ 1 <<< v)) i < w32
                  rw [upd_other2 _ _ _ _ hi]
                  exact hcm i)
              (by
                intro w hw
                simp only [Nat.testBit_land, Bool.and_eq_true] at hw
                exact hw)
            obtain ⟨⟨hRr0, hRc0⟩, hRw0, hRwall⟩ := hR
            set R := innerList ken cons row (col + 1)
              (upd s.rmask row (s.rmask row &&& (mask32 ^^^ 1 <<< v)) row &&&
                upd s.cmask col (s.cmask col &&& (mask32 ^^^ 1 <<< v))
                  (col + 1))
              (cons row (col + 1))
              { work := s.work.put row col v, res := s.res,
                rmask := upd s.rmask row
                  (s.rmask row &&& (mask32 ^^^ 1 <<< v)),
                cmask := upd s.cmask col
                  (s.cmask col &&& (mask32 ^^^ 1 <<< v)),
                steps := s.steps + 1 } with hRdef
            have hRr : R.rmask =
                upd s.rmask row (s.rmask row &&& (mask32 ^^^ 1 <<< v)) := hRr0
            have hRc : R.cmask =
                upd s.cmask col (s.cmask col &&& (mask32 ^^^ 1 <<< v)) := hRc0
            have hmr : upd R.rmask row (R.rmask row ||| 1 <<< v) = s.rmask := by
              rw [hRr, upd_same, upd_upd]
              exact upd_of_eq _ _ _ (mask_restore (s.rmask row) v (hrm row) hrv)
            have hmc : upd R.cmask col (R.cmask col ||| 1 <<< v) = s.cmask := by
              rw [hRc, upd_same, upd_upd]
              exact upd_of_eq _ _ _ (mask_restore (s.cmask col) v (hcm col) hcv)
            have hrest := innerList_frame ken cons row col pval rest
              { work := R.work, res := R.res,
                rmask := upd R.rmask row (R.rmask row ||| 1 <<< v),
                cmask := upd R.cmask col (R.cmask col ||| 1 <<< v),
                steps := R.steps }
              (by
                show ∀ i, upd R.rmask row (R.rmask row ||| 1 <<< v) i < w32
                rw [hmr]
                exact hrm)
              (by
                show ∀ i, upd R.cmask col (R.cmask col ||| 1 <<< v) i < w32
                rw [hmc]
                exact hcm)
              (by
                show ∀ w, pval.testBit w = true →
                  (upd R.rmask row (R.rmask row ||| 1 <<< v) row).testBit w =
                    true ∧
                  (upd R.cmask col (R.cmask col ||| 1 <<< v) col).testBit w =
                    true
                rw [hmr, hmc]
                exact hp)
            refine ⟨⟨hrest.1.1.trans hmr, hrest.1.2.trans hmc⟩,
              hrest.2.1, ?_⟩
            intro r c
            by_cases hrc : r = row ∧ c = col
            · obtain ⟨h1, h2⟩ := hrc
              subst h1
              subst h2
              exact Or.inr hrest.2.1
            · rcases hrest.2.2 r c with h3 | h3
              · rcases hRwall r c with h4 | h4
                · left
                  rw [h3]
                  show R.work r c = s.work r c
                  exact h4.trans (put_read_other s.work row col v r c hrc)
                · right
                  rw [h3]
                  exact h4
              · exact Or.inr h3
          · rw [if_neg hcol]
            by_cases hrow2 : row < ken.size - 1
            · rw [if_pos hrow2]
              have hR := innerList_frame ken cons (row + 1) 0
                (upd s.rmask row (s.rmask row &&& (mask32 ^^^ 1 <<< v))
                    (row + 1) &&&
                  upd s.cmask col (s.cmask col &&& (mask32 ^^^ 1 <<< v)) 0)
                (cons (row + 1) 0)
                { work := s.work.put row col v, res := s.res,
                  rmask := upd s.rmask row
                    (s.rmask row &&& (mask32 ^^^ 1 <<< v)),
                  cmask := upd s.cmask col
                    (s.cmask col &&& (mask32 ^^^ 1 <<< v)),
                  steps := s.steps + 1 }
                (by
                  intro i
                  by_cases hi : i = row
                  · subst hi
                    show upd s.rmask i (s.rmask i &&& (mask32 ^^^ 1 <<< v)) i <
                      w32
                    rw [upd_same]
                    exact Nat.lt_of_le_of_lt (land_le_left _ _) (hrm i)
                  · show upd s.rmask row
                      (s.rmask row &&& (mask32 ^^^ 1 <<< v)) i < w32
                    rw [upd_other2 _ _ _ _ hi]
                    exact hrm i)
                (by
                  intro i
                  by_cases hi : i = col
                  · subst hi
                    show upd s.cmask i (s.cmask i &&& (mask32 ^^^ 1 <<< v)) i <
                      w32
                    rw [upd_same]
                    exact Nat.lt_of_le_of_lt (land_le_left _ _) (hcm i)
                  · show upd s.cmask col
                      (s.cmask col &&& (mask32 ^^^ 1 <<< v)) i < w32
                    rw [upd_other2 _ _ _ _ hi]
                    exact hcm i)
                (by
                  intro w hw
                  simp only [Nat.testBit_land, Bool.and_eq_true] at hw
                  exact hw)
              obtain ⟨⟨hRr0, hRc0⟩, hRw0, hRwall⟩ := hR
              set R := innerList ken cons (row + 1) 0
                (upd s.rmask row (s.rmask row &&& (mask32 ^^^ 1 <<< v))
                    (row + 1) &&&
                  upd s.cmask col (s.cmask col &&& (mask32 ^^^ 1 <<< v)) 0)
                (cons (row + 1) 0)
                { work := s.work.put row col v, res := s.res,
                  rmask := upd s.rmask row
                    (s.rmask row &&& (mask32 ^^^ 1 <<< v)),
                  cmask := upd s.cmask col
                    (s.cmask col &&& (mask32 ^^^ 1 <<< v)),
                  steps := s.steps + 1 } with hRdef
              have hRr : R.rmask =
                  upd s.rmask row (s.rmask row &&& (mask32 ^^^ 1 <<< v)) := hRr0
              have hRc : R.cmask =
                  upd s.cmask col (s.cmask col &&& (mask32 ^^^ 1 <<< v)) := hRc0
              have hmr : upd R.rmask row (R.rmask row ||| 1 <<< v) =
                  s.rmask := by
                rw [hRr, upd_same, upd_upd]
                exact upd_of_eq _ _ _
                  (mask_restore (s.rmask row) v (hrm row) hrv)
              have hmc : upd R.cmask col (R.cmask col ||| 1 <<< v) =
                  s.cmask := by
                rw [hRc, upd_same, upd_upd]
                exact upd_of_eq _ _ _
                  (mask_restore (s.cmask col) v (hcm col) hcv)
              have hrest := innerList_frame ken cons row col pval rest
                { work := R.work, res := R.res,
                  rmask := upd R.rmask row (R.rmask row ||| 1 <<< v),
                  cmask := upd R.cmask col (R.cmask col ||| 1 <<< v),
                  steps := R.steps }
                (by
                  show ∀ i, upd R.rmask row (R.rmask row ||| 1 <<< v) i < w32
                  rw [hmr]
                  exact hrm)
                (by
                  show ∀ i, upd R.cmask col (R.cmask col ||| 1 <<< v) i < w32
                  rw [hmc]
                  exact hcm)
                (by
                  show ∀ w, pval.testBit w = true →
                    (upd R.rmask row (R.rmask row ||| 1 <<< v) row).testBit w =
                      true ∧
                    (upd R.cmask col (R.cmask col ||| 1 <<< v) col).testBit w =
                      true
                  rw [hmr, hmc]
                  exact hp)
              refine ⟨⟨hrest.1.1.trans hmr, hrest.1.2.trans hmc⟩,
                hrest.2.1, ?_⟩
              intro r c
              by_cases hrc : r = row ∧ c = col
              · obtain ⟨h1, h2⟩ := hrc
                subst h1
                subst h2
                exact Or.inr hrest.2.1
              · rcases hrest.2.2 r c with h3 | h3
                · rcases hRwall r c with h4 | h4
                  · left
                    rw [h3]
                    show R.work r c = s.work r c
                    exact h4.trans (put_read_other s.work row col v r c hrc)
                  · right
                    rw [h3]
                    exact h4
                · exact Or.inr h3
            · rw [if_neg hrow2]
              have hmr : upd
                  (upd s.rmask row (s.rmask row &&& (mask32 ^^^ 1 <<< v))) row
                  (upd s.rmask row (s.rmask row &&& (mask32 ^^^ 1 <<< v)) row |||
                    1 <<< v) = s.rmask := by
                rw [upd_same, upd_upd]
                exact upd_of_eq _ _ _
                  (mask_restore (s.rmask row) v (hrm row) hrv)
              have hmc : upd
                  (upd s.cmask col (s.cmask col &&& (mask32 ^^^ 1 <<< v))) col
                  (upd s.cmask col (s.cmask col &&& (mask32 ^^^ 1 <<< v)) col |||
                    1 <<< v) = s.cmask := by
                rw [upd_same, upd_upd]
                exact upd_of_eq _ _ _
                  (mask_restore (s.cmask col) v (hcm col) hcv)
              have hrest := innerList_frame ken cons row col pval rest
                { work := s.work.put row col v,
                  res := s.res ++ [s.work.put row col v],
                  rmask := upd
                    (upd s.rmask row (s.rmask row &&& (mask32 ^^^ 1 <<< v))) row
                    (upd s.rmask row (s.rmask row &&& (mask32 ^^^ 1 <<< v)) row |||
                      1 <<< v),
                  cmask := upd
                    (upd s.cmask col (s.cmask col &&& (mask32 ^^^ 1 <<< v))) col
                    (upd s.cmask col (s.cmask col &&& (mask32 ^^^ 1 <<< v)) col |||
                      1 <<< v),
                  steps := s.steps }
                (by
                  show ∀ i, upd
                    (upd s.rmask row (s.rmask row &&& (mask32 ^^^ 1 <<< v))) row
                    (upd s.rmask row (s.rmask row &&& (mask32 ^^^ 1 <<< v)) row |||
                      1 <<< v) i < w32
                  rw [hmr]
                  exact hrm)
                (by
                  show ∀ i, upd
                    (upd s.cmask col (s.cmask col &&& (mask32 ^^^ 1 <<< v))) col
                    (upd s.cmask col (s.cmask col &&& (mask32 ^^^ 1 <<< v)) col |||
                      1 <<< v) i < w32
                  rw [hmc]
                  exact hcm)
                (by
                  rw [hmr, hmc]
                  exact hp)
              refine ⟨⟨hrest.1.1.trans hmr, hrest.1.2.trans hmc⟩,
                hrest.2.1, ?_⟩
              intro r c
              by_cases hrc : r = row ∧ c = col
              · obtain ⟨h1, h2⟩ := hrc
                subst h1
                subst h2
                exact Or.inr hrest.2.1
              · rcases hrest.2.2 r c with h3 | h3
                · left
                  rw [h3]
                  exact put_read_other s.work row col v r c hrc
                · exact Or.inr h3
        · rw [if_neg hsat]
          have hrec := innerList_frame ken cons row col pval rest
            { s with work := s.work.put row col v } hrm hcm hp
          refine ⟨hrec.1, hrec.2.1, ?_⟩
          intro r c
          by_cases hrc : r = row ∧ c = col
          · obtain ⟨h1, h2⟩ := hrc
            subst h1
            subst h2
            exact Or.inr hrec.2.1
          · rcases hrec.2.2 r c with h3 | h3
            · left
              rw [h3]
              exact put_read_other s.work row col v r c hrc
            · exact Or.inr h3
  termination_by row col _pval cands _s => (ken.size - row, ken.size - col, cands.length)
  decreasing_by
  all_goals
    first
    | (apply Prod.Lex.right; apply Prod.Lex.right; simp)
    | (apply Prod.Lex.right; apply Prod.Lex.left; omega)
    | (apply Prod.Lex.left; omega)

/-- C7: one invocation of the recursive search procedure restores the row
and column occupancy masks to their entry values on return, and no
working-grid mutation survives: the cell of the invocation reads 0 and
every cell is either untouched or reset to 0, regardless of whether any
solution was found in the subtree.  The mask vectors are u32 values. -/
theorem C7_search_restores_state (ken : KenKen) (cons : ℕ → ℕ → List ℕ)
    (row col : ℕ) (s : SearchState)
    (hrm : ∀ i, s.rmask i < w32) (hcm : ∀ i, s.cmask i < w32) :
    (innerCell ken cons row col s).rmask = s.rmask ∧
    (innerCell ken cons row col s).cmask = s.cmask ∧
    (innerCell ken cons row col s).work row col = 0 ∧
    (∀ r c, (innerCell ken cons row col s).work r c = s.work r c ∨
      (innerCell ken cons row col s).work r c = 0) := by
  have h := innerList_frame ken cons row col (s.rmask row &&& s.cmask col)
    (cons row col) { s with steps := s.steps + 1 } hrm hcm
    (by
      intro w hw
      simp only [Nat.testBit_land, Bool.and_eq_true] at hw
      exact hw)
  exact ⟨h.1.1, h.1.2, h.2.1, h.2.2⟩

/-- Witness for C7 on the concrete puzzle p1 at the root invocation of
the search. -/
theorem C7_witness :
    ((∀ i, (initState p1).rmask i < w32) ∧
      (∀ i, (initState p1).cmask i < w32)) ∧
    ((innerCell p1 (mkCons p1) 0 0 (initState p1)).rmask =
        (initState p1).rmask ∧
      (innerCell p1 (mkCons p1) 0 0 (initState p1)).cmask =
        (initState p1).cmask ∧
      (innerCell p1 (mkCons p1) 0 0 (initState p1)).work 0 0 = 0 ∧
      (∀ r c, (innerCell p1 (mkCons p1) 0 0 (initState p1)).work r c =
          (initState p1).work r c ∨
        (innerCell p1 (mkCons p1) 0 0 (initState p1)).work r c = 0)) :=
  ⟨⟨fun _ => (by decide : (6 : ℕ) < w32), fun _ => (by decide : (6 : ℕ) < w32)⟩,
    C7_search_restores_state p1 (mkCons p1) 0 0 (initState p1)
      (fun _ => (by decide : (6 : ℕ) < w32))
      (fun _ => (by decide : (6 : ℕ) < w32))⟩


/-! Claim C1: the outcome classification of solve. -/

/-- Every successful run of the fueled search mirror computes innerList. -/
theorem innerListF_sound (ken : KenKen) (cons : ℕ → ℕ → List ℕ) :
    ∀ (fuel row col pval : ℕ) (cands : List ℕ) (s t : SearchState),
      innerListF ken cons fuel row col pval cands s = some t →
      innerList ken cons row col pval cands s = t := by
  intro fuel
  induction fuel with
  | zero =>
      intro row col pval cands s t h
      exact absurd h (by simp [innerListF])
  | succ n ih =>
      intro row col pval cands s t h
      cases cands with
      | nil =>
          simp only [innerListF] at h
          simp only [innerList]
          exact Option.some.inj h
      | cons v rest =>
          simp only [innerListF] at h
          simp only [innerList]
          by_cases hg : pval &&& 1 <<< v = 0
          · rw [if_pos hg] at h
            rw [if_pos hg]
            exact ih row col pval rest s t h
          · rw [if_neg hg] at h
            rw [if_neg hg]
            by_cases hsat :
                constraint_satisfied ken (s.work.put row col v) row col = true
            · rw [if_pos hsat] at h
              rw [if_pos hsat]
              by_cases hcol : col < ken.size - 1
              · rw [if_pos hcol] at h
                rw [if_pos hcol]
                cases h3 : innerListF ken cons n row (col + 1)
                    (upd s.rmask row (s.rmask row &&& (mask32 ^^^ 1 <<< v))
                        row &&&
                      upd s.cmask col (s.cmask col &&& (mask32 ^^^ 1 <<< v))
                        (col + 1))
                    (cons row (col + 1))
                    { work := s.work.put row col v, res := s.res,
                      rmask := upd s.rmask row
                        (s.rmask row &&& (mask32 ^^^ 1 <<< v)),
                      cmask := upd s.cmask col
                        (s.cmask col &&& (mask32 ^^^ 1 <<< v)),
                      steps := s.steps + 1 } with
                | none =>
                    rw [h3] at h
                    exact absurd h (by simp)
                | some s3 =>
                    rw [h3] at h
                    rw [Option.some_bind] at h
                    rw [ih _ _ _ _ _ s3 h3]
                    exact ih row col pval rest _ t h
              · rw [if_neg hcol] at h
                rw [if_neg hcol]
                by_cases hrow2 : row < ken.size - 1
                · rw [if_pos hrow2] at h
                  rw [if_pos hrow2]
                  cases h3 : innerListF ken cons n (row + 1) 0
                      (upd s.rmask row (s.rmask row &&& (mask32 ^^^ 1 <<< v))
                          (row + 1) &&&
                        upd s.cmask col (s.cmask col &&& (mask32 ^^^ 1 <<< v))
                          0)
                      (cons (row + 1) 0)
                      { work := s.work.put row col v, res := s.res,
                        rmask := upd s.rmask row
                          (s.rmask row &&& (mask32 ^^^ 1 <<< v)),
                        cmask := upd s.cmask col
                          (s.cmask col &&& (mask32 ^^^ 1 <<< v)),
                        steps := s.steps + 1 } with
                  | none =>
                      rw [h3] at h
                      exact absurd h (by simp)
                  | some s3 =>
                      rw [h3] at h
                      rw [Option.some_bind] at h
                      rw [ih _ _ _ _ _ s3 h3]
                      exact ih row col pval rest _ t h
                · rw [if_neg hrow2] at h
                  rw [if_neg hrow2]
                  rw [Option.some_bind] at h
                  exact ih row col pval rest _ t h
            · rw [if_neg hsat] at h
              rw [if_neg hsat]
              exact ih row col pval rest _ t h

/-- Evaluating the whole search through the fueled mirror. -/
theorem searchFinal_via_fuel (ken : KenKen) (fuel : ℕ) (t : SearchState)
    (h : innerListF ken (mkCons ken) fuel 0 0
      ((initState ken).rmask 0 &&& (initState ken).cmask 0)
      (mkCons ken 0 0)
      { initState ken with steps := (initState ken).steps + 1 } = some t) :
    searchFinal ken = t := by
  unfold searchFinal innerCell
  exact innerListF_sound ken (mkCons ken) fuel 0 0 _ _ _ t h

/-- The number of accumulated result grids, through the fueled mirror. -/
theorem searchFinal_res_length (ken : KenKen) (fuel k : ℕ)
    (h : (innerListF ken (mkCons ken) fuel 0 0
        ((initState ken).rmask 0 &&& (initState ken).cmask 0)
        (mkCons ken 0 0)
        { initState ken with steps := (initState ken).steps + 1 }).map
      (fun t => t.res.length) = some k) :
    (searchFinal ken).res.length = k := by
  cases h3 : innerListF ken (mkCons ken) fuel 0 0
      ((initState ken).rmask 0 &&& (initState ken).cmask 0)
      (mkCons ken 0 0)
      { initState ken with steps := (initState ken).steps + 1 } with
  | none =>
      rw [h3] at h
      exact absurd h (by simp)
  | some t =>
      rw [h3] at h
      rw [show ((some t).map (fun t => t.res.length)) = some t.res.length from rfl] at h
      rw [searchFinal_via_fuel ken fuel t h3]
      exact Option.some.inj h

/-- The fueled search only reads the candidate table at in-grid cells, so
tables agreeing on the grid run identically. -/
theorem innerListF_congr (ken : KenKen) (cons1 cons2 : ℕ → ℕ → List ℕ)
    (hc : ∀ r, r < ken.size → ∀ c, c < ken.size → cons1 r c = cons2 r c) :
    ∀ (fuel row col pval : ℕ) (cands : List ℕ) (s : SearchState),
      row < ken.size → col < ken.size →
      innerListF ken cons1 fuel row col pval cands s =
        innerListF ken cons2 fuel row col pval cands s := by
  intro fuel
  induction fuel with
  | zero =>
      intro row col pval cands s _ _
      rfl
  | succ n ih =>
      intro row col pval cands s hrow hcol
      cases cands with
      | nil => rfl
      | cons v rest =>
          simp only [innerListF]
          by_cases hg : pval &&& 1 <<< v = 0
          · rw [if_pos hg, if_pos hg]
            exact ih row col pval rest s hrow hcol
          · rw [if_neg hg, if_neg hg]
            by_cases hsat :
                constraint_satisfied ken (s.work.put row col v) row col = true
            · rw [if_pos hsat, if_pos hsat]
              by_cases hcol2 : col < ken.size - 1
              · rw [if_pos hcol2, if_pos hcol2]
                rw [hc row hrow (col + 1) (by omega)]
                rw [ih row (col + 1) _ _ _ hrow (by omega)]
                cases h3 : innerListF ken cons2 n row (col + 1)
                    (upd s.rmask row (s.rmask row &&& (mask32 ^^^ 1 <<< v))
                        row &&&
                      upd s.cmask col (s.cmask col &&& (mask32 ^^^ 1 <<< v))
                        (col + 1))
                    (cons2 row (col + 1))
                    { work := s.work.put row col v, res := s.res,
                      rmask := upd s.rmask row
                        (s.rmask row &&& (mask32 ^^^ 1 <<< v)),
                      cmask := upd s.cmask col
                        (s.cmask col &&& (mask32 ^^^ 1 <<< v)),
                      steps := s.steps + 1 } with
                | none => rfl
                | some s3 =>
                    rw [Option.some_bind, Option.some_bind]
                    exact ih row col pval rest _ hrow hcol
              · rw [if_neg hcol2, if_neg hcol2]
                by_cases hrow2 : row < ken.size - 1
                · rw [if_pos hrow2, if_pos hrow2]
                  rw [hc (row + 1) (by omega) 0 (by omega)]
                  rw [ih (row + 1) 0 _ _ _ (by omega) (by omega)]
                  cases h3 : innerListF ken cons2 n (row + 1) 0
                      (upd s.rmask row (s.rmask row &&& (mask32 ^^^ 1 <<< v))
                          (row + 1) &&&
                        upd s.cmask col (s.cmask col &&& (mask32 ^^^ 1 <<< v))
                          0)
                      (cons2 (row + 1) 0)
                      { work := s.work.put row col v, res := s.res,
                        rmask := upd s.rmask row
                          (s.rmask row &&& (mask32 ^^^ 1 <<< v)),
                        cmask := upd s.cmask col
                          (s.cmask col &&& (mask32 ^^^ 1 <<< v)),
                        steps := s.steps + 1 } with
                  | none => rfl
                  | some s3 =>
                      rw [Option.some_bind, Option.some_bind]
                      exact ih row col pval rest _ hrow hcol
                · rw [if_neg hrow2, if_neg hrow2]
                  rw [Option.some_bind, Option.some_bind]
                  exact ih row col pval rest _ hrow hcol
            · rw [if_neg hsat, if_neg hsat]
              exact ih row col pval rest _ hrow hcol

/-- The search on p1 accumulates exactly one grid, computed through the
fueled mirror with the literal candidate table. -/
theorem p1_res_length : (searchFinal p1).res.length = 1 := by
  apply searchFinal_res_length p1 20 1
  have hagree : ∀ r, r < p1.size → ∀ c, c < p1.size →
      mkCons p1 r c = p1cons r c := by decide
  have hcands : mkCons p1 0 0 = p1cons 0 0 := by decide
  rw [innerListF_congr p1 (mkCons p1) p1cons hagree 20 0 0
    ((initState p1).rmask 0 &&& (initState p1).cmask 0) (mkCons p1 0 0)
    { initState p1 with steps := (initState p1).steps + 1 }
    (by decide) (by decide), hcands]
  decide

/-! Claim C3: validity of the grid returned by a successful solve. -/

/-- Row-major order is transitive. -/
theorem posLt_trans {a b c : ℕ × ℕ} (h1 : posLt a b) (h2 : posLt b c) :
    posLt a c := by
  unfold posLt at h1 h2 ⊢
  omega

/-- A cell at or before another, which is before a third, is before it. -/
theorem posLe_lt_trans {a b c : ℕ × ℕ} (h1 : posLe a b) (h2 : posLt b c) :
    posLt a c := by
  rcases h1 with h1 | rfl
  · exact posLt_trans h1 h2
  · exact h2

/-- The cage check only reads the grid at the cells of the cage. -/
theorem satisfied_congr (n : ℕ) (cage : Cage) (hcwf : CageWF n cage)
    (w1 w2 : Grid) (h : ∀ p ∈ cage.cells, w1 p.1 p.2 = w2 p.1 p.2) :
    Cage.satisfied cage w1 = Cage.satisfied cage w2 := by
  obtain ⟨hne, hin, hlast, hle, hop⟩ := hcwf
  have hmap : cage.cells.map (fun c => w1 c.1 c.2) =
      cage.cells.map (fun c => w2 c.1 c.2) :=
    List.map_congr_left (fun p hp => h p hp)
  have hlen1 : 1 ≤ cage.cells.length := List.length_pos.mpr hne
  have h0 : w1 (cage.cells.getD 0 (0, 0)).1 (cage.cells.getD 0 (0, 0)).2 =
      w2 (cage.cells.getD 0 (0, 0)).1 (cage.cells.getD 0 (0, 0)).2 :=
    h _ (getD_mem_of_lt _ _ _ (by omega))
  unfold Cage.satisfied
  cases hopc : cage.operation with
  | const c =>
      rw [h0]
  | add goal =>
      rw [hmap]
  | mul goal =>
      rw [hmap]
  | sub goal =>
      rw [hopc] at hop
      dsimp only at hop
      have h1 : w1 (cage.cells.getD 1 (0, 0)).1 (cage.cells.getD 1 (0, 0)).2 =
          w2 (cage.cells.getD 1 (0, 0)).1 (cage.cells.getD 1 (0, 0)).2 :=
        h _ (getD_mem_of_lt _ _ _ (by omega))
      rw [h0, h1]
  | div goal =>
      rw [hopc] at hop
      dsimp only at hop
      have h1 : w1 (cage.cells.getD 1 (0, 0)).1 (cage.cells.getD 1 (0, 0)).2 =
          w2 (cage.cells.getD 1 (0, 0)).1 (cage.cells.getD 1 (0, 0)).2 :=
        h _ (getD_mem_of_lt _ _ _ (by omega))
      rw [h0, h1]

/-- Cells strictly before the entry cell of an invocation are never
written by it. -/
theorem innerList_work_before (ken : KenKen) (cons : ℕ → ℕ → List ℕ) :
    ∀ (row col pval : ℕ) (cands : List ℕ) (s : SearchState) (r c : ℕ),
      posLt (r, c) (row, col) →
      (innerList ken cons row col pval cands s).work r c = s.work r c
  | row, col, pval, [], s, r, c, hlt => by
      have hlt2 : r < row ∨ (r = row ∧ c < col) := hlt
      have he : innerList ken cons row col pval [] s =
          { s with work := s.work.put row col 0 } := by
        simp only [innerList]
      rw [he]
      exact put_read_other s.work row col 0 r c (by omega)
  | row, col, pval, v :: rest, s, r, c, hlt => by
      have hlt2 : r < row ∨ (r = row ∧ c < col) := hlt
      have hne : ¬(r = row ∧ c = col) := by omega
      by_cases hg : pval &&& 1 <<< v = 0
      · simp only [innerList]
        rw [if_pos hg]
        exact innerList_work_before ken cons row col pval rest s r c hlt
      · simp only [innerList]
        rw [if_neg hg]
        by_cases hsat :
            constraint_satisfied ken (s.work.put row col v) row col = true
        · rw [if_pos hsat]
          by_cases hcol2 : col < ken.size - 1
          · rw [if_pos hcol2]
            rw [innerList_work_before ken cons row col pval rest _ r c hlt]
            dsimp only
            rw [innerList_work_before ken cons row (col + 1) _ _ _ r c
              (show posLt (r, c) (row, col + 1) from by
                unfold posLt
                dsimp only
                omega)]
            exact put_read_other s.work row col v r c hne
          · rw [if_neg hcol2]
            by_cases hrow2 : row < ken.size - 1
            · rw [if_pos hrow2]
              rw [innerList_work_before ken cons row col pval rest _ r c hlt]
              dsimp only
              rw [innerList_work_before ken cons (row + 1) 0 _ _ _ r c
                (show posLt (r, c) (row + 1, 0) from by
                  unfold posLt
                  dsimp only
                  omega)]
              exact put_read_other s.work row col v r c hne
            · rw [if_neg hrow2]
              rw [innerList_work_before ken cons row col pval rest _ r c hlt]
              exact put_read_other s.work row col v r c hne
        · rw [if_neg hsat]
          rw [innerList_work_before ken cons row col pval rest _ r c hlt]
          exact put_read_other s.work row col v r c hne
  termination_by row col _pval cands _s _r _c => (ken.size - row, ken.size - col, cands.length)
  decreasing_by
  all_goals
    first
    | (apply Prod.Lex.right; apply Prod.Lex.right; simp)
    | (apply Prod.Lex.right; apply Prod.Lex.left; omega)
    | (apply Prod.Lex.left; omega)

/-- The search invariant only depends on the masks and the cells strictly
before the current one. -/
theorem searchInv_congr (ken : KenKen) (hwf : WF ken) (row col : ℕ)
    (s s2 : SearchState)
    (hw : ∀ r, r < ken.size → ∀ c, c < ken.size →
      posLt (r, c) (row, col) → s2.work r c = s.work r c)
    (hrm : s2.rmask = s.rmask) (hcm : s2.cmask = s.cmask)
    (hinv : SearchInv ken row col s) : SearchInv ken row col s2 := by
  obtain ⟨hfill, hrows, hcols, hmask, hcages⟩ := hinv
  refine ⟨?_, ?_, ?_, ⟨?_, ?_⟩, ?_⟩
  · intro r hr c hc hp
    rw [hw r hr c hc hp]
    exact hfill r hr c hc hp
  · intro i hi c1 hc1 c2 hc2 hp1 hp2 hne
    rw [hw i hi c1 hc1 hp1, hw i hi c2 hc2 hp2]
    exact hrows i hi c1 hc1 c2 hc2 hp1 hp2 hne
  · intro j hj r1 hr1 r2 hr2 hp1 hp2 hne
    rw [hw r1 hr1 j hj hp1, hw r2 hr2 j hj hp2]
    exact hcols j hj r1 hr1 r2 hr2 hp1 hp2 hne
  · intro i hi v
    rw [hrm, hmask.1 i hi v]
    constructor
    · rintro ⟨h1, h2, h3⟩
      refine ⟨h1, h2, ?_⟩
      intro c hc hp
      rw [hw i hi c hc hp]
      exact h3 c hc hp
    · rintro ⟨h1, h2, h3⟩
      refine ⟨h1, h2, ?_⟩
      intro c hc hp
      rw [← hw i hi c hc hp]
      exact h3 c hc hp
  · intro j hj v
    rw [hcm, hmask.2 j hj v]
    constructor
    · rintro ⟨h1, h2, h3⟩
      refine ⟨h1, h2, ?_⟩
      intro r hr hp
      rw [hw r hr j hj hp]
      exact h3 r hr hp
    · rintro ⟨h1, h2, h3⟩
      refine ⟨h1, h2, ?_⟩
      intro r hr hp
      rw [← hw r hr j hj hp]
      exact h3 r hr hp
  · intro cage hcage hlt
    have hcwf := hwf.2.2.1 cage hcage
    rw [satisfied_congr ken.size cage hcwf s2.work s.work ?_]
    · exact hcages cage hcage hlt
    · intro p hp
      have hple := hcwf.2.2.2.1 p hp
      have hpin := hcwf.2.1 p hp
      exact hw p.1 hpin.1 p.2 hpin.2 (posLe_lt_trans hple hlt)

/-- A list of n distinct values from 1..n is a permutation of 1..n. -/
theorem perm_range_of_distinct (n : ℕ) (l : List ℕ) (hlen : l.length = n)
    (hmem : ∀ v ∈ l, 1 ≤ v ∧ v ≤ n) (hnd : l.Nodup) :
    l.Perm (List.range' 1 n) := by
  have hsub : l ⊆ List.range' 1 n := by
    intro v hv
    rw [List.mem_range'_1]
    have := hmem v hv
    omega
  have hsp := List.subperm_of_subset hnd hsub
  exact hsp.perm_of_length_le (by rw [hlen, List.length_range'])

/-- The last element of a list is a member. -/
theorem mem_of_getLast_eq {α : Type} :
    ∀ (l : List α) (a : α), l.getLast? = some a → a ∈ l
  | [], a, h => absurd h (by simp)
  | [x], a, h => by
      rw [List.getLast?_singleton] at h
      rw [Option.some.inj h]
      exact List.mem_singleton_self a
  | x :: y :: ys, a, h => by
      rw [List.getLast?_cons_cons] at h
      exact List.mem_cons_of_mem x (mem_of_getLast_eq (y :: ys) a h)

/-- When the search accumulates exactly one grid, solve succeeds and
returns the projections solveSteps and solveGrid. -/
theorem solve_ok_of_len_one (ken : KenKen)
    (h : (searchFinal ken).res.length = 1) :
    solve ken = Except.ok (solveSteps ken, solveGrid ken) := by
  rcases hres : (searchFinal ken).res with _ | ⟨g0, rest⟩
  · rw [hres] at h
    simp at h
  · rcases rest with _ | ⟨g1, r2⟩
    · have hs : solve ken = Except.ok ((searchFinal ken).steps, g0) := by
        simp only [solve]
        rw [hres]
        rfl
      rw [hs]
      unfold solveSteps solveGrid
      rw [hs]
    · rw [hres] at h
      simp at h

/-- A cell strictly before another cell differs from it. -/
theorem ne_target_of_posLt {r c row col : ℕ}
    (h : posLt (r, c) (row, col)) : ¬(r = row ∧ c = col) := by
  have h2 : r < row ∨ (r = row ∧ c < col) := h
  omega

/-- When every in-grid cell lies before the position, the invariant gives
a fully valid grid. -/
theorem gridOk_of_inv (ken : KenKen) (hwf : WF ken) (row2 col2 : ℕ)
    (s : SearchState) (hinv : SearchInv ken row2 col2 s)
    (hall : ∀ r c, r < ken.size → c < ken.size → posLt (r, c) (row2, col2)) :
    GridOk ken s.work := by
  obtain ⟨hfill, hrows, hcols, hmask, hcages⟩ := hinv
  refine ⟨?_, ?_, ?_, ?_⟩
  · intro r hr c hc
    exact hfill r hr c hc (hall r c hr hc)
  · intro r hr c1 hc1 c2 hc2 hne
    exact hrows r hr c1 hc1 c2 hc2 (hall r c1 hr hc1) (hall r c2 hr hc2) hne
  · intro c hc r1 hr1 r2 hr2 hne
    exact hcols c hc r1 hr1 r2 hr2 (hall r1 c hr1 hc) (hall r2 c hr2 hc) hne
  · intro cage hcage
    have hcwf := hwf.2.2.1 cage hcage
    have hlin := hcwf.2.1 _ hcwf.2.2.1
    exact hcages cage hcage
      (hall cage.lastcell.1 cage.lastcell.2 hlin.1 hlin.2)

/-- Placing an admissible digit and clearing it from the masks carries
the search invariant to the next cell position. -/
theorem inv_step (ken : KenKen) (hwf : WF ken) (row col row2 col2 v : ℕ)
    (hrow : row < ken.size) (hcol : col < ken.size)
    (hpos : ∀ r c, r < ken.size → c < ken.size →
      (posLt (r, c) (row2, col2) ↔
        (posLt (r, c) (row, col) ∨ (r = row ∧ c = col))))
    (s : SearchState) (hinv : SearchInv ken row col s)
    (hv1 : 1 ≤ v) (hv2 : v ≤ ken.size)
    (hvrow : ∀ c2, c2 < ken.size → posLt (row, c2) (row, col) →
      s.work row c2 ≠ v)
    (hvcol : ∀ r2, r2 < ken.size → posLt (r2, col) (row, col) →
      s.work r2 col ≠ v)
    (hsat : constraint_satisfied ken (s.work.put row col v) row col = true)
    (s2 : SearchState) (hweq : s2.work = s.work.put row col v)
    (hrmeq : s2.rmask = upd s.rmask row (s.rmask row &&& (mask32 ^^^ 1 <<< v)))
    (hcmeq : s2.cmask = upd s.cmask col (s.cmask col &&& (mask32 ^^^ 1 <<< v))) :
    SearchInv ken row2 col2 s2 := by
  obtain ⟨hfill, hrows, hcols, hmask, hcages⟩ := hinv
  have h15 := hwf.2.1
  have hv32 : v < 32 := by omega
  refine ⟨?_, ?_, ?_, ⟨?_, ?_⟩, ?_⟩
  · intro r hr c hc hp
    rw [hweq]
    rcases (hpos r c hr hc).mp hp with h | h
    · rw [put_read_other _ _ _ _ _ _ (ne_target_of_posLt h)]
      exact hfill r hr c hc h
    · obtain ⟨h1, h2⟩ := h
      subst h1
      subst h2
      rw [put_read_same]
      exact ⟨hv1, hv2⟩
  · intro i hi c1 hc1 c2 hc2 hp1 hp2 hne
    rw [hweq]
    rcases (hpos i c1 hi hc1).mp hp1 with h1 | h1 <;>
      rcases (hpos i c2 hi hc2).mp hp2 with h2 | h2
    · rw [put_read_other _ _ _ _ _ _ (ne_target_of_posLt h1),
        put_read_other _ _ _ _ _ _ (ne_target_of_posLt h2)]
      exact hrows i hi c1 hc1 c2 hc2 h1 h2 hne
    · obtain ⟨h2a, h2b⟩ := h2
      subst h2a
      subst h2b
      rw [put_read_other _ _ _ _ _ _ (ne_target_of_posLt h1),
        put_read_same]
      exact hvrow c1 hc1 h1
    · obtain ⟨h1a, h1b⟩ := h1
      subst h1a
      subst h1b
      rw [put_read_other _ _ _ _ _ _ (ne_target_of_posLt h2),
        put_read_same]
      exact fun he => hvrow c2 hc2 h2 he.symm
    · exact absurd (h1.2.trans h2.2.symm) hne
  · intro j hj r1 hr1 r2 hr2 hp1 hp2 hne
    rw [hweq]
    rcases (hpos r1 j hr1 hj).mp hp1 with h1 | h1 <;>
      rcases (hpos r2 j hr2 hj).mp hp2 with h2 | h2
    · rw [put_read_other _ _ _ _ _ _ (ne_target_of_posLt h1),
        put_read_other _ _ _ _ _ _ (ne_target_of_posLt h2)]
      exact hcols j hj r1 hr1 r2 hr2 h1 h2 hne
    · obtain ⟨h2a, h2b⟩ := h2
      subst h2a
      subst h2b
      rw [put_read_other _ _ _ _ _ _ (ne_target_of_posLt h1),
        put_read_same]
      exact hvcol r1 hr1 h1
    · obtain ⟨h1a, h1b⟩ := h1
      subst h1a
      subst h1b
      rw [put_read_other _ _ _ _ _ _ (ne_target_of_posLt h2),
        put_read_same]
      exact fun he => hvcol r2 hr2 h2 he.symm
    · exact absurd (h1.1.trans h2.1.symm) hne
  · intro i hi u
    rw [hrmeq, hweq]
    by_cases hir : i = row
    · subst hir
      rw [upd_same]
      have hbc : (s.rmask i &&& (mask32 ^^^ 1 <<< v)).testBit u =
          ((s.rmask i).testBit u && (decide (u ≠ v) && decide (u < 32))) :=
        testBit_bclear (s.rmask i) v u hv32
      rw [hbc]
      simp only [Bool.and_eq_true, decide_eq_true_eq]
      constructor
      · rintro ⟨ht, hneuv, hu32⟩
        obtain ⟨h1, h2, h3⟩ := (hmask.1 i hi u).mp ht
        refine ⟨h1, h2, ?_⟩
        intro c hc hp
        rcases (hpos i c hi hc).mp hp with hcase | hcase
        · rw [put_read_other _ _ _ _ _ _ (ne_target_of_posLt hcase)]
          exact h3 c hc hcase
        · obtain ⟨-, hcb⟩ := hcase
          subst hcb
          rw [put_read_same]
          omega
      · rintro ⟨h1, h2, h3⟩
        have hneuv : u ≠ v := by
          have h4 := h3 col hcol ((hpos i col hi hcol).mpr (Or.inr ⟨rfl, rfl⟩))
          rw [put_read_same] at h4
          omega
        refine ⟨?_, hneuv, by omega⟩
        apply (hmask.1 i hi u).mpr
        refine ⟨h1, h2, ?_⟩
        intro c hc hp
        have h4 := h3 c hc ((hpos i c hi hc).mpr (Or.inl hp))
        rw [put_read_other _ _ _ _ _ _ (ne_target_of_posLt hp)] at h4
        exact h4
    · rw [upd_other2 _ _ _ _ hir, hmask.1 i hi u]
      constructor
      · rintro ⟨h1, h2, h3⟩
        refine ⟨h1, h2, ?_⟩
        intro c hc hp
        rcases (hpos i c hi hc).mp hp with hcase | hcase
        · rw [put_read_other _ _ _ _ _ _ (fun hct => hir hct.1)]
          exact h3 c hc hcase
        · exact absurd hcase.1 hir
      · rintro ⟨h1, h2, h3⟩
        refine ⟨h1, h2, ?_⟩
        intro c hc hp
        have h4 := h3 c hc ((hpos i c hi hc).mpr (Or.inl hp))
        rw [put_read_other _ _ _ _ _ _ (fun hct => hir hct.1)] at h4
        exact h4
  · intro j hj u
    rw [hcmeq, hweq]
    by_cases hjc : j = col
    · subst hjc
      rw [upd_same]
      have hbc : (s.cmask j &&& (mask32 ^^^ 1 <<< v)).testBit u =
          ((s.cmask j).testBit u && (decide (u ≠ v) && decide (u < 32))) :=
        testBit_bclear (s.cmask j) v u hv32
      rw [hbc]
      simp only [Bool.and_eq_true, decide_eq_true_eq]
      constructor
      · rintro ⟨ht, hneuv, hu32⟩
        obtain ⟨h1, h2, h3⟩ := (hmask.2 j hj u).mp ht
        refine ⟨h1, h2, ?_⟩
        intro r hr hp
        rcases (hpos r j hr hj).mp hp with hcase | hcase
        · rw [put_read_other _ _ _ _ _ _ (ne_target_of_posLt hcase)]
          exact h3 r hr hcase
        · obtain ⟨hca, -⟩ := hcase
          subst hca
          rw [put_read_same]
          omega
      · rintro ⟨h1, h2, h3⟩
        have hneuv : u ≠ v := by
          have h4 := h3 row hrow ((hpos row j hrow hj).mpr (Or.inr ⟨rfl, rfl⟩))
          rw [put_read_same] at h4
          omega
        refine ⟨?_, hneuv, by omega⟩
        apply (hmask.2 j hj u).mpr
        refine ⟨h1, h2, ?_⟩
        intro r hr hp
        have h4 := h3 r hr ((hpos r j hr hj).mpr (Or.inl hp))
        rw [put_read_other _ _ _ _ _ _ (ne_target_of_posLt hp)] at h4
        exact h4
    · rw [upd_other2 _ _ _ _ hjc, hmask.2 j hj u]
      constructor
      · rintro ⟨h1, h2, h3⟩
        refine ⟨h1, h2, ?_⟩
        intro r hr hp
        rcases (hpos r j hr hj).mp hp with hcase | hcase
        · rw [put_read_other _ _ _ _ _ _ (fun hct => hjc hct.2)]
          exact h3 r hr hcase
        · exact absurd hcase.2 hjc
      · rintro ⟨h1, h2, h3⟩
        refine ⟨h1, h2, ?_⟩
        intro r hr hp
        have h4 := h3 r hr ((hpos r j hr hj).mpr (Or.inl hp))
        rw [put_read_other _ _ _ _ _ _ (fun hct => hjc hct.2)] at h4
        exact h4
  · intro cage hcage hlt
    have hcwf := hwf.2.2.1 cage hcage
    obtain ⟨hne0, hin0, hlast0, hle0, hop0⟩ := hcwf
    have hlin := hin0 _ hlast0
    rw [hweq]
    rcases (hpos cage.lastcell.1 cage.lastcell.2 hlin.1 hlin.2).mp hlt with
      hcase | hcase
    · rw [satisfied_congr ken.size cage ⟨hne0, hin0, hlast0, hle0, hop0⟩
        (s.work.put row col v) s.work ?_]
      · exact hcages cage hcage hcase
      · intro p hp
        exact put_read_other s.work row col v p.1 p.2
          (ne_target_of_posLt (posLe_lt_trans (hle0 p hp) hcase))
    · obtain ⟨hl1, hl2⟩ := hcase
      have hlcell : cage.lastcell = (row, col) := Prod.ext hl1 hl2
      have hmemcell : (row, col) ∈ cage.cells := by
        rw [← hlcell]
        exact hlast0
      obtain ⟨gi, hgi, hgieq⟩ := List.mem_iff_getElem.mp hcage
      obtain ⟨ki, hki, hkieq⟩ := List.mem_iff_getElem.mp hmemcell
      have hgetD : ken.cages.getD gi default = cage := by
        rw [List.getD_eq_getElem _ _ hgi]
        exact hgieq
      have hkD : (ken.cages.getD gi default).cells.getD ki (0, 0) =
          (row, col) := by
        rw [hgetD, List.getD_eq_getElem _ _ hki]
        exact hkieq
      have hc2c := hwf.2.2.2.2 gi hgi ki (by rw [hgetD]; exact hki)
      rw [hkD] at hc2c
      dsimp only at hc2c
      unfold constraint_satisfied at hsat
      rw [hc2c] at hsat
      dsimp only at hsat
      rw [hgetD] at hsat
      rw [if_pos hlcell.symm] at hsat
      exact hsat

/-- Clearing one bit of a u32-bounded mask vector keeps it u32-bounded. -/
theorem upd_clear_lt_w32 (f : ℕ → ℕ) (row v : ℕ) (hf : ∀ i, f i < w32) :
    ∀ i, upd f row (f row &&& (mask32 ^^^ 1 <<< v)) i < w32 := by
  intro i
  by_cases hi : i = row
  · subst hi
    rw [upd_same]
    exact Nat.lt_of_le_of_lt (land_le_left _ _) (hf i)
  · rw [upd_other2 _ _ _ _ hi]
    exact hf i

/-- A set bit of a conjunction of masks is set in both masks. -/
theorem land_testBit_split (a b : ℕ) :
    ∀ u, (a &&& b).testBit u = true →
      a.testBit u = true ∧ b.testBit u = true := by
  intro u hu
  simp only [Nat.testBit_land, Bool.and_eq_true] at hu
  exact hu

/-- Cells before the current cell stay before the cell to its right. -/
theorem posLt_col_succ {r c row col : ℕ} (h : posLt (r, c) (row, col)) :
    posLt (r, c) (row, col + 1) := by
  have h2 : r < row ∨ (r = row ∧ c < col) := h
  show r < row ∨ (r = row ∧ c < col + 1)
  omega

/-- Cells before the current cell stay before the first cell of the next
row. -/
theorem posLt_row_succ {r c row col : ℕ} (h : posLt (r, c) (row, col)) :
    posLt (r, c) (row + 1, 0) := by
  have h2 : r < row ∨ (r = row ∧ c < col) := h
  show r < row + 1 ∨ (r = row + 1 ∧ c < 0)
  omega

/-- After an inner invocation that preserved the cleared masks and the
cells before the current one, re-adding the placed digit restores the
masks exactly and the invariant holds again at the current cell. -/
theorem rest_call_ready (ken : KenKen) (hwf : WF ken) (row col v : ℕ)
    (s R : SearchState)
    (hrm32 : ∀ i, s.rmask i < w32) (hcm32 : ∀ i, s.cmask i < w32)
    (hrv : (s.rmask row).testBit v = true)
    (hcv : (s.cmask col).testBit v = true)
    (hinv : SearchInv ken row col s)
    (hRr : R.rmask = upd s.rmask row (s.rmask row &&& (mask32 ^^^ 1 <<< v)))
    (hRc : R.cmask = upd s.cmask col (s.cmask col &&& (mask32 ^^^ 1 <<< v)))
    (hwork : ∀ r c, r < ken.size → c < ken.size →
      posLt (r, c) (row, col) → R.work r c = s.work r c) :
    (upd R.rmask row (R.rmask row ||| 1 <<< v) = s.rmask) ∧
    (upd R.cmask col (R.cmask col ||| 1 <<< v) = s.cmask) ∧
    SearchInv ken row col
      { work := R.work, res := R.res,
        rmask := upd R.rmask row (R.rmask row ||| 1 <<< v),
        cmask := upd R.cmask col (R.cmask col ||| 1 <<< v),
        steps := R.steps } := by
  have hmr : upd R.rmask row (R.rmask row ||| 1 <<< v) = s.rmask := by
    rw [hRr, upd_same, upd_upd]
    exact upd_of_eq _ _ _ (mask_restore (s.rmask row) v (hrm32 row) hrv)
  have hmc : upd R.cmask col (R.cmask col ||| 1 <<< v) = s.cmask := by
    rw [hRc, upd_same, upd_upd]
    exact upd_of_eq _ _ _ (mask_restore (s.cmask col) v (hcm32 col) hcv)
  refine ⟨hmr, hmc, ?_⟩
  exact searchInv_congr ken hwf row col s _
    (fun r hr c hc hp => hwork r c hr hc hp) hmr hmc hinv

/-- C1: solve reports the multiple-solutions error exactly when the
search accumulates two or more grids, the no-solution error exactly when
it accumulates none, and otherwise (exactly one accumulated grid) returns
Ok with the step count and that single grid. -/
theorem C1_solve_outcomes (ken : KenKen) :
    (solve ken = Except.error "found more than 1 solution" ↔
      2 ≤ (searchFinal ken).res.length) ∧
    (solve ken = Except.error "found no solution" ↔
      (searchFinal ken).res.length = 0) ∧
    ((searchFinal ken).res.length = 1 ↔
      solve ken = Except.ok ((searchFinal ken).steps,
        (searchFinal ken).res.getLastD default)) := by
  rcases hres : (searchFinal ken).res with _ | ⟨g0, rest⟩
  · have hsolve : solve ken = Except.error "found no solution" := by
      simp only [solve]
      rw [hres]
      rfl
    refine ⟨?_, ?_, ?_⟩
    · rw [hsolve]
      constructor
      · intro h
        injection h with h2
        exact absurd h2 (by decide)
      · intro h
        simp at h
    · rw [hsolve]
      simp
    · rw [hsolve]
      constructor
      · intro h
        simp at h
      · intro h
        exact Except.noConfusion h
  · rcases rest with _ | ⟨g1, rest2⟩
    · have hsolve : solve ken =
          Except.ok ((searchFinal ken).steps, g0) := by
        simp only [solve]
        rw [hres]
        rfl
      refine ⟨?_, ?_, ?_⟩
      · rw [hsolve]
        constructor
        · intro h
          exact Except.noConfusion h
        · intro h
          simp at h
      · rw [hsolve]
        constructor
        · intro h
          exact Except.noConfusion h
        · intro h
          simp at h
      · rw [hsolve]
        simp
    · have hsolve : solve ken =
          Except.error "found more than 1 solution" := by
        simp only [solve]
        rw [hres]
        rw [if_pos (by simp only [List.length_cons]; omega)]
      refine ⟨?_, ?_, ?_⟩
      · rw [hsolve]
        constructor
        · intro _
          simp only [List.length_cons]
          omega
        · intro _
          rfl
      · rw [hsolve]
        constructor
        · intro h
          injection h with h2
          exact absurd h2 (by decide)
        · intro h
          simp at h
      · rw [hsolve]
        constructor
        · intro h
          simp only [List.length_cons] at h
          omega
        · intro h
          exact Except.noConfusion h

/-- Soundness of the candidate loop for the result list: under the search
invariant, every grid in the output result list is either an old member
of the entry result list or a fully valid solution grid. -/
theorem innerList_res_sound (ken : KenKen) (cons : ℕ → ℕ → List ℕ)
    (hwf : WF ken) :
    ∀ (row col pval : ℕ) (cands : List ℕ) (s : SearchState),
    row < ken.size → col < ken.size →
    (∀ i, s.rmask i < w32) → (∀ i, s.cmask i < w32) →
    (∀ u, pval.testBit u = true →
      (s.rmask row).testBit u = true ∧ (s.cmask col).testBit u = true) →
    SearchInv ken row col s →
    ∀ g ∈ (innerList ken cons row col pval cands s).res,
      g ∈ s.res ∨ GridOk ken g
  | row, col, pval, [], s, hrow, hcol, hrm, hcm, hp, hinv => by
      have he : innerList ken cons row col pval [] s =
          { s with work := s.work.put row col 0 } := by
        simp only [innerList]
      rw [he]
      intro g hg
      exact Or.inl hg
  | row, col, pval, v :: rest, s, hrow, hcol, hrm, hcm, hp, hinv => by
      by_cases hg : pval &&& 1 <<< v = 0
      · simp only [innerList]
        rw [if_pos hg]
        exact innerList_res_sound ken cons hwf row col pval rest s hrow hcol
          hrm hcm hp hinv
      · have htb : pval.testBit v = true := by
          cases htb2 : pval.testBit v
          · exact absurd ((land_pow_eq_zero pval v).mpr htb2) hg
          · rfl
        have hrv : (s.rmask row).testBit v = true := (hp v htb).1
        have hcv : (s.cmask col).testBit v = true := (hp v htb).2
        obtain ⟨-, -, -, hmask0, -⟩ := id hinv
        obtain ⟨hmr0, hmc0⟩ := hmask0
        obtain ⟨hv1, hv2, hvrow⟩ := (hmr0 row hrow v).mp hrv
        obtain ⟨-, -, hvcol⟩ := (hmc0 col hcol v).mp hcv
        simp only [innerList]
        rw [if_neg hg]
        by_cases hsat :
            constraint_satisfied ken (s.work.put row col v) row col = true
        · rw [if_pos hsat]
          by_cases hcol2 : col < ken.size - 1
          · rw [if_pos hcol2]
            have hrm2 : ∀ i, upd s.rmask row
                (s.rmask row &&& (mask32 ^^^ 1 <<< v)) i < w32 :=
              upd_clear_lt_w32 s.rmask row v hrm
            have hcm2 : ∀ i, upd s.cmask col
                (s.cmask col &&& (mask32 ^^^ 1 <<< v)) i < w32 :=
              upd_clear_lt_w32 s.cmask col v hcm
            have hinv2 : SearchInv ken row (col + 1)
                { work := s.work.put row col v, res := s.res,
                  rmask := upd s.rmask row
                    (s.rmask row &&& (mask32 ^^^ 1 <<< v)),
                  cmask := upd s.cmask col
                    (s.cmask col &&& (mask32 ^^^ 1 <<< v)),
                  steps := s.steps + 1 } :=
              inv_step ken hwf row col row (col + 1) v hrow hcol
                (by
                  intro r c hr hc
                  show (r < row ∨ (r = row ∧ c < col + 1)) ↔
                    ((r < row ∨ (r = row ∧ c < col)) ∨ (r = row ∧ c = col))
                  omega)
                s hinv hv1 hv2 hvrow hvcol hsat _ rfl rfl rfl
            have hih := innerList_res_sound ken cons hwf row (col + 1)
              (upd s.rmask row (s.rmask row &&& (mask32 ^^^ 1 <<< v)) row &&&
                upd s.cmask col (s.cmask col &&& (mask32 ^^^ 1 <<< v))
                  (col + 1))
              (cons row (col + 1))
              { work := s.work.put row col v, res := s.res,
                rmask := upd s.rmask row
                  (s.rmask row &&& (mask32 ^^^ 1 <<< v)),
                cmask := upd s.cmask col
                  (s.cmask col &&& (mask32 ^^^ 1 <<< v)),
                steps := s.steps + 1 }
              hrow (by omega) hrm2 hcm2 (land_testBit_split _ _) hinv2
            have hfr := innerList_frame ken cons row (col + 1)
              (upd s.rmask row (s.rmask row &&& (mask32 ^^^ 1 <<< v)) row &&&
                upd s.cmask col (s.cmask col &&& (mask32 ^^^ 1 <<< v))
                  (col + 1))
              (cons row (col + 1))
              { work := s.work.put row col v, res := s.res,
                rmask := upd s.rmask row
                  (s.rmask row &&& (mask32 ^^^ 1 <<< v)),
                cmask := upd s.cmask col
                  (s.cmask col &&& (mask32 ^^^ 1 <<< v)),
                steps := s.steps + 1 }
              hrm2 hcm2 (land_testBit_split _ _)
            obtain ⟨⟨hRr0, hRc0⟩, -, -⟩ := hfr
            have hwb := innerList_work_before ken cons row (col + 1)
              (upd s.rmask row (s.rmask row &&& (mask32 ^^^ 1 <<< v)) row &&&
                upd s.cmask col (s.cmask col &&& (mask32 ^^^ 1 <<< v))
                  (col + 1))
              (cons row (col + 1))
              { work := s.work.put row col v, res := s.res,
                rmask := upd s.rmask row
                  (s.rmask row &&& (mask32 ^^^ 1 <<< v)),
                cmask := upd s.cmask col
                  (s.cmask col &&& (mask32 ^^^ 1 <<< v)),
                steps := s.steps + 1 }
            set R := innerList ken cons row (col + 1)
              (upd s.rmask row (s.rmask row &&& (mask32 ^^^ 1 <<< v)) row &&&
                upd s.cmask col (s.cmask col &&& (mask32 ^^^ 1 <<< v))
                  (col + 1))
              (cons row (col + 1))
              { work := s.work.put row col v, res := s.res,
                rmask := upd s.rmask row
                  (s.rmask row &&& (mask32 ^^^ 1 <<< v)),
                cmask := upd s.cmask col
                  (s.cmask col &&& (mask32 ^^^ 1 <<< v)),
                steps := s.steps + 1 } with hRdef
            have hready := rest_call_ready ken hwf row col v s R hrm hcm
              hrv hcv hinv hRr0 hRc0
              (by
                intro r c hr hc hp5
                rw [hwb r c (posLt_col_succ hp5)]
                exact put_read_other s.work row col v r c
                  (ne_target_of_posLt hp5))
            obtain ⟨hmr, hmc, hinv4⟩ := hready
            have hrest := innerList_res_sound ken cons hwf row col pval rest
              { work := R.work, res := R.res,
                rmask := upd R.rmask row (R.rmask row ||| 1 <<< v),
                cmask := upd R.cmask col (R.cmask col ||| 1 <<< v),
                steps := R.steps }
              hrow hcol
              (by
                show ∀ i, upd R.rmask row (R.rmask row ||| 1 <<< v) i < w32
                rw [hmr]
                exact hrm)
              (by
                show ∀ i, upd R.cmask col (R.cmask col ||| 1 <<< v) i < w32
                rw [hmc]
                exact hcm)
              (by
                show ∀ u, pval.testBit u = true →
                  (upd R.rmask row (R.rmask row ||| 1 <<< v) row).testBit u =
                    true ∧
                  (upd R.cmask col (R.cmask col ||| 1 <<< v) col).testBit u =
                    true
                rw [hmr, hmc]
                exact hp)
              hinv4
            intro g hg9
            rcases hrest g hg9 with h7 | h7
            · rcases hih g h7 with h8 | h8
              · exact Or.inl h8
              · exact Or.inr h8
            · exact Or.inr h7
          · rw [if_neg hcol2]
            by_cases hrow2 : row < ken.size - 1
            · rw [if_pos hrow2]
              have hrm2 : ∀ i, upd s.rmask row
                  (s.rmask row &&& (mask32 ^^^ 1 <<< v)) i < w32 :=
                upd_clear_lt_w32 s.rmask row v hrm
              have hcm2 : ∀ i, upd s.cmask col
                  (s.cmask col &&& (mask32 ^^^ 1 <<< v)) i < w32 :=
                upd_clear_lt_w32 s.cmask col v hcm
              have hinv2 : SearchInv ken (row + 1) 0
                  { work := s.work.put row col v, res := s.res,
                    rmask := upd s.rmask row
                      (s.rmask row &&& (mask32 ^^^ 1 <<< v)),
                    cmask := upd s.cmask col
                      (s.cmask col &&& (mask32 ^^^ 1 <<< v)),
                    steps := s.steps + 1 } :=
                inv_step ken hwf row col (row + 1) 0 v hrow hcol
                  (by
                    intro r c hr hc
                    show (r < row + 1 ∨ (r = row + 1 ∧ c < 0)) ↔
                      ((r < row ∨ (r = row ∧ c < col)) ∨ (r = row ∧ c = col))
                    omega)
                  s hinv hv1 hv2 hvrow hvcol hsat _ rfl rfl rfl
              have hih := innerList_res_sound ken cons hwf (row + 1) 0
                (upd s.rmask row (s.rmask row &&& (mask32 ^^^ 1 <<< v))
                    (row + 1) &&&
                  upd s.cmask col (s.cmask col &&& (mask32 ^^^ 1 <<< v)) 0)
                (cons (row + 1) 0)
                { work := s.work.put row col v, res := s.res,
                  rmask := upd s.rmask row
                    (s.rmask row &&& (mask32 ^^^ 1 <<< v)),
                  cmask := upd s.cmask col
                    (s.cmask col &&& (mask32 ^^^ 1 <<< v)),
                  steps := s.steps + 1 }
                (by omega) (by omega) hrm2 hcm2 (land_testBit_split _ _) hinv2
              have hfr := innerList_frame ken cons (row + 1) 0
                (upd s.rmask row (s.rmask row &&& (mask32 ^^^ 1 <<< v))
                    (row + 1) &&&
                  upd s.cmask col (s.cmask col &&& (mask32 ^^^ 1 <<< v)) 0)
                (cons (row + 1) 0)
                { work := s.work.put row col v, res := s.res,
                  rmask := upd s.rmask row
                    (s.rmask row &&& (mask32 ^^^ 1 <<< v)),
                  cmask := upd s.cmask col
                    (s.cmask col &&& (mask32 ^^^ 1 <<< v)),
                  steps := s.steps + 1 }
                hrm2 hcm2 (land_testBit_split _ _)
              obtain ⟨⟨hRr0, hRc0⟩, -, -⟩ := hfr
              have hwb := innerList_work_before ken cons (row + 1) 0
                (upd s.rmask row (s.rmask row &&& (mask32 ^^^ 1 <<< v))
                    (row + 1) &&&
                  upd s.cmask col (s.cmask col &&& (mask32 ^^^ 1 <<< v)) 0)
                (cons (row + 1) 0)
                { work := s.work.put row col v, res := s.res,
                  rmask := upd s.rmask row
                    (s.rmask row &&& (mask32 ^^^ 1 <<< v)),
                  cmask := upd s.cmask col
                    (s.cmask col &&& (mask32 ^^^ 1 <<< v)),
                  steps := s.steps + 1 }
              set R := innerList ken cons (row + 1) 0
                (upd s.rmask row (s.rmask row &&& (mask32 ^^^ 1 <<< v))
                    (row + 1) &&&
                  upd s.cmask col (s.cmask col &&& (mask32 ^^^ 1 <<< v)) 0)
                (cons (row + 1) 0)
                { work := s.work.put row col v, res := s.res,
                  rmask := upd s.rmask row
                    (s.rmask row &&& (mask32 ^^^ 1 <<< v)),
                  cmask := upd s.cmask col
                    (s.cmask col &&& (mask32 ^^^ 1 <<< v)),
                  steps := s.steps + 1 } with hRdef
              have hready := rest_call_ready ken hwf row col v s R hrm hcm
                hrv hcv hinv hRr0 hRc0
                (by
                  intro r c hr hc hp5
                  rw [hwb r c (posLt_row_succ hp5)]
                  exact put_read_other s.work row col v r c
                    (ne_target_of_posLt hp5))
              obtain ⟨hmr, hmc, hinv4⟩ := hready
              have hrest := innerList_res_sound ken cons hwf row col pval rest
                { work := R.work, res := R.res,
                  rmask := upd R.rmask row (R.rmask row ||| 1 <<< v),
                  cmask := upd R.cmask col (R.cmask col ||| 1 <<< v),
                  steps := R.steps }
                hrow hcol
                (by
                  show ∀ i, upd R.rmask row (R.rmask row ||| 1 <<< v) i < w32
                  rw [hmr]
                  exact hrm)
                (by
                  show ∀ i, upd R.cmask col (R.cmask col ||| 1 <<< v) i < w32
                  rw [hmc]
                  exact hcm)
                (by
                  show ∀ u, pval.testBit u = true →
                    (upd R.rmask row (R.rmask row ||| 1 <<< v) row).testBit u =
                      true ∧
                    (upd R.cmask col (R.cmask col ||| 1 <<< v) col).testBit u =
                      true
                  rw [hmr, hmc]
                  exact hp)
                hinv4
              intro g hg9
              rcases hrest g hg9 with h7 | h7
              · rcases hih g h7 with h8 | h8
                · exact Or.inl h8
                · exact Or.inr h8
              · exact Or.inr h7
            · rw [if_neg hrow2]
              have hmr : upd
                  (upd s.rmask row (s.rmask row &&& (mask32 ^^^ 1 <<< v))) row
                  (upd s.rmask row (s.rmask row &&& (mask32 ^^^ 1 <<< v)) row |||
                    1 <<< v) = s.rmask := by
                rw [upd_same, upd_upd]
                exact upd_of_eq _ _ _
                  (mask_restore (s.rmask row) v (hrm row) hrv)
              have hmc : upd
                  (upd s.cmask col (s.cmask col &&& (mask32 ^^^ 1 <<< v))) col
                  (upd s.cmask col (s.cmask col &&& (mask32 ^^^ 1 <<< v)) col |||
                    1 <<< v) = s.cmask := by
                rw [upd_same, upd_upd]
                exact upd_of_eq _ _ _
                  (mask_restore (s.cmask col) v (hcm col) hcv)
              have hinv3 : SearchInv ken row (col + 1)
                  { work := s.work.put row col v,
                    res := s.res ++ [s.work.put row col v],
                    rmask := upd s.rmask row
                      (s.rmask row &&& (mask32 ^^^ 1 <<< v)),
                    cmask := upd s.cmask col
                      (s.cmask col &&& (mask32 ^^^ 1 <<< v)),
                    steps := s.steps } :=
                inv_step ken hwf row col row (col + 1) v hrow hcol
                  (by
                    intro r c hr hc
                    show (r < row ∨ (r = row ∧ c < col + 1)) ↔
                      ((r < row ∨ (r = row ∧ c < col)) ∨ (r = row ∧ c = col))
                    omega)
                  s hinv hv1 hv2 hvrow hvcol hsat _ rfl rfl rfl
              have hgok : GridOk ken (s.work.put row col v) :=
                gridOk_of_inv ken hwf row (col + 1)
                  { work := s.work.put row col v,
                    res := s.res ++ [s.work.put row col v],
                    rmask := upd s.rmask row
                      (s.rmask row &&& (mask32 ^^^ 1 <<< v)),
                    cmask := upd s.cmask col
                      (s.cmask col &&& (mask32 ^^^ 1 <<< v)),
                    steps := s.steps }
                  hinv3
                  (by
                    intro r c hr hc
                    show r < row ∨ (r = row ∧ c < col + 1)
                    omega)
              have hinv4 : SearchInv ken row col
                  { work := s.work.put row col v,
                    res := s.res ++ [s.work.put row col v],
                    rmask := upd
                      (upd s.rmask row (s.rmask row &&& (mask32 ^^^ 1 <<< v)))
                      row
                      (upd s.rmask row (s.rmask row &&& (mask32 ^^^ 1 <<< v))
                        row ||| 1 <<< v),
                    cmask := upd
                      (upd s.cmask col (s.cmask col &&& (mask32 ^^^ 1 <<< v)))
                      col
                      (upd s.cmask col (s.cmask col &&& (mask32 ^^^ 1 <<< v))
                        col ||| 1 <<< v),
                    steps := s.steps } :=
                searchInv_congr ken hwf row col s _
                  (fun r hr c hc hp5 => put_read_other s.work row col v r c
                    (ne_target_of_posLt hp5))
                  hmr hmc hinv
              have hrest := innerList_res_sound ken cons hwf row col pval rest
                { work := s.work.put row col v,
                  res := s.res ++ [s.work.put row col v],
                  rmask := upd
                    (upd s.rmask row (s.rmask row &&& (mask32 ^^^ 1 <<< v)))
                    row
                    (upd s.rmask row (s.rmask row &&& (mask32 ^^^ 1 <<< v))
                      row ||| 1 <<< v),
                  cmask := upd
                    (upd s.cmask col (s.cmask col &&& (mask32 ^^^ 1 <<< v)))
                    col
                    (upd s.cmask col (s.cmask col &&& (mask32 ^^^ 1 <<< v))
                      col ||| 1 <<< v),
                  steps := s.steps }
                hrow hcol
                (by
                  show ∀ i, upd
                    (upd s.rmask row (s.rmask row &&& (mask32 ^^^ 1 <<< v)))
                    row
                    (upd s.rmask row (s.rmask row &&& (mask32 ^^^ 1 <<< v))
                      row ||| 1 <<< v) i < w32
                  rw [hmr]
                  exact hrm)
                (by
                  show ∀ i, upd
                    (upd s.cmask col (s.cmask col &&& (mask32 ^^^ 1 <<< v)))
                    col
                    (upd s.cmask col (s.cmask col &&& (mask32 ^^^ 1 <<< v))
                      col ||| 1 <<< v) i < w32
                  rw [hmc]
                  exact hcm)
                (by
                  rw [hmr, hmc]
                  exact hp)
                hinv4
              intro g hg9
              rcases hrest g hg9 with h7 | h7
              · have h7b : g ∈ s.res ++ [s.work.put row col v] := h7
                rcases List.mem_append.mp h7b with h8 | h8
                · exact Or.inl h8
                · right
                  rw [List.mem_singleton] at h8
                  rw [h8]
                  exact hgok
              · exact Or.inr h7
        · rw [if_neg hsat]
          have hinv1 : SearchInv ken row col
              { s with work := s.work.put row col v } :=
            searchInv_congr ken hwf row col s _
              (fun r hr c hc hp5 => put_read_other s.work row col v r c
                (ne_target_of_posLt hp5))
              rfl rfl hinv
          exact innerList_res_sound ken cons hwf row col pval rest
            { s with work := s.work.put row col v } hrow hcol hrm hcm hp hinv1
  termination_by row col _pval cands _s => (ken.size - row, ken.size - col, cands.length)
  decreasing_by
  all_goals
    first
    | (apply Prod.Lex.right; apply Prod.Lex.right; simp)
    | (apply Prod.Lex.right; apply Prod.Lex.left; omega)
    | (apply Prod.Lex.left; omega)

/-- The initial occupancy masks are u32 values for sizes up to 15. -/
theorem new_full_lt_w32 (n : ℕ) (hn : n ≤ 15) : new_full n < w32 := by
  have h1 : new_full n = 2 * (2 ^ n - 1) := by
    unfold new_full
    rw [one_shiftLeft, pow_succ]
    have h0 : 1 ≤ 2 ^ n := Nat.one_le_two_pow
    omega
  have h2 : (2 : ℕ) ^ n ≤ 2 ^ 15 := Nat.pow_le_pow_right (by norm_num) hn
  have h3 : (2 : ℕ) ^ 15 = 32768 := by norm_num
  rw [h3] at h2
  rw [h1, w32_eq]
  omega

/-- The search invariant holds at the root invocation on the fresh
state built by solve. -/
theorem searchInv_init (ken : KenKen) :
    SearchInv ken 0 0
      { work := fun _ _ => 0, res := [],
        rmask := fun _ => ((1 <<< ken.size) - 1) <<< 1,
        cmask := fun _ => ((1 <<< ken.size) - 1) <<< 1,
        steps := 1 } := by
  have hvac : ∀ r c : ℕ, ¬ posLt (r, c) (0, 0) := by
    intro r c h
    have h2 : r < 0 ∨ (r = 0 ∧ c < 0) := h
    omega
  refine ⟨?_, ?_, ?_, ⟨?_, ?_⟩, ?_⟩
  · intro r hr c hc hp
    exact absurd hp (hvac r c)
  · intro i hi c1 hc1 c2 hc2 hp1 hp2 hne
    exact absurd hp1 (hvac i c1)
  · intro j hj r1 hr1 r2 hr2 hp1 hp2 hne
    exact absurd hp1 (hvac r1 j)
  · intro i hi v
    show (((1 <<< ken.size) - 1) <<< 1).testBit v = true ↔ _
    rw [initMask_eq, testBit_new_full]
    constructor
    · intro h
      simp only [Bool.and_eq_true, decide_eq_true_eq] at h
      exact ⟨h.1, h.2, fun c hc hp => absurd hp (hvac i c)⟩
    · rintro ⟨h1, h2, h3⟩
      simp only [Bool.and_eq_true, decide_eq_true_eq]
      exact ⟨h1, h2⟩
  · intro j hj v
    show (((1 <<< ken.size) - 1) <<< 1).testBit v = true ↔ _
    rw [initMask_eq, testBit_new_full]
    constructor
    · intro h
      simp only [Bool.and_eq_true, decide_eq_true_eq] at h
      exact ⟨h.1, h.2, fun r hr hp => absurd hp (hvac r j)⟩
    · rintro ⟨h1, h2, h3⟩
      simp only [Bool.and_eq_true, decide_eq_true_eq]
      exact ⟨h1, h2⟩
  · intro cage hcage hp
    exact absurd hp (hvac cage.lastcell.1 cage.lastcell.2)

/-- Every grid accumulated by the complete search run is fully valid. -/
theorem searchFinal_res_gridOk (ken : KenKen) (hwf : WF ken) :
    ∀ g ∈ (searchFinal ken).res, GridOk ken g := by
  intro g hg
  have h0 : 0 < ken.size := by
    have h2 := hwf.1
    omega
  have hmlt : ∀ i : ℕ, ((1 <<< ken.size) - 1) <<< 1 < w32 := by
    intro i
    rw [initMask_eq]
    exact new_full_lt_w32 ken.size hwf.2.1
  have hres := innerList_res_sound ken (mkCons ken) hwf 0 0
    ((((1 <<< ken.size) - 1) <<< 1) &&& (((1 <<< ken.size) - 1) <<< 1))
    (mkCons ken 0 0)
    { work := fun _ _ => 0, res := [],
      rmask := fun _ => ((1 <<< ken.size) - 1) <<< 1,
      cmask := fun _ => ((1 <<< ken.size) - 1) <<< 1,
      steps := 1 }
    h0 h0 hmlt hmlt (land_testBit_split _ _) (searchInv_init ken)
  rcases hres g hg with h1 | h1
  · exact absurd h1 (List.not_mem_nil g)
  · exact h1

/-- Each row of a fully valid grid is a permutation of 1..n. -/
theorem rowOf_perm (ken : KenKen) (g : Grid) (hok : GridOk ken g)
    (r : ℕ) (hr : r < ken.size) :
    (rowOf g ken.size r).Perm (List.range' 1 ken.size) := by
  apply perm_range_of_distinct
  · simp [rowOf]
  · intro v hv
    simp only [rowOf, List.mem_map, List.mem_range] at hv
    obtain ⟨c, hc, hceq⟩ := hv
    rw [← hceq]
    exact hok.1 r hr c hc
  · refine List.Nodup.map_on ?_ (List.nodup_range ken.size)
    intro c1 hc1 c2 hc2 heq
    by_contra hne
    exact hok.2.1 r hr c1 (List.mem_range.mp hc1) c2
      (List.mem_range.mp hc2) hne heq

/-- Each column of a fully valid grid is a permutation of 1..n. -/
theorem colOf_perm (ken : KenKen) (g : Grid) (hok : GridOk ken g)
    (c : ℕ) (hc : c < ken.size) :
    (colOf g ken.size c).Perm (List.range' 1 ken.size) := by
  apply perm_range_of_distinct
  · simp [colOf]
  · intro v hv
    simp only [colOf, List.mem_map, List.mem_range] at hv
    obtain ⟨r, hr, hreq⟩ := hv
    rw [← hreq]
    exact hok.1 r hr c hc
  · refine List.Nodup.map_on ?_ (List.nodup_range ken.size)
    intro r1 hr1 r2 hr2 heq
    by_contra hne
    exact hok.2.2.1 c hc r1 (List.mem_range.mp hr1) r2
      (List.mem_range.mp hr2) hne heq

/-- C3: whenever solve returns Ok on a well-formed puzzle, every entry of
the returned grid is a digit 1..N and never 0, every row and every
column of the grid is a permutation of 1..N, and every cage passes its
combine-to-goal check Cage.satisfied (the u32 arithmetic of the code). -/
theorem C3_solve_ok_valid (ken : KenKen) (hwf : WF ken)
    (steps : ℕ) (g : Grid)
    (hok : solve ken = Except.ok (steps, g)) :
    (∀ r, r < ken.size → ∀ c, c < ken.size →
      1 ≤ g r c ∧ g r c ≤ ken.size) ∧
    (∀ r, r < ken.size →
      (rowOf g ken.size r).Perm (List.range' 1 ken.size)) ∧
    (∀ c, c < ken.size →
      (colOf g ken.size c).Perm (List.range' 1 ken.size)) ∧
    (∀ cage ∈ ken.cages, Cage.satisfied cage g = true) := by
  have hgok : GridOk ken g := by
    by_cases hlen : (searchFinal ken).res.length > 1
    · exfalso
      have hserr : solve ken = Except.error "found more than 1 solution" := by
        simp only [solve]
        rw [if_pos hlen]
      rw [hserr] at hok
      exact Except.noConfusion hok
    · cases hl : (searchFinal ken).res.getLast? with
      | none =>
          exfalso
          have hserr : solve ken = Except.error "found no solution" := by
            simp only [solve]
            rw [if_neg hlen, hl]
          rw [hserr] at hok
          exact Except.noConfusion hok
      | some g2 =>
          have hs : solve ken = Except.ok ((searchFinal ken).steps, g2) := by
            simp only [solve]
            rw [if_neg hlen, hl]
          rw [hs] at hok
          injection hok with h2
          have hg2 : g2 = g := congrArg Prod.snd h2
          have hmem : g ∈ (searchFinal ken).res := by
            rw [← hg2]
            exact mem_of_getLast_eq _ g2 hl
          exact searchFinal_res_gridOk ken hwf g hmem
  refine ⟨hgok.1, ?_, ?_, hgok.2.2.2⟩
  · intro r hr
    exact rowOf_perm ken g hgok r hr
  · intro c hc
    exact colOf_perm ken g hgok c hc

/-- Witness for C3 on the concrete puzzle p1, whose solve run returns Ok
with the projections solveSteps and solveGrid. -/
theorem C3_witness :
    (WF p1 ∧ solve p1 = Except.ok (solveSteps p1, solveGrid p1)) ∧
    ((∀ r, r < p1.size → ∀ c, c < p1.size →
      1 ≤ solveGrid p1 r c ∧ solveGrid p1 r c ≤ p1.size) ∧
    (∀ r, r < p1.size →
      (rowOf (solveGrid p1) p1.size r).Perm (List.range' 1 p1.size)) ∧
    (∀ c, c < p1.size →
      (colOf (solveGrid p1) p1.size c).Perm (List.range' 1 p1.size)) ∧
    (∀ cage ∈ p1.cages, Cage.satisfied cage (solveGrid p1) = true)) :=
  ⟨⟨by decide, solve_ok_of_len_one p1 p1_res_length⟩,
    C3_solve_ok_valid p1 (by decide) (solveSteps p1) (solveGrid p1)
      (solve_ok_of_len_one p1 p1_res_length)⟩

end Kenken
